import Mathlib

/-!
# Pachyderm: the in-memory PFS driver and the local block server

A shallow embedding of `src/pfs/drive/driver.go` (the in-memory driver) and of
the block scanning code of `src/pfs/server/local_block_api_server.go`,
followed by the later server code: the unordered writer of
`src/internal/storage/fileset/unordered_writer.go`, `ModifyFile` and
`CreateBranch` of `src/server/pfs/server/api_server.go`, and the datum sets of
`src/server/worker/datum/datum.go`; and by the job store of
`src/pps/persist/server/rethink_api_server.go`, the pipeline poller of
`src/server/pps/server/poller.go`, the diff paths of the local block server
and the commit waiters of `src/server/pfs/server/internal_api_server.go`.

Conventions of the embedding

* Go maps are association lists (`mget` / `mset`); a `range` over a map visits
  the bindings in list order, which is one of the orders Go may choose.
* A Go pointer that may be nil is an `Option`.
* `uint64` fields are natural numbers reduced modulo `2 ^ 64` where the code
  does arithmetic on them.
* A call either returns (`Status.ok` / `Status.error`), dereferences nil or
  writes to a nil map (`Status.panic`), or is still running when the fuel given
  to one of its loops is used up (`Status.timeout`).
* Every mutating method returns the driver state it leaves behind together
  with its status, so that a mutation made before an error is visible.
-/

namespace Pachyderm

/-! ## Go maps -/

/-- Map lookup `m[k]`: the first binding of `k`, if any. -/
def mget {K V : Type} [DecidableEq K] : List (K × V) → K → Option V
  | [], _ => none
  | (k', v) :: rest, k => if k' = k then some v else mget rest k

/-- Map assignment `m[k] = v`: the binding of `k` is replaced where it stands,
a new key is added at the end. -/
def mset {K V : Type} [DecidableEq K] : List (K × V) → K → V → List (K × V)
  | [], k, v => [(k, v)]
  | (k', v') :: rest, k, v =>
    if k' = k then (k, v) :: rest else (k', v') :: mset rest k v

/-! ## Lexical paths (Go package `path`)

`path.Clean` and `path.Dir` of the Go library, on the characters of a string.
The only bytes these functions inspect are `/` and `.`, so working on the
characters of a UTF-8 string gives the bytes Go computes. -/

/-- Components of a path between slashes, as `strings.Split(p, "/")`. -/
def splitSlash : List Char → List (List Char)
  | [] => [[]]
  | c :: cs =>
    if c = '/' then [] :: splitSlash cs
    else
      match splitSlash cs with
      | [] => [[c]]
      | h :: t => (c :: h) :: t

/-- One element of the path processed by `path.Clean`; `stack` holds the
elements kept so far, the last one first. -/
def cleanStep (rooted : Bool) (stack : List (List Char)) (comp : List Char) :
    List (List Char) :=
  if comp = [] ∨ comp = ['.'] then stack
  else if comp = ['.', '.'] then
    match stack with
    | top :: rest => if top = ['.', '.'] then comp :: stack else rest
    | [] => if rooted then [] else [comp]
  else comp :: stack

/-- Elements joined by single slashes. -/
def joinSlash : List (List Char) → List Char
  | [] => []
  | [c] => c
  | c :: rest => c ++ '/' :: joinSlash rest

/-- The function `path.Clean` on the characters of a path: empty and `.`
elements are dropped, `..` removes the element before it (or is kept at the
start of a relative path, or dropped at the root), and the empty result is `.`. -/
def cleanChars (p : List Char) : List Char :=
  let rooted : Bool := p.head? = some '/'
  let body := joinSlash ((splitSlash p).foldl (cleanStep rooted) []).reverse
  if rooted then '/' :: body
  else if body = [] then ['.'] else body

/-- The part of a path up to and including its last slash (first result of
`path.Split`). -/
def dirPart (p : List Char) : List Char :=
  (p.reverse.dropWhile (fun c => decide (c ≠ '/'))).reverse

/-- Go `path.Clean`. -/
def Clean (p : String) : String := ⟨cleanChars p.data⟩

/-- Go `path.Dir`: `Clean` of the path up to its last slash. -/
def Dir (p : String) : String := ⟨cleanChars (dirPart p.data)⟩

/-! ## Data model (package `pfs`) -/

structure Commit where
  repo : String
  id : String
deriving DecidableEq, Repr

structure File where
  commit : Commit
  path : String
deriving DecidableEq, Repr

structure ByteRange where
  lower : Nat
  upper : Nat
deriving DecidableEq, Repr

structure BlockRef where
  hash : String
  range : ByteRange
deriving DecidableEq, Repr

structure Diff where
  commit : Commit
  shard : Nat
deriving DecidableEq, Repr

/-- What one commit appended to one path. `children` is the Go map
`Children` (nil and empty are both `[]`); `lastRef` is the nearest earlier
commit that has an `Append` for the path. -/
structure Append where
  blockRefs : List BlockRef := []
  children : List (String × Bool) := []
  lastRef : Option Commit := none
deriving DecidableEq, Repr

/-- A `DiffInfo`; `appends = none` is the nil map of a value that was built
without `Appends` (as in `CreateRepo`). -/
structure DiffInfo where
  diff : Diff
  parentCommit : Option Commit := none
  started : Option Nat := none
  finished : Option Nat := none
  appends : Option (List (String × Append)) := none
  sizeBytes : Nat := 0
  branch : String := ""
deriving DecidableEq, Repr

inductive FileType where
  | none
  | regular
  | dir
deriving DecidableEq, Repr

structure FileInfo where
  file : File
  fileType : FileType := FileType.none
  sizeBytes : Nat := 0
  commitModified : Option Commit := none
  modified : Option Nat := none
  children : List File := []
deriving DecidableEq, Repr

inductive CommitType where
  | read
  | write
deriving DecidableEq, Repr

structure CommitInfo where
  commit : Commit
  commitType : CommitType
  branch : String
  parentCommit : Option Commit
  started : Option Nat
  finished : Option Nat
  sizeBytes : Nat
deriving DecidableEq, Repr

/-- The errors the driver builds with `fmt.Errorf`, one constructor for each
message, and the sentinel `ErrFileNotFound`. -/
inductive DriverError where
  | repoExists (repo : String)
  | repoNotFound (repo : String)
  | commitNotFound (repo id : String)
  | commitFinished (repo id : String)
  | commitExists (repo id : String)
  | branchExists (branch head parentID : String)
  | branchConflict (branch : String)
  | unreachable
  | foreignCommit (repo id : String)
  | diffNotFound (repo id : String)
  | mixedDirFile (repo id path : String)
  | fileNotFound
  | isDirectory (repo id path : String)
  | multipleCommitInfos
  | blockClient (msg : String)
deriving DecidableEq, Repr

/-- How a call of a method that returns only an error ends. -/
inductive Status where
  | ok
  | error (e : DriverError)
  | panic
  | timeout
deriving DecidableEq, Repr

/-- How a call that returns a value ends. -/
inductive Res (α : Type) where
  | ok (a : α)
  | error (e : DriverError)
  | panic
  | timeout
deriving DecidableEq, Repr

/-- The record `dag.DAG` keeps of its `NewNode(id, parents)` calls, in call
order. The package `dag` itself is not part of the sources at hand. -/
structure DAG where
  nodes : List (String × List String) := []
deriving DecidableEq, Repr

abbrev DiffMap := List (String × List (Nat × List (String × DiffInfo)))

structure Driver where
  diffs : DiffMap := []
  dags : List (String × DAG) := []
  branches : List (String × List (String × String)) := []
deriving DecidableEq, Repr

def uint64Size : Nat := 2 ^ 64

/-- Go `a - b` on `uint64`. -/
def subU64 (a b : Nat) : Nat := (a % uint64Size + uint64Size - b % uint64Size) % uint64Size

/-- Go `a + b` on `uint64`. -/
def addU64 (a b : Nat) : Nat := (a + b) % uint64Size

/-! ## `diffMap` -/

/-- The method `diffMap.get`. -/
def DiffMap.get (d : DiffMap) (diff : Diff) : Option DiffInfo :=
  match mget d diff.commit.repo with
  | none => none
  | some shardMap =>
    match mget shardMap diff.shard with
    | none => none
    | some commitMap => mget commitMap diff.commit.id

/-- The method `diffMap.insert`: the new map and the error returned. -/
def DiffMap.insert (d : DiffMap) (diffInfo : DiffInfo) : DiffMap × Option DriverError :=
  let diff := diffInfo.diff
  match mget d diff.commit.repo with
  | none => (d, some (DriverError.repoNotFound diff.commit.repo))
  | some shardMap =>
    let commitMap := (mget shardMap diff.shard).getD []
    match mget commitMap diff.commit.id with
    | some _ => (d, some (DriverError.commitExists diff.commit.repo diff.commit.id))
    | none =>
      (mset d diff.commit.repo (mset shardMap diff.shard (mset commitMap diff.commit.id diffInfo)),
        none)

/-- A write through the pointer that `diffMap.get` returned for `diff`: the
stored `DiffInfo` becomes `diffInfo`. -/
def DiffMap.store (d : DiffMap) (diff : Diff) (diffInfo : DiffInfo) : DiffMap :=
  match mget d diff.commit.repo with
  | none => d
  | some shardMap =>
    match mget shardMap diff.shard with
    | none => d
    | some commitMap =>
      mset d diff.commit.repo (mset shardMap diff.shard (mset commitMap diff.commit.id diffInfo))

/-! ## The driver -/

/-- The function `newDriver`. -/
def newDriver : Driver := {}

/-- The method `DAG.NewNode`, as far as the driver is concerned. -/
def DAG.NewNode (g : DAG) (id : String) (parents : List String) : DAG :=
  { nodes := g.nodes ++ [(id, parents)] }

/-- The method `driver.createRepoState`. -/
def createRepoState (d : Driver) (repo : String) : Driver :=
  match mget d.diffs repo with
  | some _ => d
  | none =>
    { diffs := mset d.diffs repo [],
      dags := mset d.dags repo {},
      branches := mset d.branches repo [] }

/-- The loop of `driver.CreateRepo` over the shards. -/
def createRepoShards (d : Driver) (repo : String) (created : Option Nat) :
    List Nat → Driver × Status
  | [] => (d, Status.ok)
  | shard :: rest =>
    match d.diffs.insert { diff := ⟨⟨repo, ""⟩, shard⟩, finished := created } with
    | (diffs, some e) => ({ d with diffs := diffs }, Status.error e)
    | (diffs, none) => createRepoShards { d with diffs := diffs } repo created rest

/-- The method `driver.CreateRepo`; `client` is the error of `getBlockClient`,
if any, and `store` the outcome of sending the new diffs to the block server. -/
def CreateRepo (client store : Option DriverError) (d : Driver) (repo : String)
    (created : Option Nat) (shards : List Nat) : Driver × Status :=
  match mget d.diffs repo with
  | some _ => (d, Status.error (DriverError.repoExists repo))
  | none =>
    match client with
    | some e => (createRepoState d repo, Status.error e)
    | none =>
      match createRepoShards (createRepoState d repo) repo created shards with
      | (d1, Status.ok) =>
        (d1, match store with
          | none => Status.ok
          | some e => Status.error e)
      | r => r

/-- The method `driver.canonicalCommit`: a branch name is replaced by the head
of the branch. -/
def canonicalCommit (d : Driver) (commit : Commit) : Res Commit :=
  match mget d.branches commit.repo with
  | none => Res.error (DriverError.repoNotFound commit.repo)
  | some heads =>
    match mget heads commit.id with
    | some commitID => Res.ok ⟨commit.repo, commitID⟩
    | none => Res.ok commit

/-- The method `driver.branchParent`. -/
def branchParent (d : Driver) (commit : Commit) (branch : String) : Res (Option Commit) :=
  match canonicalCommit d ⟨commit.repo, branch⟩ with
  | Res.ok canonical =>
    if canonical.id = branch then Res.ok none
    else if canonical.id = commit.id then
      match ((mget d.diffs commit.repo).getD []).findSome? (fun sc => mget sc.2 commit.id) with
      | some diffInfo => Res.ok diffInfo.parentCommit
      | none => Res.error DriverError.unreachable
    else Res.ok (some canonical)
  | Res.error e => Res.error e
  | Res.panic => Res.panic
  | Res.timeout => Res.timeout

/-- The first loop of `driver.insertDiffInfo`: some shard of the repo has a
diff of the commit. -/
def commitSeen (d : Driver) (commit : Commit) : Bool :=
  ((mget d.diffs commit.repo).getD []).any (fun sc => (mget sc.2 commit.id).isSome)

/-- The method `driver.insertDiffInfo`. -/
def insertDiffInfo (d : Driver) (diffInfo : DiffInfo) : Driver × Status :=
  let commit := diffInfo.diff.commit
  let updateIndexes : Bool := !commitSeen d commit
  match d.diffs.insert diffInfo with
  | (diffs, some e) => ({ d with diffs := diffs }, Status.error e)
  | (diffs, none) =>
    let d1 : Driver := { d with diffs := diffs }
    if updateIndexes then
      let indexed : Driver × Status :=
        if diffInfo.branch ≠ "" then
          if (d1.diffs.get ⟨⟨commit.repo, diffInfo.branch⟩, diffInfo.diff.shard⟩).isSome then
            (d1, Status.error (DriverError.branchConflict diffInfo.branch))
          else
            match mget d1.branches commit.repo with
            | none => (d1, Status.panic)
            | some heads =>
              let heads1 := mset heads diffInfo.branch commit.id
              ({ d1 with branches := mset d1.branches commit.repo heads1 }, Status.ok)
        else (d1, Status.ok)
      match indexed with
      | (d2, Status.ok) =>
        match mget d2.dags commit.repo with
        | none => (d2, Status.panic)
        | some g =>
          let parents : List String :=
            match diffInfo.parentCommit with
            | some parent => [parent.id]
            | none => []
          ({ d2 with dags := mset d2.dags commit.repo (g.NewNode commit.id parents) }, Status.ok)
      | r => r
    else (d1, Status.ok)

/-- The first half of the loop body of `driver.StartCommit`: the `DiffInfo`
for one shard, with its parent resolved from the branch and from `parentID`. -/
def startCommitDiff (d : Driver) (repo commitID parentID branch : String)
    (started : Option Nat) (shard : Nat) : Res DiffInfo :=
  let diffInfo : DiffInfo :=
    { diff := ⟨⟨repo, commitID⟩, shard⟩, started := started, appends := some [], branch := branch }
  let onBranch : Res DiffInfo :=
    if branch ≠ "" then
      match branchParent d ⟨repo, commitID⟩ branch with
      | Res.ok parentCommit =>
        match parentCommit with
        | some head =>
          if parentID ≠ "" then Res.error (DriverError.branchExists branch head.id parentID)
          else Res.ok { diffInfo with parentCommit := parentCommit }
        | none => Res.ok diffInfo
      | Res.error e => Res.error e
      | Res.panic => Res.panic
      | Res.timeout => Res.timeout
    else Res.ok diffInfo
  match onBranch with
  | Res.ok diffInfo1 =>
    Res.ok
      (if diffInfo1.parentCommit = none ∧ parentID ≠ "" then
        { diffInfo1 with parentCommit := some ⟨repo, parentID⟩ }
       else diffInfo1)
  | r => r

/-- The body of the loop of `driver.StartCommit` for one shard. -/
def startCommitShard (d : Driver) (repo commitID parentID branch : String)
    (started : Option Nat) (shard : Nat) : Driver × Status :=
  match startCommitDiff d repo commitID parentID branch started shard with
  | Res.ok diffInfo => insertDiffInfo d diffInfo
  | Res.error e => (d, Status.error e)
  | Res.panic => (d, Status.panic)
  | Res.timeout => (d, Status.timeout)

/-- The method `driver.StartCommit`; `shards` lists the keys of the shard set
in the order the loop visits them. -/
def StartCommit (d : Driver) (repo commitID parentID branch : String) (started : Option Nat) :
    List Nat → Driver × Status
  | [] => (d, Status.ok)
  | shard :: rest =>
    match startCommitShard d repo commitID parentID branch started shard with
    | (d1, Status.ok) => StartCommit d1 repo commitID parentID branch started rest
    | r => r

/-- The loop of `driver.FinishCommit` over the shards: every diff found gets
`Finished = finished`; the diffs touched are collected. -/
def finishShards (d : Driver) (canonical : Commit) (finished : Option Nat) :
    List Nat → List DiffInfo → Driver × Res (List DiffInfo)
  | [], diffInfos => (d, Res.ok diffInfos)
  | shard :: rest, diffInfos =>
    match d.diffs.get ⟨canonical, shard⟩ with
    | none => (d, Res.error (DriverError.commitNotFound canonical.repo canonical.id))
    | some diffInfo =>
      let diffInfo1 : DiffInfo := { diffInfo with finished := finished }
      finishShards { d with diffs := d.diffs.store ⟨canonical, shard⟩ diffInfo1 } canonical
        finished rest (diffInfos ++ [diffInfo1])

/-- The method `driver.FinishCommit`; `store` is the outcome of sending the
finished diffs to the block server (`getBlockClient` and `CreateDiff`). -/
def FinishCommit (store : List DiffInfo → Option DriverError) (d : Driver) (commit : Commit)
    (finished : Option Nat) (shards : List Nat) : Driver × Status :=
  match canonicalCommit d commit with
  | Res.ok canonical =>
    match finishShards d canonical finished shards [] with
    | (d1, Res.ok diffInfos) =>
      (d1, match store diffInfos with
        | none => Status.ok
        | some e => Status.error e)
    | (d1, Res.error e) => (d1, Status.error e)
    | (d1, Res.panic) => (d1, Status.panic)
    | (d1, Res.timeout) => (d1, Status.timeout)
  | Res.error e => (d, Status.error e)
  | Res.panic => (d, Status.panic)
  | Res.timeout => (d, Status.timeout)

/-- The method `driver.lastRef`: the nearest commit, from `commit` upwards,
whose diff on `shard` has an `Append` for the path. A commit without a diff on
the shard makes the code read a field of nil. -/
def lastRef (d : Driver) (path : String) (shard : Nat) : Nat → Option Commit → Res (Option Commit)
  | _, none => Res.ok none
  | 0, some _ => Res.timeout
  | fuel + 1, some commit =>
    match d.diffs.get ⟨commit, shard⟩ with
    | none => Res.panic
    | some diffInfo =>
      if (mget (diffInfo.appends.getD []) (Clean path)).isSome then Res.ok (some commit)
      else lastRef d path shard fuel diffInfo.parentCommit

/-- The function `addDirs` on the `Appends` map of a diff: `childPath` is
entered into the `Children` of `dirPath`, then `dirPath` into those of its own
directory, until the directory is `.`. -/
def addDirs (appends : List (String × Append)) :
    Nat → String → String → Option (List (String × Append))
  | 0, _, _ => none
  | fuel + 1, childPath, dirPath =>
    let entry : Append := (mget appends dirPath).getD {}
    let appends1 := mset appends dirPath { entry with children := mset entry.children childPath true }
    if dirPath = "." then some appends1 else addDirs appends1 fuel dirPath (Dir dirPath)

/-- The sum `SizeBytes += Upper - Lower` over block refs, in `uint64`. -/
def addSizes (size : Nat) (blockRefs : List BlockRef) : Nat :=
  blockRefs.foldl (fun acc b => addU64 acc (subU64 b.range.upper b.range.lower)) size

/-- The `Append` that `driver.PutFile` writes to: the one the diff has for the
path, or a new one whose `LastRef` is found by `lastRef` from the parent. `d1`
is the driver state after `addDirs`, `appends1` the `Appends` of the diff. -/
def putFileAppend (d1 : Driver) (diffInfo : DiffInfo) (appends1 : List (String × Append))
    (file : File) (shard : Nat) (fuel : Nat) : Res Append :=
  match mget appends1 (Clean file.path) with
  | some a => Res.ok a
  | none =>
    match diffInfo.parentCommit with
    | none => Res.ok {}
    | some parent =>
      match lastRef d1 file.path shard fuel (some ⟨parent.repo, parent.id⟩) with
      | Res.ok ref => Res.ok { lastRef := ref }
      | Res.error e => Res.error e
      | Res.panic => Res.panic
      | Res.timeout => Res.timeout

/-- The method `driver.PutFile`. `blocks` is what `getBlockClient` and
`pfsutil.PutBlock` return for the reader; `fuel` bounds the loops of `addDirs`
and `lastRef`. A call that does not return is reported with the state at entry. -/
def PutFile (d : Driver) (file : File) (shard : Nat) (blocks : Except DriverError (List BlockRef))
    (fuel : Nat) : Driver × Status :=
  match blocks with
  | Except.error e => (d, Status.error e)
  | Except.ok blockRefs =>
    match canonicalCommit d file.commit with
    | Res.ok canonical =>
      match d.diffs.get ⟨canonical, shard⟩ with
      | none => (d, Status.error (DriverError.commitNotFound canonical.repo canonical.id))
      | some diffInfo =>
        if diffInfo.finished ≠ none then
          (d, Status.error (DriverError.commitFinished canonical.repo canonical.id))
        else
          match diffInfo.appends with
          | none => (d, Status.panic)
          | some appends =>
            match addDirs appends fuel file.path (Dir file.path) with
            | none => (d, Status.timeout)
            | some appends1 =>
              let diffInfo1 : DiffInfo := { diffInfo with appends := some appends1 }
              let d1 : Driver := { d with diffs := d.diffs.store ⟨canonical, shard⟩ diffInfo1 }
              match putFileAppend d1 diffInfo appends1 file shard fuel with
              | Res.ok a =>
                let a1 : Append := { a with blockRefs := a.blockRefs ++ blockRefs }
                let diffInfo2 : DiffInfo :=
                  { diffInfo with
                    appends := some (mset appends1 (Clean file.path) a1)
                    sizeBytes := addSizes diffInfo.sizeBytes blockRefs }
                ({ d with diffs := d.diffs.store ⟨canonical, shard⟩ diffInfo2 }, Status.ok)
              | Res.error e => (d1, Status.error e)
              | Res.panic => (d1, Status.panic)
              | Res.timeout => (d, Status.timeout)
    | Res.error e => (d, Status.error e)
    | Res.panic => (d, Status.panic)
    | Res.timeout => (d, Status.timeout)

/-- The functions `pfs.FileInShard` and `pfs.BlockInShard` applied to one
`filterShard`. Package `pfs` is not part of the sources at hand, so the two
predicates are taken as given. -/
structure ShardFilter where
  fileInShard : File → Bool
  blockInShard : String → Bool

/-- The function `filterBlockRefs`. -/
def filterBlockRefs (flt : ShardFilter) (blockRefs : List BlockRef) : List BlockRef :=
  blockRefs.filter (fun b => flt.blockInShard b.hash)

/-- The loop of `inspectFile` over `_append.Children`: a child not yet in
`seen` is added to the children of the file info. -/
def addChildren (commit : Commit) :
    List (String × Bool) → List File → List String → List File × List String
  | [], files, seen => (files, seen)
  | (child, _) :: rest, files, seen =>
    if child ∈ seen then addChildren commit rest files seen
    else addChildren commit rest (files ++ [⟨commit, child⟩]) (child :: seen)

/-- The assignment of `CommitModified` and `Modified` at the first commit that
has an `Append` for the path. -/
def markModified (fileInfo : FileInfo) (commit : Commit) (finished : Option Nat) : FileInfo :=
  if fileInfo.commitModified = none then
    { fileInfo with commitModified := some commit, modified := finished }
  else fileInfo

/-- The loop condition of `inspectFile` fails at the commit `from`. -/
def atFrom (frm : Option Commit) (commit : Commit) : Bool :=
  match frm with
  | none => false
  | some f => decide (commit.id = f.id)

/-- The loop of `driver.inspectFile`, entered with the commit to look at, the
file info and block refs gathered so far and the set of children seen. -/
def inspectFileLoop (flt : ShardFilter) (d : Driver) (file : File) (shard : Nat)
    (frm : Option Commit) :
    Nat → Option Commit → FileInfo → List BlockRef → List String →
      Res (FileInfo × List BlockRef)
  | _, none, fileInfo, blockRefs, _ => Res.ok (fileInfo, blockRefs)
  | 0, some commit, fileInfo, blockRefs, _ =>
    if atFrom frm commit then Res.ok (fileInfo, blockRefs) else Res.timeout
  | fuel + 1, some commit, fileInfo, blockRefs, seen =>
    if atFrom frm commit then Res.ok (fileInfo, blockRefs)
    else
      match d.diffs.get ⟨commit, shard⟩ with
      | none => Res.error (DriverError.diffNotFound commit.repo commit.id)
      | some diffInfo =>
        if diffInfo.finished = none then
          inspectFileLoop flt d file shard frm fuel diffInfo.parentCommit fileInfo blockRefs seen
        else
          match mget (diffInfo.appends.getD []) (Clean file.path) with
          | none =>
            inspectFileLoop flt d file shard frm fuel diffInfo.parentCommit fileInfo blockRefs seen
          | some a =>
            if 0 < a.blockRefs.length then
              if fileInfo.fileType = FileType.dir then
                Res.error (DriverError.mixedDirFile file.commit.repo file.commit.id file.path)
              else if fileInfo.fileType = FileType.none ∧ flt.fileInShard file = false then
                Res.error DriverError.fileNotFound
              else
                let filtered := filterBlockRefs flt a.blockRefs
                let fileInfo1 : FileInfo :=
                  { fileInfo with
                    fileType := FileType.regular
                    sizeBytes := addSizes fileInfo.sizeBytes filtered }
                inspectFileLoop flt d file shard frm fuel a.lastRef
                  (markModified fileInfo1 commit diffInfo.finished) (filtered ++ blockRefs) seen
            else if 0 < a.children.length then
              if fileInfo.fileType = FileType.regular then
                Res.error (DriverError.mixedDirFile file.commit.repo file.commit.id file.path)
              else
                let added := addChildren commit a.children fileInfo.children seen
                let fileInfo1 : FileInfo :=
                  { fileInfo with fileType := FileType.dir, children := added.1 }
                inspectFileLoop flt d file shard frm fuel a.lastRef
                  (markModified fileInfo1 commit diffInfo.finished) blockRefs added.2
            else
              inspectFileLoop flt d file shard frm fuel a.lastRef
                (markModified fileInfo commit diffInfo.finished) blockRefs seen

/-- The method `driver.inspectFile`. -/
def inspectFile (flt : ShardFilter) (d : Driver) (file : File) (shard : Nat)
    (frm : Option Commit) (fuel : Nat) : Res (FileInfo × List BlockRef) :=
  match canonicalCommit d file.commit with
  | Res.ok commit =>
    match inspectFileLoop flt d file shard frm fuel (some commit) { file := file } [] [] with
    | Res.ok (fileInfo, blockRefs) =>
      if fileInfo.fileType = FileType.none then Res.error DriverError.fileNotFound
      else Res.ok (fileInfo, blockRefs)
    | r => r
  | Res.error e => Res.error e
  | Res.panic => Res.panic
  | Res.timeout => Res.timeout

/-- The method `driver.GetFile`: the block refs, offset and size handed to
`newFileReader`; `client` is the error of `getBlockClient`, if any. -/
def GetFile (client : Option DriverError) (flt : ShardFilter) (d : Driver) (file : File)
    (offset size : Nat) (frm : Option Commit) (shard : Nat) (fuel : Nat) :
    Res (List BlockRef × Nat × Nat) :=
  match inspectFile flt d file shard frm fuel with
  | Res.ok (fileInfo, blockRefs) =>
    if fileInfo.fileType = FileType.dir then
      Res.error (DriverError.isDirectory file.commit.repo file.commit.id file.path)
    else
      match client with
      | some e => Res.error e
      | none => Res.ok (blockRefs, offset, size)
  | Res.error e => Res.error e
  | Res.panic => Res.panic
  | Res.timeout => Res.timeout

/-- The method `driver.InspectFile`. -/
def InspectFile (flt : ShardFilter) (d : Driver) (file : File) (frm : Option Commit)
    (shard : Nat) (fuel : Nat) : Res FileInfo :=
  match inspectFile flt d file shard frm fuel with
  | Res.ok (fileInfo, _) => Res.ok fileInfo
  | Res.error e => Res.error e
  | Res.panic => Res.panic
  | Res.timeout => Res.timeout

/-- The loop of `driver.inspectCommit` over the shards: one `CommitInfo` for
each shard, from the diff of the commit on that shard. -/
def commitInfosOf (d : Driver) (canonical : Commit) :
    List Nat → List CommitInfo → Res (List CommitInfo)
  | [], commitInfos => Res.ok commitInfos
  | shard :: rest, commitInfos =>
    match d.diffs.get ⟨canonical, shard⟩ with
    | none => Res.error (DriverError.commitNotFound canonical.repo canonical.id)
    | some diffInfo =>
      commitInfosOf d canonical rest (commitInfos ++ [
        { commit := canonical
          commitType := if diffInfo.finished = none then CommitType.write else CommitType.read
          branch := diffInfo.branch
          parentCommit := diffInfo.parentCommit
          started := diffInfo.started
          finished := diffInfo.finished
          sizeBytes := diffInfo.sizeBytes }])

/-- The method `driver.inspectCommit`. `reduce` is `pfs.ReduceCommitInfos`,
which is not part of the sources at hand. -/
def inspectCommit (reduce : List CommitInfo → List CommitInfo) (d : Driver) (commit : Commit)
    (shards : List Nat) : Res CommitInfo :=
  match canonicalCommit d commit with
  | Res.ok canonical =>
    match commitInfosOf d canonical shards [] with
    | Res.ok commitInfos =>
      match reduce commitInfos with
      | [] => Res.error (DriverError.commitNotFound canonical.repo canonical.id)
      | [commitInfo] => Res.ok commitInfo
      | _ :: _ :: _ => Res.error DriverError.multipleCommitInfos
    | Res.error e => Res.error e
    | Res.panic => Res.panic
    | Res.timeout => Res.timeout
  | Res.error e => Res.error e
  | Res.panic => Res.panic
  | Res.timeout => Res.timeout

/-- The first loop of `driver.ListCommit`: every commit of `fromCommit` must
be of a listed repo; their IDs start the set `breakCommitIDs`. -/
def breakIDs (repos : List String) : List Commit → List String → Res (List String)
  | [], ids => Res.ok ids
  | commit :: rest, ids =>
    if commit.repo ∈ repos then breakIDs repos rest (commit.id :: ids)
    else Res.error (DriverError.foreignCommit commit.repo commit.id)

/-- The innermost loop of `driver.ListCommit`: from a leaf up through the
parents until a commit of `breakCommitIDs` is met. -/
def listCommitWalk (reduce : List CommitInfo → List CommitInfo) (d : Driver) (shards : List Nat) :
    Nat → Option Commit → List String → List CommitInfo → Res (List String × List CommitInfo)
  | _, none, ids, result => Res.ok (ids, result)
  | 0, some commit, ids, result =>
    if commit.id ∈ ids then Res.ok (ids, result) else Res.timeout
  | fuel + 1, some commit, ids, result =>
    if commit.id ∈ ids then Res.ok (ids, result)
    else
      match inspectCommit reduce d commit shards with
      | Res.ok commitInfo =>
        listCommitWalk reduce d shards fuel commitInfo.parentCommit (commit.id :: ids)
          (result ++ [commitInfo])
      | Res.error e => Res.error e
      | Res.panic => Res.panic
      | Res.timeout => Res.timeout

/-- The loop of `driver.ListCommit` over the leaves of one repo. -/
def listCommitLeaves (reduce : List CommitInfo → List CommitInfo) (d : Driver) (shards : List Nat)
    (fuel : Nat) (repo : String) :
    List String → List String → List CommitInfo → Res (List String × List CommitInfo)
  | [], ids, result => Res.ok (ids, result)
  | commitID :: rest, ids, result =>
    match listCommitWalk reduce d shards fuel (some ⟨repo, commitID⟩) ids result with
    | Res.ok (ids1, result1) => listCommitLeaves reduce d shards fuel repo rest ids1 result1
    | r => r

/-- The loop of `driver.ListCommit` over the repos. `leaves` is the method
`DAG.Leaves` of the package `dag`, which is not part of the sources at hand. -/
def listCommitRepos (reduce : List CommitInfo → List CommitInfo) (leaves : DAG → List String)
    (d : Driver) (shards : List Nat) (fuel : Nat) :
    List String → List String → List CommitInfo → Res (List CommitInfo)
  | [], _, result => Res.ok result
  | repo :: rest, ids, result =>
    match mget d.diffs repo with
    | none => Res.error (DriverError.repoNotFound repo)
    | some _ =>
      match mget d.dags repo with
      | none => Res.panic
      | some g =>
        match listCommitLeaves reduce d shards fuel repo (leaves g) ids result with
        | Res.ok (ids1, result1) => listCommitRepos reduce leaves d shards fuel rest ids1 result1
        | Res.error e => Res.error e
        | Res.panic => Res.panic
        | Res.timeout => Res.timeout

/-- The method `driver.ListCommit`; `fuel` bounds each walk from a leaf. -/
def ListCommit (reduce : List CommitInfo → List CommitInfo) (leaves : DAG → List String)
    (d : Driver) (repos : List String) (fromCommit : List Commit) (shards : List Nat)
    (fuel : Nat) : Res (List CommitInfo) :=
  match breakIDs repos fromCommit [] with
  | Res.ok ids => listCommitRepos reduce leaves d shards fuel repos ids []
  | Res.error e => Res.error e
  | Res.panic => Res.panic
  | Res.timeout => Res.timeout

/-! ## The local block server: `scanBlock` and `PutBlock` -/

/-- The constant `bufio.MaxScanTokenSize`. -/
def MaxScanTokenSize : Nat := 64 * 1024

/-- A `bufio.Scanner` over a stream that delivers the bytes `rest` and then
ends; `tooLong` is the error `bufio.ErrTooLong`, which stops the scanner. -/
structure Scanner where
  rest : List Char
  tooLong : Bool := false
deriving DecidableEq, Repr

/-- The function `dropCR` of package `bufio`: a final carriage return is
removed from a line. -/
def dropCR (data : List Char) : List Char :=
  if data.getLast? = some '\r' then data.dropLast else data

/-- The method `Scanner.Scan` with the split function `bufio.ScanLines`,
followed by `Scanner.Bytes`: the next line without its end-of-line marker, or
`none` when `Scan` returns false. A line that does not fit into the buffer
sets `ErrTooLong`; the last line need not end in a newline. -/
def Scanner.Scan (s : Scanner) : Option (List Char) × Scanner :=
  if s.tooLong then (none, s)
  else if s.rest = [] then (none, s)
  else
    let line := s.rest.takeWhile (fun c => decide (c ≠ '\n'))
    if MaxScanTokenSize ≤ line.length then (none, { s with tooLong := true })
    else (some (dropCR line), { s with rest := s.rest.drop (line.length + 1) })

/-- The loop of `scanBlock`: every line is written to the buffer with a
newline added, until the buffer holds more than `blockSize` bytes or the
scanner stops. -/
def scanBlockLoop (blockSize : Nat) : Nat → Scanner → List Char → Option (Scanner × List Char)
  | 0, _, _ => none
  | fuel + 1, s, buffer =>
    match s.Scan with
    | (none, s1) => some (s1, buffer)
    | (some line, s1) =>
      let buffer1 := buffer ++ (line ++ ['\n'])
      if blockSize < buffer1.length then some (s1, buffer1)
      else scanBlockLoop blockSize fuel s1 buffer1

/-- The function `scanBlock`: the scanner after the call, the block ref and
the data of the block. `hash` stands for `newHash` and `getBlock`, `blockSize`
for the constant of that name (a count of bytes that fits `int` and `uint64`);
neither is part of the sources at hand. -/
def scanBlock (hash : List Char → String) (blockSize : Nat) (fuel : Nat) (s : Scanner) :
    Res (Scanner × BlockRef × List Char) :=
  match scanBlockLoop blockSize fuel s [] with
  | none => Res.timeout
  | some (s1, buffer) =>
    if s1.tooLong then Res.error (DriverError.blockClient "bufio.Scanner: token too long")
    else Res.ok (s1, { hash := hash buffer, range := ⟨0, buffer.length % uint64Size⟩ }, buffer)

/-- The loop of `PutBlock`: blocks are scanned until one is shorter than
`blockSize`. The result lists every block ref with the data written for it. -/
def putBlockLoop (hash : List Char → String) (blockSize : Nat) (fuel : Nat) :
    Nat → Scanner → List (BlockRef × List Char) → Res (List (BlockRef × List Char))
  | 0, _, _ => Res.timeout
  | n + 1, s, result =>
    match scanBlock hash blockSize fuel s with
    | Res.ok (s1, blockRef, data) =>
      let result1 := result ++ [(blockRef, data)]
      if subU64 blockRef.range.upper blockRef.range.lower < blockSize then
        Res.ok result1
      else putBlockLoop hash blockSize fuel n s1 result1
    | Res.error e => Res.error e
    | Res.panic => Res.panic
    | Res.timeout => Res.timeout

/-- The method `localBlockAPIServer.PutBlock` on the bytes of the request
stream; `fuel` bounds the number of blocks and the number of lines of a block. -/
def PutBlock (hash : List Char → String) (blockSize : Nat) (input : List Char) (fuel : Nat) :
    Res (List (BlockRef × List Char)) :=
  putBlockLoop hash blockSize fuel fuel { rest := input } []

/-- The bytes a reader of the blocks gets: the data of the blocks in order. -/
def blocksData (blocks : List (BlockRef × List Char)) : List Char :=
  (blocks.map (fun b => b.2)).flatten

/-! ## Sequences of calls and stored sizes -/

/-- A call of one of the methods that change the driver state. -/
inductive Op where
  | createRepo (client store : Option DriverError) (repo : String) (created : Option Nat)
      (shards : List Nat)
  | startCommit (repo commitID parentID branch : String) (started : Option Nat)
      (shards : List Nat)
  | putFile (file : File) (shard : Nat) (blocks : Except DriverError (List BlockRef))
      (fuel : Nat)
  | finishCommit (store : List DiffInfo → Option DriverError) (commit : Commit)
      (finished : Option Nat) (shards : List Nat)

/-- The state and the status a call leaves. -/
def Op.apply (d : Driver) : Op → Driver × Status
  | Op.createRepo client store repo created shards =>
    CreateRepo client store d repo created shards
  | Op.startCommit repo commitID parentID branch started shards =>
    StartCommit d repo commitID parentID branch started shards
  | Op.putFile file shard blocks fuel => PutFile d file shard blocks fuel
  | Op.finishCommit store commit finished shards => FinishCommit store d commit finished shards

/-- The state after a sequence of calls, each made in the state the one before
it left, whatever its status was. -/
def run (d : Driver) : List Op → Driver
  | [] => d
  | op :: rest => run (op.apply d).1 rest

/-- One commit of a chain built on one shard: its ID, its start time, the
block lists of the `PutFile` calls that append to the path while it is open,
and the time at which it is finished. -/
structure ChainCommit where
  id : String
  started : Option Nat
  puts : List (List BlockRef)
  finished : Nat
deriving DecidableEq, Repr

/-- Successive `PutFile` calls to one file, each of which returns no error. -/
def putAll (file : File) (shard fuel : Nat) : Driver → List (List BlockRef) → Option Driver
  | d, [] => some d
  | d, blockRefs :: rest =>
    match PutFile d file shard (Except.ok blockRefs) fuel with
    | (d1, Status.ok) => putAll file shard fuel d1 rest
    | _ => none

/-- The calls that build a chain: each commit is started with the commit before
it as parent (`parentID` for the first), receives its `PutFile` calls and is
finished before the next one is started. The result is `none` if one of the
calls does not return without error. -/
def buildChain (store : List DiffInfo → Option DriverError) (repo path : String)
    (shard fuel : Nat) : Driver → String → List ChainCommit → Option Driver
  | d, _, [] => some d
  | d, parentID, c :: rest =>
    match StartCommit d repo c.id parentID "" c.started [shard] with
    | (d1, Status.ok) =>
      match putAll ⟨⟨repo, c.id⟩, path⟩ shard fuel d1 c.puts with
      | some d2 =>
        match FinishCommit store d2 ⟨repo, c.id⟩ (some c.finished) [shard] with
        | (d3, Status.ok) => buildChain store repo path shard fuel d3 c.id rest
        | _ => none
      | none => none
    | _ => none

/-- The blocks appended to the path by the commits of a chain, the oldest
commit first. -/
def chainBlocks (chain : List ChainCommit) : List BlockRef :=
  (chain.map (fun c => c.puts.flatten)).flatten

/-- The directories `addDirs` writes to, from `dirPath` upwards. -/
def dirChain : Nat → String → List String
  | 0, _ => []
  | fuel + 1, dirPath => dirPath :: (if dirPath = "." then [] else dirChain fuel (Dir dirPath))

/-- The diff `StartCommit` stores for a commit on no branch. -/
def startedDiff (repo id parentID : String) (started : Option Nat) (shard : Nat) : DiffInfo :=
  { diff := ⟨⟨repo, id⟩, shard⟩
    parentCommit := if parentID = "" then none else some ⟨repo, parentID⟩
    started := started
    appends := some []
    branch := "" }

/-- The `parentID` given to `StartCommit` for the next commit of a chain listed
newest first. -/
def parentIDOf : List ChainCommit → String
  | [] => ""
  | c :: _ => c.id

/-- The newest commit of a chain listed newest first. -/
def headOf (repo : String) : List ChainCommit → Option Commit
  | [] => none
  | c :: _ => some ⟨repo, c.id⟩

/-- The newest commit of a chain (listed newest first) that received a
`PutFile` for the path. -/
def lastRefOf (repo : String) : List ChainCommit → Option Commit
  | [] => none
  | c :: older => if c.puts = [] then lastRefOf repo older else some ⟨repo, c.id⟩

/-- The diffs of a finished chain, listed newest first, on one shard: every
commit is finished, its parent is the commit before it, and its `Append` for
the path (if it received a `PutFile`) holds the blocks put and points to the
nearest older commit with an `Append`. -/
def ChainOK (d : Driver) (repo key : String) (shard : Nat) : List ChainCommit → Prop
  | [] => True
  | c :: older =>
    (∃ di, d.diffs.get ⟨⟨repo, c.id⟩, shard⟩ = some di ∧ di.finished = some c.finished ∧
      di.parentCommit = headOf repo older ∧
      mget (di.appends.getD []) key =
        if c.puts = [] then none
        else some { blockRefs := c.puts.flatten, children := [], lastRef := lastRefOf repo older }) ∧
    ChainOK d repo key shard older

/-- The diff of the open commit `id` at the end of a chain after the `PutFile`
calls `ps`: its parent is `parent`, and its `Append` for the path (if a
`PutFile` was made) holds the blocks put and the reference `ref`. -/
def OpenOK (d : Driver) (repo key : String) (shard : Nat) (id : String)
    (parent ref : Option Commit) (ps : List (List BlockRef)) : Prop :=
  ∃ di appends, d.diffs.get ⟨⟨repo, id⟩, shard⟩ = some di ∧ di.finished = none ∧
    di.parentCommit = parent ∧ di.appends = some appends ∧
    mget appends key =
      if ps = [] then none
      else some { blockRefs := ps.flatten, children := [], lastRef := ref }

/-- What the loop of `inspectFile` gathers from a chain listed newest first. -/
def chainRead (flt : ShardFilter) (repo : String) (file : File) :
    List ChainCommit → FileInfo → List BlockRef → Res (FileInfo × List BlockRef)
  | [], fileInfo, blockRefs => Res.ok (fileInfo, blockRefs)
  | c :: older, fileInfo, blockRefs =>
    if c.puts = [] then chainRead flt repo file older fileInfo blockRefs
    else if c.puts.flatten = [] then
      chainRead flt repo file older (markModified fileInfo ⟨repo, c.id⟩ (some c.finished)) blockRefs
    else if fileInfo.fileType = FileType.none ∧ flt.fileInShard file = false then
      Res.error DriverError.fileNotFound
    else
      chainRead flt repo file older
        (markModified
          { fileInfo with
            fileType := FileType.regular
            sizeBytes := addSizes fileInfo.sizeBytes (filterBlockRefs flt c.puts.flatten) }
          ⟨repo, c.id⟩ (some c.finished))
        (filterBlockRefs flt c.puts.flatten ++ blockRefs)

/-! ## Scenarios -/

/-- No filter shard: every file and every block is in the shard. -/
def noFilter : ShardFilter := ⟨fun _ => true, fun _ => true⟩

/-- A block server that stores every diff sent to it. -/
def storeOk : List DiffInfo → Option DriverError := fun _ => none

/-- One repo `r` on shard 0. -/
def repoState : Driver := (CreateRepo none none newDriver "r" (some 1) [0]).1

/-- Commit `c1` of `r`, started at time 2 and finished at time 3. -/
def finishedOnce : Driver :=
  (FinishCommit storeOk (StartCommit repoState "r" "c1" "" "" (some 2) [0]).1 ⟨"r", "c1"⟩
    (some 3) [0]).1

def blockA : BlockRef := ⟨"A", ⟨0, 4⟩⟩

def blockB : BlockRef := ⟨"B", ⟨0, 4⟩⟩

/-- Two commits that each append one block to the path. -/
def twoCommits : List ChainCommit :=
  [{ id := "c1", started := some 2, puts := [[blockA]], finished := 3 },
   { id := "c2", started := some 4, puts := [[blockB]], finished := 5 }]

/-- The chain `c1 <- c2` built in repo `r` on shard 0, both commits appending
to `path`. -/
def twoChain (path : String) : Driver :=
  (buildChain storeOk "r" path 0 8 repoState "" twoCommits).getD newDriver

/-- The chain `c1 <- c2 <- c3` of finished commits in which `c1` and `c3`
append one block to `path` and `c2` appends nothing. -/
def skipChain (path : String) : Driver :=
  let d1 := (StartCommit repoState "r" "c1" "" "" (some 2) [0]).1
  let d2 := (PutFile d1 ⟨⟨"r", "c1"⟩, path⟩ 0 (Except.ok [blockA]) 8).1
  let d3 := (FinishCommit storeOk d2 ⟨"r", "c1"⟩ (some 3) [0]).1
  let d4 := (StartCommit d3 "r" "c2" "c1" "" (some 4) [0]).1
  let d5 := (FinishCommit storeOk d4 ⟨"r", "c2"⟩ (some 5) [0]).1
  let d6 := (StartCommit d5 "r" "c3" "c2" "" (some 6) [0]).1
  let d7 := (PutFile d6 ⟨⟨"r", "c3"⟩, path⟩ 0 (Except.ok [blockB]) 8).1
  (FinishCommit storeOk d7 ⟨"r", "c3"⟩ (some 7) [0]).1

/-- Repo `r` with commit `c0` on no branch and commit `c1` at the head of
branch `m`. -/
def branchState : Driver :=
  (StartCommit (StartCommit repoState "r" "c0" "" "" (some 2) [0]).1 "r" "c1" "" "m" (some 3) [0]).1

/-- Repo `r` with commit `c` started on shard 0 and on no branch. -/
def oneShardState : Driver := (StartCommit repoState "r" "c" "" "" (some 2) [0]).1

/-- Repo `r` with commit `c1` at the head of branch `master` and a second
commit whose ID is `master`. -/
def aliasState : Driver :=
  (StartCommit (StartCommit repoState "r" "c1" "" "master" (some 2) [0]).1 "r" "master" "" ""
    (some 3) [0]).1

/-- The nodes of a DAG that are no node's parent, in the order of their
`NewNode` calls: the leaves, in one of the orders `DAG.Leaves` may list them. -/
def leavesOf (g : DAG) : List String :=
  (g.nodes.map Prod.fst).filter (fun id => g.nodes.all (fun n => decide (id ∉ n.2)))

/-- `ReduceCommitInfos` on the commit infos of a single shard: nothing to merge. -/
def reduceOne (commitInfos : List CommitInfo) : List CommitInfo := commitInfos


/-! ## Errors of the storage layer and the API server -/

/-- A Go `error` value: the sentinel `io.EOF`, or an error with a message. -/
inductive GoError where
  | EOF
  | msg (text : String)
deriving DecidableEq, Repr

/-- The method `Error` of an error value. -/
def GoError.Error : GoError → String
  | GoError.EOF => "EOF"
  | GoError.msg text => text

/-- How a call that returns an `error` ends: it returns `nil` or an error, or
it is still running when the fuel given to one of its loops is used up. -/
inductive Ret where
  | nil
  | err (e : GoError)
  | running
deriving DecidableEq, Repr

/-! ## The unordered writer (package `fileset`)

`src/internal/storage/fileset/unordered_writer.go`.  The types `Buffer`,
`Storage`, `Writer` and `FileSet` and the helpers `Clean` and `IsDir` of the
package are not part of the source: a buffer is the list of calls made on it
since `NewBuffer`, and the rest is the record `Fileset` of what those calls
return. -/

/-- An `io.Reader`: the bytes it yields, and the error that follows them
(`none` is `io.EOF`). -/
structure Reader where
  data : List Nat
  err : Option GoError
deriving DecidableEq, Repr

/-- The function `io.CopyN(w, r, n)`: the bytes written to `w`, the reader
after the call, and the error.  Nothing is copied for `n <= 0`; the error is
`nil` when `n` bytes were copied, otherwise the reader's error. -/
def CopyN (r : Reader) (n : Int) : List Nat × Reader × Option GoError :=
  if n ≤ 0 then ([], r, none)
  else if n ≤ (r.data.length : Int) then
    (r.data.take n.toNat, { r with data := r.data.drop n.toNat }, none)
  else (r.data, { r with data := [] }, some (r.err.getD GoError.EOF))

/-- A call on a `Buffer`: `Add` and `Delete`, and a write to the writer that
`Add` returned. -/
inductive BufferCall where
  | add (p datum : String)
  | write (p datum : String) (data : List Nat)
  | delete (p datum : String)
deriving DecidableEq, Repr

/-- A file set id (`fileset.ID`). -/
abbrev ID := String

/-- The parts of package `fileset` that the unordered writer calls and that
are not part of the source.  `write` is the error of writing a buffer out
through a `Writer` (`WalkAdditive` and `WalkDeletive` in `serialize`),
`close` what `Writer.Close` returns for the writer opened when the writer
held the given ids, `renew` the error of `Renewer.Add`, and `files` the
paths that `Storage.Open` with a prefix and `FileSet.Iterate` visit, or the
error of the two. -/
structure Fileset where
  DefaultFileDatum : String
  IsDir : String → Bool
  Clean : String → Bool → String
  write : List BufferCall → Option GoError
  close : List ID → Except GoError ID
  renew : ID → Option GoError
  files : List ID → String → Except GoError (List String)

/-- The type `UnorderedWriter`.  `buffer` lists the calls made on
`uw.buffer` since `NewBuffer`, `renewer` tells whether a renewer is set, and
`getParentID` is what the function of that name returns, when it is set. -/
structure UnorderedWriter where
  memAvailable : Int
  memThreshold : Int
  buffer : List BufferCall
  subFileSet : Int
  ttl : Int
  renewer : Bool
  ids : List ID
  getParentID : Option (Except GoError ID)
  validator : Option (String → Option GoError)
  maxFanIn : Int

/-- The method `UnorderedWriter.validate`. -/
def UnorderedWriter.validate (uw : UnorderedWriter) (p : String) : Option GoError :=
  match uw.validator with
  | some validator => validator p
  | none => none

/-- The method `UnorderedWriter.withWriter`; `cb` is the error that the
callback returns for the new writer. -/
def UnorderedWriter.withWriter (fs : Fileset) (uw : UnorderedWriter) (cb : Option GoError) :
    UnorderedWriter × Option GoError :=
  match cb with
  | some e => (uw, some e)
  | none =>
    match fs.close uw.ids with
    | Except.error e => (uw, some e)
    | Except.ok id =>
      let uw1 := { uw with ids := uw.ids ++ [id] }
      let renewed := if uw1.renewer then fs.renew id else none
      match renewed with
      | some e => (uw1, some e)
      | none =>
        let uw2 := { uw1 with buffer := [], memAvailable := uw1.memThreshold }
        ({ uw2 with subFileSet := uw2.subFileSet + 1 }, none)

/-- The method `UnorderedWriter.serialize`. -/
def UnorderedWriter.serialize (fs : Fileset) (uw : UnorderedWriter) :
    UnorderedWriter × Option GoError :=
  if uw.buffer.isEmpty then (uw, none)
  else uw.withWriter fs (fs.write uw.buffer)

/-- The loop of `UnorderedWriter.Put`, with `w` the writer that
`uw.buffer.Add(p, datum)` returned. -/
def putLoop (fs : Fileset) (p datum : String) :
    Nat → UnorderedWriter → Reader → UnorderedWriter × Ret
  | 0, uw, _ => (uw, Ret.running)
  | fuel + 1, uw, r =>
    let c := CopyN r uw.memAvailable
    let buffer := uw.buffer ++ [BufferCall.write p datum c.1]
    let uw1 := { uw with buffer := buffer, memAvailable := uw.memAvailable - c.1.length }
    match c.2.2 with
    | some e => if e = GoError.EOF then (uw1, Ret.nil) else (uw1, Ret.err e)
    | none =>
      if uw1.memAvailable = 0 then
        match uw1.serialize fs with
        | (uw2, some e) => (uw2, Ret.err e)
        | (uw2, none) =>
          putLoop fs p datum fuel { uw2 with buffer := uw2.buffer ++ [BufferCall.add p datum] } c.2.1
      else putLoop fs p datum fuel uw1 c.2.1

/-- The method `UnorderedWriter.Put`. -/
def UnorderedWriter.Put (fs : Fileset) (fuel : Nat) (uw : UnorderedWriter) (p datum : String)
    (appendFile : Bool) (r : Reader) : UnorderedWriter × Ret :=
  match uw.validate p with
  | some e => (uw, Ret.err e)
  | none =>
    let datum := if datum = "" then fs.DefaultFileDatum else datum
    let deleted := if appendFile then uw.buffer else uw.buffer ++ [BufferCall.delete p datum]
    putLoop fs p datum fuel { uw with buffer := deleted ++ [BufferCall.add p datum] } r

/-- A callback called on each element of a list in turn, until one of the
calls does not return `nil`. -/
def forEach {α : Type} (cb : UnorderedWriter → α → UnorderedWriter × Ret) :
    List α → UnorderedWriter → UnorderedWriter × Ret
  | [], uw => (uw, Ret.nil)
  | x :: xs, uw =>
    match cb uw x with
    | (uw1, Ret.nil) => forEach cb xs uw1
    | (uw1, ret) => (uw1, ret)

/-- The method `UnorderedWriter.Delete`; the fuel bounds the depth of its
calls of itself. -/
def UnorderedWriter.Delete (fs : Fileset) :
    Nat → UnorderedWriter → String → String → UnorderedWriter × Ret
  | 0, uw, _, _ => (uw, Ret.running)
  | fuel + 1, uw, p, datum =>
    match uw.validate p with
    | some e => (uw, Ret.err e)
    | none =>
      let datum := if datum = "" then fs.DefaultFileDatum else datum
      let p := fs.Clean p (fs.IsDir p)
      let uw1 := { uw with buffer := uw.buffer ++ [BufferCall.delete p datum] }
      if fs.IsDir p then
        let parent : Except GoError (List ID) := match uw1.getParentID with
          | none => Except.ok []
          | some (Except.error e) => Except.error e
          | some (Except.ok parentID) => Except.ok [parentID]
        match parent with
        | Except.error e => (uw1, Ret.err e)
        | Except.ok ids =>
          match fs.files (ids ++ uw1.ids) p with
          | Except.error e => (uw1, Ret.err e)
          | Except.ok files =>
            forEach (fun uw2 path => UnorderedWriter.Delete fs fuel uw2 path datum) files uw1
      else (uw1, Ret.nil)

/-! ## The PFS API server: `ModifyFile` and `CreateBranch`

`src/server/pfs/server/api_server.go`. -/

/-- The message `pfs.AddFile_URLSource`. -/
structure URLSource where
  url : String
  recursive : Bool
deriving DecidableEq, Repr

/-- The field `Source` of a `pfs.AddFile`. -/
inductive AddFileSource where
  | raw (value : List Nat)
  | url (src : URLSource)
  | unset
deriving DecidableEq, Repr

structure AddFile where
  path : String
  datum : String
  source : AddFileSource
deriving DecidableEq, Repr

structure DeleteFile where
  path : String
  datum : String
deriving DecidableEq, Repr

structure CopyFile where
  dst : String
  src : File
  append : Bool
  datum : String
deriving DecidableEq, Repr

/-- A `pfs.ModifyFileRequest`, by its `Body`; `unset` is a body of none of
the four types. -/
inductive ModifyFileRequest where
  | addFile (addFile : AddFile)
  | deleteFile (deleteFile : DeleteFile)
  | copyFile (copyFile : CopyFile)
  | setCommit (setCommit : Commit)
  | unset
deriving DecidableEq, Repr

/-- A stream of requests (`modifyFileSource`, `pfs.API_ModifyFileServer`):
what the calls of `Recv` return, in order; after them `Recv` returns
`io.EOF`. -/
abbrev ModifyFileServer := List (Except GoError ModifyFileRequest)

/-- The function `putFileRaw`. -/
def putFileRaw (fs : Fileset) (fuel : Nat) (uw : UnorderedWriter) (path tag : String)
    (src : List Nat) : UnorderedWriter × Int × Ret :=
  match uw.Put fs fuel path tag true ⟨src, none⟩ with
  | (uw1, Ret.nil) => (uw1, (src.length : Int), Ret.nil)
  | (uw1, ret) => (uw1, 0, ret)

/-- What `putFileURL` gets for a URL: an error before anything is read (from
`url.Parse`, `http.Get`, the HTTP status, `obj.ParseURL` or
`obj.NewClientFromURLAndSecret`), the body of an HTTP response with the
error of closing it, the reader of one object, or, for a recursive source,
the objects that `Walk` visits, each with its name after the `path` prefix
and its reader. -/
inductive Fetched where
  | failed (e : GoError)
  | http (body : Reader) (close : Option GoError)
  | object (r : Reader)
  | objects (found : List (String × Reader))
deriving DecidableEq, Repr

/-- The function `putFileURL`; the number of bytes it returns is always 0.
`filepath.Join` is `Clean` of the two parts joined by a slash. -/
def putFileURL (fs : Fileset) (fetch : URLSource → Fetched) (fuel : Nat) (uw : UnorderedWriter)
    (dstPath tag : String) (src : URLSource) : UnorderedWriter × Int × Ret :=
  match fetch src with
  | Fetched.failed e => (uw, 0, Ret.err e)
  | Fetched.http body close =>
    match uw.Put fs fuel dstPath tag true body with
    | (uw1, Ret.nil) => (uw1, 0, match close with | none => Ret.nil | some e => Ret.err e)
    | (uw1, ret) => (uw1, 0, ret)
  | Fetched.object r =>
    let put := uw.Put fs fuel dstPath tag true r
    (put.1, 0, put.2)
  | Fetched.objects found =>
    let put := forEach (fun uw1 (o : String × Reader) =>
      UnorderedWriter.Put fs fuel uw1 (Clean (dstPath ++ "/" ++ o.1)) tag true o.2) found uw
    (put.1, 0, put.2)

/-- The parts of the API server that `modifyFile` calls and that are not
part of the source: `fetch` is what `putFileURL` gets for a URL, and
`copyFile` the method `driver.copyFile`. -/
structure APIServer where
  fetch : URLSource → Fetched
  copyFile : UnorderedWriter → CopyFile → UnorderedWriter × Ret

/-- What `modifyFile` returns, with the writer as it leaves it. -/
structure ModifyFileResult where
  uw : UnorderedWriter
  bytesRead : Int
  ret : Ret

/-- The function `deleteFile`. -/
def deleteFile (fs : Fileset) (fuel : Nat) (uw : UnorderedWriter) (request : DeleteFile) :
    UnorderedWriter × Ret :=
  let deleted := uw.Delete fs fuel request.path request.datum
  match deleted.2 with
  | Ret.running => (deleted.1, Ret.running)
  | _ => (deleted.1, Ret.nil)

/-- The method `apiServer.modifyFile`; the fuel is given to each call of
`Put` and `Delete`. -/
def modifyFile (a : APIServer) (fs : Fileset) (fuel : Nat) :
    UnorderedWriter → Int → ModifyFileServer → ModifyFileResult
  | uw, bytesRead, [] => ⟨uw, bytesRead, Ret.nil⟩
  | uw, bytesRead, Except.error err :: _ =>
    if err = GoError.EOF then ⟨uw, bytesRead, Ret.nil⟩ else ⟨uw, bytesRead, Ret.err err⟩
  | uw, bytesRead, Except.ok msg :: server =>
    match msg with
    | ModifyFileRequest.addFile mod =>
      let put := match mod.source with
        | AddFileSource.raw src => putFileRaw fs fuel uw mod.path mod.datum src
        | AddFileSource.url src => putFileURL fs a.fetch fuel uw mod.path mod.datum src
        | AddFileSource.unset => putFileRaw fs fuel uw mod.path mod.datum []
      match put with
      | (uw1, n, Ret.nil) => modifyFile a fs fuel uw1 (bytesRead + n) server
      | (uw1, _, ret) => ⟨uw1, bytesRead, ret⟩
    | ModifyFileRequest.deleteFile mod =>
      match deleteFile fs fuel uw mod with
      | (uw1, Ret.nil) => modifyFile a fs fuel uw1 bytesRead server
      | (uw1, ret) => ⟨uw1, bytesRead, ret⟩
    | ModifyFileRequest.copyFile cf =>
      match a.copyFile uw cf with
      | (uw1, Ret.nil) => modifyFile a fs fuel uw1 bytesRead server
      | (uw1, ret) => ⟨uw1, bytesRead, ret⟩
    | ModifyFileRequest.setCommit _ => ⟨uw, bytesRead, Ret.err (GoError.msg "cannot set commit")⟩
    | ModifyFileRequest.unset => ⟨uw, bytesRead, Ret.err (GoError.msg "unrecognized message type")⟩

/-- The message `pfs.CreateBranchRequest`, as far as `CreateBranch` reads it;
the other fields are passed on to the transaction. -/
structure CreateBranchRequest where
  head : Option Commit
  newCommitSet : Bool
deriving DecidableEq, Repr

/-- The function with which `CreateBranch` chooses the commit set id of its
transaction; `resolveCommit` is `driver.resolveCommit`, and `""` asks for a
fresh id. -/
def createBranchCommitSetID (resolveCommit : Commit → Except GoError CommitInfo)
    (request : CreateBranchRequest) : Except GoError String :=
  match request.head with
  | none => Except.ok ""
  | some head =>
    if request.newCommitSet then Except.ok ""
    else
      match resolveCommit head with
      | Except.error err => Except.error err
      | Except.ok commitInfo => Except.ok commitInfo.commit.id

/-- Modelled from the spec: `TransactionEnv.WithTransaction` is not part of
the source.  It asks the override function for the commit set id, fails with
its error, and otherwise runs the callback in a transaction that uses this
id, a fresh one when the id is empty; `cb id` is the error of the callback in
a transaction with that id. -/
def WithTransaction (cb : String → Option GoError) (getCommitSetID : Except GoError String) :
    Option GoError :=
  match getCommitSetID with
  | Except.error err => some err
  | Except.ok id => cb id

/-- The method `apiServer.CreateBranch`; `createBranch id request` is the
error of `txn.CreateBranch(request)` in a transaction with commit set id
`id`. -/
def CreateBranch (resolveCommit : Commit → Except GoError CommitInfo)
    (createBranch : String → CreateBranchRequest → Option GoError)
    (request : CreateBranchRequest) : Option GoError :=
  WithTransaction (fun id => createBranch id request)
    (createBranchCommitSetID resolveCommit request)

/-! ## Datum sets (package `datum`)

`src/server/worker/datum/datum.go`.  A Go `error` is an `Option GoError`,
with `none` for `nil`.  The pointers `d.set` and `d.meta` are shared mutable
records in Go; here a `Datum` carries their current value and every method
returns the updated datum.  Calls that leave the package (the local file
system, the downloader, the output clients, `MergeProcessStats`) are
represented by the error they return, one record of outcomes per attempt.
Storage roots, process statistics (timings and byte counts) and the
Prometheus metrics are not represented. -/

/-- An input of a datum (`common.Input`), as far as the package reads it. -/
structure Input where
  name : String
  fileInfo : FileInfo
deriving DecidableEq, Repr

/-- The state of a datum (`datum.State`). -/
inductive State where
  | PROCESSED
  | FAILED
  | RECOVERED
deriving DecidableEq, Repr

/-- Meta information of a datum (`datum.Meta`). -/
structure Meta where
  inputs : List Input
  state : State
  reason : String
deriving DecidableEq, Repr

/-- Counters of a datum set (`datum.Stats`).  The counters are `int64` in
Go; they start at zero in `WithSet` and grow by one per `finish`, so they
are kept as unbounded integers. -/
structure Stats where
  processed : Int
  failed : Int
  recovered : Int
  failedID : String
deriving DecidableEq, Repr

/-- A datum set (`datum.Set`).  The two output clients are represented by
whether they are set (`!= nil`). -/
structure Set where
  metaOutputClient : Bool
  pfsOutputClient : Bool
  stats : Stats
deriving DecidableEq, Repr

/-- A datum (`datum.Datum`).  `recoveryCallback` tells whether a recovery
callback is set; what the callback returns when it is called is an outcome
passed to `Datum.run`. -/
structure Datum where
  set : Set
  ID : String
  meta : Meta
  numRetries : Int
  recoveryCallback : Bool
  timeout : Int
deriving DecidableEq, Repr

/-- The constant `defaultNumRetries`. -/
def defaultNumRetries : Int := 3

/-- The function `newDatum`: `DatumID` is `common.DatumID`, and an option is
a function that updates the datum. -/
def newDatum (DatumID : List Input → String) (set : Set) (meta : Meta)
    (opts : List (Datum → Datum)) : Datum :=
  let d : Datum := ⟨set, DatumID meta.inputs, meta, defaultNumRetries, false, 0⟩
  opts.foldl (fun d opt => opt d) d

/-- The errors returned by the calls that one attempt of `WithDatum` makes
outside the package: in `withData`, `mkdir` by `os.MkdirAll`, `download` by
`d.downloadData` and `removeAll` by the deferred `os.RemoveAll`; in `finish`,
`merge` by `MergeProcessStats`; in `uploadOutput`, `output` by `d.upload` to
the pfs output client; in `uploadMetaOutput`, `metaMkdir` by `os.MkdirAll`,
`metaFile` by `d.uploadMetaFile`, `metaUpload` by `d.upload` to the meta
output client, and `metaRemoveAll` by the deferred `os.RemoveAll`. -/
structure Attempt where
  mkdir : Option GoError
  download : Option GoError
  removeAll : Option GoError
  merge : Option GoError
  output : Option GoError
  metaMkdir : Option GoError
  metaFile : Option GoError
  metaUpload : Option GoError
  metaRemoveAll : Option GoError
deriving DecidableEq, Repr

/-- The method `Datum.handleFailed`. -/
def Datum.handleFailed (d : Datum) (err : GoError) : Datum :=
  if d.meta.state = State.RECOVERED then
    let stats := { d.set.stats with recovered := d.set.stats.recovered + 1 }
    { d with set := { d.set with stats := stats } }
  else
    let meta := { d.meta with state := State.FAILED, reason := err.Error }
    let stats := { d.set.stats with failed := d.set.stats.failed + 1 }
    let stats := if stats.failedID = "" then { stats with failedID := d.ID } else stats
    { d with meta := meta, set := { d.set with stats := stats } }

/-- The method `Datum.uploadMetaOutput`: the deferred `os.RemoveAll` gives the error
when everything before it succeeded. -/
def Datum.uploadMetaOutput (d : Datum) (a : Attempt) : Option GoError :=
  if d.set.metaOutputClient then
    match a.metaMkdir with
    | some e => some e
    | none =>
      let ret := match a.metaFile with
        | some e => some e
        | none => a.metaUpload
      match ret with
      | none => a.metaRemoveAll
      | some e => some e
  else none

/-- The method `Datum.uploadOutput`. -/
def Datum.uploadOutput (d : Datum) (a : Attempt) : Option GoError :=
  let up := if d.set.pfsOutputClient then a.output else none
  match up with
  | some e => some e
  | none => d.uploadMetaOutput a

/-- The method `Datum.finish`: the deferred `MergeProcessStats` gives the error when
the body returned `nil`. -/
def Datum.finish (d : Datum) (a : Attempt) (err : Option GoError) : Datum × Option GoError :=
  let r : Datum × Option GoError := match err with
    | some e =>
      let d1 := d.handleFailed e
      (d1, d1.uploadMetaOutput a)
    | none =>
      let stats := { d.set.stats with processed := d.set.stats.processed + 1 }
      let d1 := { d with set := { d.set with stats := stats } }
      (d1, d1.uploadOutput a)
  match r.2 with
  | none => (r.1, a.merge)
  | some e => (r.1, some e)

/-- What `Datum.run` did: the datum's meta, the returned error, and whether
the recovery callback was called. -/
structure RunResult where
  meta : Meta
  err : Option GoError
  recovered : Bool
deriving DecidableEq, Repr

/-- The method `Datum.run`: `cb` is the error returned by the callback, `recovery`
the error the recovery callback returns when it is called. -/
def Datum.run (d : Datum) (cb : Option GoError) (recovery : Option GoError) : RunResult :=
  match cb with
  | none => ⟨d.meta, none, false⟩
  | some e =>
    if d.recoveryCallback then
      match recovery with
      | none => ⟨{ d.meta with state := State.RECOVERED }, some e, true⟩
      | some _ => ⟨d.meta, some e, true⟩
    else ⟨d.meta, some e, false⟩

/-- The method `Datum.Run`: with a timeout the callback runs under a context with a
deadline, whose effect is part of the callback's outcome `cb`. -/
def Datum.Run (d : Datum) (cb : Option GoError) (recovery : Option GoError) : RunResult :=
  if d.timeout > 0 then d.run cb recovery else d.run cb recovery

/-- What one attempt did: the datum, the returned error, and whether the
datum callback was called. -/
structure AttemptResult where
  datum : Datum
  err : Option GoError
  called : Bool
deriving DecidableEq, Repr

/-- The function that `WithDatum` hands to `withData` in iteration `i`: the
datum callback `cb`, which can reach the datum's meta through `Datum.Run`,
followed by the deferred call of `finish`. -/
def attemptCallback (a : Attempt) (cb : Nat → Datum → Meta × Option GoError) (i : Nat)
    (d : Datum) : Datum × Option GoError :=
  let r := cb i d
  let d1 := { d with meta := r.1 }
  if r.2 = none ∨ (i : Int) = d1.numRetries then d1.finish a r.2 else (d1, r.2)

/-- The method `Datum.withData`: `pfssync.WithDownloader` is not part of the source
and is taken to call its callback and return what it returns.  The
deferred `os.RemoveAll` gives the error when everything before it
succeeded. -/
def Datum.withData (d : Datum) (a : Attempt) (cb : Datum → Datum × Option GoError) :
    AttemptResult :=
  match a.mkdir with
  | some e => ⟨d, some e, false⟩
  | none =>
    match a.download with
    | some e => ⟨d, some e, false⟩
    | none =>
      let r := cb d
      match r.2 with
      | none => ⟨r.1, a.removeAll, true⟩
      | some e => ⟨r.1, some e, true⟩

/-- What `WithDatum` did: the set and the meta as it leaves them, the
returned error, and the iterations in which the datum callback was
called. -/
structure DatumResult where
  set : Set
  meta : Meta
  err : Option GoError
  calls : List Nat
deriving DecidableEq, Repr

/-- The loop of `WithDatum`, `for i := 0; i <= d.numRetries; i++`: the
first argument is the number of iterations left, `err` the variable
`err`. -/
def withDatumLoop (w : Nat → Attempt) (cb : Nat → Datum → Meta × Option GoError) :
    Nat → Nat → Datum → Option GoError → List Nat → DatumResult
  | 0, _, d, err, calls => ⟨d.set, d.meta, err, calls⟩
  | n + 1, i, d, _, calls =>
    let r := d.withData (w i) (attemptCallback (w i) cb i)
    let calls := if r.called then calls ++ [i] else calls
    match r.err with
    | none => ⟨r.datum.set, r.datum.meta, none, calls⟩
    | some e => withDatumLoop w cb n (i + 1) r.datum (some e) calls

/-- The method `Set.WithDatum`: `w i` are the outcomes of attempt `i`, and `cb i d` is
what the datum callback does in attempt `i`: the meta it leaves and the
error it returns. -/
def Set.WithDatum (DatumID : List Input → String) (s : Set) (meta : Meta)
    (w : Nat → Attempt) (cb : Nat → Datum → Meta × Option GoError)
    (opts : List (Datum → Datum)) : DatumResult :=
  let d := newDatum DatumID s meta opts
  withDatumLoop w cb (d.numRetries + 1).toNat 0 d none []

/-- A datum callback that runs the transform through `Datum.Run`:
`transform i` is the error of the transform in attempt `i`, `recovery i`
the error of the recovery callback when it is called in attempt `i`. -/
def runCallback (transform recovery : Nat → Option GoError) (i : Nat) (d : Datum) :
    Meta × Option GoError :=
  let r := d.Run (transform i) (recovery i)
  (r.meta, r.err)

/-- The datum at the start of iteration `i` of the loop of `WithDatum`, when
the iterations before it have not ended the loop. -/
def datumAt (w : Nat → Attempt) (cb : Nat → Datum → Meta × Option GoError) (d : Datum) :
    Nat → Datum
  | 0 => d
  | i + 1 => ((datumAt w cb d i).withData (w i) (attemptCallback (w i) cb i)).datum

/-- What iteration `i` of the loop of `WithDatum` does, when the iterations
before it have not ended the loop. -/
def attemptAt (w : Nat → Attempt) (cb : Nat → Datum → Meta × Option GoError) (d : Datum)
    (i : Nat) : AttemptResult :=
  (datumAt w cb d i).withData (w i) (attemptCallback (w i) cb i)

/-- The fields of a datum that no attempt changes. -/
def SameConfig (d d1 : Datum) : Prop :=
  d1.numRetries = d.numRetries ∧ d1.ID = d.ID ∧ d1.recoveryCallback = d.recoveryCallback ∧
    d1.timeout = d.timeout ∧ d1.set.metaOutputClient = d.set.metaOutputClient ∧
    d1.set.pfsOutputClient = d.set.pfsOutputClient

/-- Specification of datum sets (`datum.SetSpec`), two `int64`. -/
structure SetSpec where
  Number : Int
  SizeBytes : Int
deriving DecidableEq, Repr

/-- Conversion to `int64`, and the result of `int64` arithmetic. -/
def toInt64 (n : Int) : Int := (n + 2 ^ 63) % 2 ^ 64 - 2 ^ 63

/-- The function returned by `shouldCreateSetFunc`, with the variable it
closes over. -/
inductive ShouldCreateSet where
  | byNumber (num : Int)
  | bySize (size : Int)
  | always
deriving DecidableEq, Repr

/-- The function `shouldCreateSetFunc`. -/
def shouldCreateSetFunc (setSpec : SetSpec) : ShouldCreateSet :=
  if setSpec.Number > 0 then ShouldCreateSet.byNumber 0
  else if setSpec.SizeBytes > 0 then ShouldCreateSet.bySize 0
  else ShouldCreateSet.always

/-- The loop `size += int64(input.FileInfo.SizeBytes)` over the inputs. -/
def addInputSizes (size : Int) (inputs : List Input) : Int :=
  inputs.foldl (fun size input => toInt64 (size + toInt64 input.fileInfo.sizeBytes)) size

/-- One call of the function returned by `shouldCreateSetFunc`: its result
and the function with its variable updated.  `num` stays below
`setSpec.Number`, an `int64`, so `num++` does not overflow. -/
def ShouldCreateSet.call (setSpec : SetSpec) : ShouldCreateSet → Meta → Bool × ShouldCreateSet
  | ShouldCreateSet.byNumber num, _ =>
    let num := num + 1
    if num ≥ setSpec.Number then (true, ShouldCreateSet.byNumber 0)
    else (false, ShouldCreateSet.byNumber num)
  | ShouldCreateSet.bySize size, meta =>
    let size := addInputSizes size meta.inputs
    if size ≥ setSpec.SizeBytes then (true, ShouldCreateSet.bySize 0)
    else (false, ShouldCreateSet.bySize size)
  | ShouldCreateSet.always, _ => (true, ShouldCreateSet.always)

/-- The variables of `CreateSets`: the pending `metas`, the function
`shouldCreateSet`, and the lists passed to `createSet` so far, oldest
first. -/
structure CreateSetsState where
  metas : List Meta
  shouldCreateSet : ShouldCreateSet
  sets : List (List Meta)
deriving DecidableEq, Repr

/-- The function `createSet`: it hands `upload` a function that uploads the meta file of
each of `metas`; `upload k metas` is the error that the caller's `upload`
returns for it, `k` sets having been created before. -/
def createSet (upload : Nat → List Meta → Option GoError) (s : CreateSetsState) :
    CreateSetsState × Option GoError :=
  ({ s with sets := s.sets ++ [s.metas] }, upload s.sets.length s.metas)

/-- The method `Iterator.Iterate` for an iterator over the datums `dit`: the callback
is called on each datum in turn, and the first error ends the iteration. -/
def Iterate {σ : Type} (cb : σ → Meta → σ × Option GoError) : List Meta → σ → σ × Option GoError
  | [], s => (s, none)
  | meta :: dit, s =>
    match cb s meta with
    | (s1, none) => Iterate cb dit s1
    | (s1, some e) => (s1, some e)

/-- The callback that `CreateSets` passes to `Iterate`. -/
def createSetsCallback (setSpec : SetSpec) (upload : Nat → List Meta → Option GoError)
    (s : CreateSetsState) (meta : Meta) : CreateSetsState × Option GoError :=
  let s1 := { s with metas := s.metas ++ [meta] }
  let r := s1.shouldCreateSet.call setSpec meta
  let s2 := { s1 with shouldCreateSet := r.2 }
  if r.1 then
    match createSet upload s2 with
    | (s3, some e) => (s3, some e)
    | (s3, none) => ({ s3 with metas := [] }, none)
  else (s2, none)

/-- The function `CreateSets`: the lists passed to `createSet`, in order, and the
returned error. -/
def CreateSets (dit : List Meta) (setSpec : SetSpec)
    (upload : Nat → List Meta → Option GoError) : List (List Meta) × Option GoError :=
  let s0 : CreateSetsState := ⟨[], shouldCreateSetFunc setSpec, []⟩
  match Iterate (createSetsCallback setSpec upload) dit s0 with
  | (s, some e) => (s.sets, some e)
  | (s, none) =>
    if s.metas.length > 0 then
      let r := createSet upload s
      (r.1.sets, r.2)
    else (s.sets, none)

/-- The value of the variable `size` of `shouldCreateSetFunc` after the
datums `metas`, from zero: the sizes of their inputs, added up in `int64`. -/
def setSize (metas : List Meta) : Int :=
  metas.foldl (fun size meta => addInputSizes size meta.inputs) 0

/-- The sizes of the inputs of the datums `metas`, added up. -/
def totalSize (metas : List Meta) : Nat :=
  (metas.map (fun meta => (meta.inputs.map (fun input => input.fileInfo.sizeBytes)).sum)).sum

/-- A set that the specification closes after its last datum, and not
before. -/
def ClosedSet (setSpec : SetSpec) (set : List Meta) : Prop :=
  if setSpec.Number > 0 then (set.length : Int) = setSpec.Number
  else if setSpec.SizeBytes > 0 then
    setSpec.SizeBytes ≤ setSize set ∧ ∀ k, k < set.length → setSize (set.take k) < setSpec.SizeBytes
  else set.length = 1

/-- Datums that the specification has not closed a set after, and the
function `shouldCreateSet` after them. -/
def PendingSet (setSpec : SetSpec) (f : ShouldCreateSet) (metas : List Meta) : Prop :=
  if setSpec.Number > 0 then
    f = ShouldCreateSet.byNumber metas.length ∧ (metas.length : Int) < setSpec.Number
  else if setSpec.SizeBytes > 0 then
    f = ShouldCreateSet.bySize (setSize metas) ∧
      ∀ k, k ≤ metas.length → setSize (metas.take k) < setSpec.SizeBytes
  else f = ShouldCreateSet.always ∧ metas = []

/-- A set that the specification does not close before its last datum. -/
def OpenSet (setSpec : SetSpec) (set : List Meta) : Prop :=
  if setSpec.Number > 0 then (set.length : Int) ≤ setSpec.Number
  else if setSpec.SizeBytes > 0 then
    ∀ k, k < set.length → setSize (set.take k) < setSpec.SizeBytes
  else set.length ≤ 1

/-- The variables of `CreateSets` after the datums `seen`: the sets created
and the pending datums are the datums seen, in order, every set is closed
and not empty, and the pending datums are not closed. -/
def CreateSetsInv (setSpec : SetSpec) (s : CreateSetsState) (seen : List Meta) : Prop :=
  s.sets.flatten ++ s.metas = seen ∧
    (∀ set ∈ s.sets, set ≠ [] ∧ ClosedSet setSpec set) ∧
    PendingSet setSpec s.shouldCreateSet s.metas

/-! ## The unordered writer: `newUnorderedWriter`, `Copy` and `compact` -/

/-- The function `newUnorderedWriter`.  `acquire` is the error of
`storage.filesetSem.Acquire`, and an option is the change it makes to the
writer.  The division of Go truncates. -/
def newUnorderedWriter (acquire : Option GoError) (memThreshold : Int)
    (opts : List (UnorderedWriter → UnorderedWriter)) : Except GoError UnorderedWriter :=
  match acquire with
  | some e => Except.error e
  | none =>
    let memThreshold := Int.tdiv memThreshold 2
    let uw : UnorderedWriter :=
      { memAvailable := memThreshold
        memThreshold := memThreshold
        buffer := []
        subFileSet := 0
        ttl := 0
        renewer := false
        ids := []
        getParentID := none
        validator := none
        maxFanIn := 2147483647 }
    Except.ok (opts.foldl (fun uw opt => opt uw) uw)

/-- The method `UnorderedWriter.Copy`.  `iterate` is the error of
`fs.Iterate` with the callback that deletes and copies each file of the file
set in the new writer, for the datum and the flag given. -/
def UnorderedWriter.Copy (fs : Fileset) (uw : UnorderedWriter)
    (iterate : String → Bool → Option GoError) (datum : String) (appendFile : Bool) :
    UnorderedWriter × Ret :=
  match uw.serialize fs with
  | (uw1, some e) => (uw1, Ret.err e)
  | (uw1, none) =>
    let datum := if datum = "" then fs.DefaultFileDatum else datum
    match uw1.withWriter fs (iterate datum appendFile) with
    | (uw2, some e) => (uw2, Ret.err e)
    | (uw2, none) => (uw2, Ret.nil)

/-- The slice expression `ids[start:stop]`, for `stop` within the length of
`ids`: `none` is the run-time panic for bounds out of range. -/
def sliceIDs (ids : List ID) (start stop : Int) : Option (List ID) :=
  if 0 ≤ start ∧ start ≤ stop ∧ stop ≤ (ids.length : Int) then
    some ((ids.drop start.toNat).take (stop - start).toNat)
  else none

/-- The inner loop of `UnorderedWriter.compact`, entered with `start` and the
ids gathered so far.  `compactIDs` is `storage.Compact`; `none` is a
run-time panic and `Ret.running` a loop that has not ended when the fuel is
used up. -/
def compactChunks (fs : Fileset) (compactIDs : List ID → Except GoError ID)
    (uw : UnorderedWriter) : Nat → Int → List ID → Option (List ID × Ret)
  | 0, _, ids => some (ids, Ret.running)
  | fuel + 1, start, ids =>
    if start < (uw.ids.length : Int) then
      let stop :=
        if start + uw.maxFanIn > (uw.ids.length : Int) then (uw.ids.length : Int)
        else start + uw.maxFanIn
      match sliceIDs uw.ids start stop with
      | none => none
      | some chunk =>
        match compactIDs chunk with
        | Except.error e => some (ids, Ret.err e)
        | Except.ok id =>
          match (if uw.renewer then fs.renew id else none) with
          | some e => some (ids, Ret.err e)
          | none => compactChunks fs compactIDs uw fuel (start + uw.maxFanIn) (ids ++ [id])
    else some (ids, Ret.nil)

/-- The method `UnorderedWriter.compact`; the fuel bounds the passes of the
outer loop and the steps of each inner loop. -/
def UnorderedWriter.compact (fs : Fileset) (compactIDs : List ID → Except GoError ID) :
    Nat → UnorderedWriter → Option (UnorderedWriter × Ret)
  | 0, uw => some (uw, Ret.running)
  | fuel + 1, uw =>
    if (uw.ids.length : Int) > uw.maxFanIn then
      match compactChunks fs compactIDs uw (fuel + 1) 0 [] with
      | none => none
      | some (ids, Ret.nil) => UnorderedWriter.compact fs compactIDs fuel { uw with ids := ids }
      | some (_, ret) => some (uw, ret)
    else some (uw, Ret.nil)

/-- A call of a method of the unordered writer that writes. -/
inductive WriterCall where
  | put (p datum : String) (appendFile : Bool) (r : Reader)
  | delete (p datum : String)
  | copy (iterate : String → Bool → Option GoError) (datum : String) (appendFile : Bool)

/-- The call made on a writer. -/
def WriterCall.apply (fs : Fileset) (fuel : Nat) (uw : UnorderedWriter) :
    WriterCall → UnorderedWriter × Ret
  | WriterCall.put p datum appendFile r => uw.Put fs fuel p datum appendFile r
  | WriterCall.delete p datum => UnorderedWriter.Delete fs fuel uw p datum
  | WriterCall.copy iterate datum appendFile => uw.Copy fs iterate datum appendFile

/-- A sequence of calls on a writer, up to the first call that does not
return `nil`. -/
def runCalls (fs : Fileset) (fuel : Nat) : List WriterCall → UnorderedWriter → UnorderedWriter × Ret
  | [], uw => (uw, Ret.nil)
  | call :: rest, uw =>
    match call.apply fs fuel uw with
    | (uw1, Ret.nil) => runCalls fs fuel rest uw1
    | (uw1, ret) => (uw1, ret)

/-- The number of content bytes written into a buffer. -/
def bufferBytes : List BufferCall → Nat
  | [] => 0
  | BufferCall.write _ _ data :: rest => data.length + bufferBytes rest
  | _ :: rest => bufferBytes rest

/-- The memory account of a writer with the threshold `T`: the memory
available is `T` less the bytes in the buffer, and is not negative. -/
def MemInv (T : Int) (uw : UnorderedWriter) : Prop :=
  uw.memThreshold = T ∧ 0 ≤ uw.memAvailable ∧ uw.memAvailable ≤ T ∧
    uw.memAvailable = T - (bufferBytes uw.buffer : Int)

/-- An option of the writer that leaves the memory account alone. -/
def KeepsMemory (opt : UnorderedWriter → UnorderedWriter) : Prop :=
  ∀ uw, (opt uw).memAvailable = uw.memAvailable ∧ (opt uw).memThreshold = uw.memThreshold ∧
    (opt uw).buffer = uw.buffer

/-- The type `pfs.Commit` of this package: the repo name and the bytes of
`Id`. -/
structure PfsCommit where
  Repo : String
  Id : List Nat
deriving DecidableEq, Repr

/-- The fields of `persist.JobInfo` that the job store reads and writes. -/
structure JobInfo where
  JobId : String
  PipelineName : String
  InputCommit : List PfsCommit
  CreatedAt : Option Nat
  CommitIndex : List Nat
deriving DecidableEq, Repr

/-- The fields of `pps.ListJobRequest`: the name of the pipeline, when the
pipeline is set, and the input commits. -/
structure ListJobRequest where
  Pipeline : Option String
  InputCommit : List PfsCommit
deriving DecidableEq, Repr

/-- The first loop of `genCommitIndex`: `commit.Id[0:10]` of every commit;
`none` is the run-time panic of the slice expression on an id of less than
ten bytes. -/
def commitIDs : List PfsCommit → Option (List (List Nat))
  | [] => some []
  | commit :: rest =>
    if commit.Id.length < 10 then none
    else
      match commitIDs rest with
      | none => none
      | some ids => some (commit.Id.take 10 :: ids)

/-- The function `sort.Strings`: the strings in increasing order of their
bytes. -/
def sortStrings (l : List (List Nat)) : List (List Nat) :=
  l.insertionSort (fun a b => a ≤ b)

/-- The function `genCommitIndex`. -/
def genCommitIndex (commits : List PfsCommit) : Option (List Nat) :=
  match commitIDs commits with
  | none => none
  | some ids => some (sortStrings ids).flatten

/-- The method `insertMessage` on the table `JobInfos`, whose primary key is
`JobId`. -/
def insertMessage (table : List JobInfo) (message : JobInfo) : List JobInfo × Option GoError :=
  if table.any (fun j => decide (j.JobId = message.JobId)) then
    (table, some (GoError.msg "Duplicate primary key"))
  else (table ++ [message], none)

/-- The method `rethinkAPIServer.CreateJobInfo`: the table after the call and
what is returned.  `uuid` is what `uuid.NewWithoutDashes` returns and `now`
the time; `none` is a run-time panic. -/
def CreateJobInfo (uuid : String) (now : Nat) (table : List JobInfo) (request : JobInfo) :
    Option (List JobInfo × Except GoError JobInfo) :=
  if request.JobId ≠ "" then
    some (table, Except.error (GoError.msg "request.JobId should be unset"))
  else if request.CreatedAt ≠ none then
    some (table, Except.error (GoError.msg "request.CreatedAt should be unset"))
  else if request.CommitIndex ≠ [] then
    some (table, Except.error (GoError.msg "request.CommitIndex should be unset"))
  else
    match genCommitIndex request.InputCommit with
    | none => none
    | some index =>
      let request1 := { request with JobId := uuid, CreatedAt := some now, CommitIndex := index }
      match insertMessage table request1 with
      | (table1, some e) => some (table1, Except.error e)
      | (table1, none) => some (table1, Except.ok request1)

/-- The method `rethinkAPIServer.ListJobInfos`, on a database that answers
the query; `none` is a run-time panic. -/
def ListJobInfos (table : List JobInfo) (request : ListJobRequest) : Option (List JobInfo) :=
  match request.Pipeline with
  | some name =>
    if request.InputCommit.length > 0 then
      match genCommitIndex request.InputCommit with
      | none => none
      | some index =>
        some (table.filter (fun j => decide (j.PipelineName = name ∧ j.CommitIndex = index)))
    else some (table.filter (fun j => decide (j.PipelineName = name)))
  | none =>
    if request.InputCommit.length > 0 then
      match genCommitIndex request.InputCommit with
      | none => none
      | some index => some (table.filter (fun j => decide (j.CommitIndex = index)))
    else some table

/-! ## The pipeline poller (package `pps/server`)

`src/server/pps/server/poller.go`.  The map `dbPipelines`, whose values are
all `true`, is the list of its keys; `visit` gives the order in which a
`range` loop visits the keys, which Go leaves open.  Go compares the bytes of
two strings, which on UTF-8 text is the order of their characters. -/

inductive EventType where
  | writeEv
  | deleteEv
deriving DecidableEq, Repr

/-- The type `pipelineEvent`. -/
structure pipelineEvent where
  eventType : EventType
  pipeline : String
deriving DecidableEq, Repr

/-- The loop of `pollPipelines` that chooses a pipeline, over the keys in the
order visited. -/
def choosePipeline (visited : List String) : String :=
  visited.foldl
    (fun pipeline p => if pipeline = "" ∨ p.data < pipeline.data then p else pipeline) ""

/-- The end of the function that `pollPipelines` retries, for `dbPipelines`
not empty: a pipeline is chosen and deleted from the map, and a write event
for it is sent.  `sendTaken` tells which case of the `select` is taken: the
send of the event or, when the context is cancelled, `ctx.Done()`. -/
def pollOne (visit : List String → List String) (sendTaken : Bool) (dbPipelines : List String) :
    List String × List pipelineEvent :=
  let pipeline := choosePipeline (visit dbPipelines)
  (dbPipelines.filter (fun p => decide (p ≠ pipeline)),
    if sendTaken then [⟨EventType.writeEv, pipeline⟩] else [])

/-- The calls of the retried function from one replenishing of `dbPipelines`
up to the next: call `i` visits the keys in the order `visit i` and takes
the case `sendTaken i` of its `select`.  The events sent are listed in the
order sent. -/
def pollCycle (visit : Nat → List String → List String) (sendTaken : Nat → Bool) :
    Nat → Nat → List String → List String × List pipelineEvent
  | 0, _, dbPipelines => (dbPipelines, [])
  | fuel + 1, i, dbPipelines =>
    if dbPipelines = [] then (dbPipelines, [])
    else
      let step := pollOne (visit i) (sendTaken i) dbPipelines
      let rest := pollCycle visit sendTaken fuel (i + 1) step.1
      (rest.1, step.2 ++ rest.2)

/-! ## Diff paths of the local block server

`src/pfs/server/local_block_api_server.go`, with the functions of the Go
library that it calls.  The files below the diff directory are a map from
their paths to the `DiffInfo` stored in them. -/

/-- The function `filepath.Join`: the elements from the first one that is not
empty on, joined by slashes and cleaned; the empty string when there is
none. -/
def Join (elem : List String) : String :=
  match elem.dropWhile (fun e => decide (e = "")) with
  | [] => ""
  | rest => Clean ⟨joinSlash (rest.map String.data)⟩

/-- The digits of `strconv.FormatUint(n, 10)` before `acc`; a `uint64` has at
most twenty. -/
def formatDigits : Nat → Nat → List Char → List Char
  | 0, _, acc => acc
  | fuel + 1, n, acc =>
    if n < 10 then Char.ofNat (48 + n) :: acc
    else formatDigits fuel (n / 10) (Char.ofNat (48 + n % 10) :: acc)

/-- The function `strconv.FormatUint(n, 10)` on a `uint64`. -/
def FormatUint (n : Nat) : String := ⟨formatDigits 20 (n % uint64Size) []⟩

/-- The loop of `strconv.ParseUint(s, 10, 64)` over the bytes: `none` is an
error, for a byte that is no digit or a value out of range. -/
def parseDigits : List Char → Nat → Option Nat
  | [], n => some n
  | c :: cs, n =>
    if 48 ≤ c.toNat ∧ c.toNat ≤ 57 then
      if n * 10 + (c.toNat - 48) < uint64Size then parseDigits cs (n * 10 + (c.toNat - 48))
      else none
    else none

/-- The function `strconv.ParseUint(s, 10, 64)`; `none` is an error. -/
def ParseUint (s : String) : Option Nat :=
  if s.data = [] then none else parseDigits s.data 0

/-- The function `strings.TrimPrefix`. -/
def TrimPrefix (s pre : String) : String :=
  if pre.data.isPrefixOf s.data then ⟨s.data.drop pre.data.length⟩ else s

/-- The method `localBlockAPIServer.diffDir`. -/
def diffDir (dir : String) : String := Join [dir, "diff"]

/-- The method `localBlockAPIServer.diffPath`. -/
def diffPath (dir : String) (diff : Diff) : String :=
  Join [diffDir dir, diff.commit.repo, diff.commit.id, FormatUint diff.shard]

/-- The method `localBlockAPIServer.pathToDiff`. -/
def pathToDiff (dir : String) (path : String) : Option Diff :=
  let repoCommitShard := splitSlash (TrimPrefix path (diffDir dir)).data
  if repoCommitShard.length < 3 then none
  else
    match ParseUint ⟨repoCommitShard.getD 2 []⟩ with
    | none => none
    | some shard => some ⟨⟨⟨repoCommitShard.getD 0 []⟩, ⟨repoCommitShard.getD 1 []⟩⟩, shard⟩

/-- The method `localBlockAPIServer.readDiff`: the `DiffInfo` in the file at
the path of the diff, or the error of reading the file. -/
def readDiff (dir : String) (files : List (String × DiffInfo)) (diff : Diff) :
    Except GoError DiffInfo :=
  match mget files (diffPath dir diff) with
  | some diffInfo => Except.ok diffInfo
  | none => Except.error (GoError.msg "no such file")

/-- The method `localBlockAPIServer.CreateDiff`: the files after the call. -/
def CreateDiff (dir : String) (files : List (String × DiffInfo)) (request : DiffInfo) :
    List (String × DiffInfo) :=
  mset files (diffPath dir request.diff) request

/-- The method `localBlockAPIServer.ListDiff`: what is sent to the client and
the error returned, over the paths that `filepath.Walk` visits. -/
def ListDiff (dir : String) (files : List (String × DiffInfo)) (shard : Nat) :
    List String → List DiffInfo → List DiffInfo × Option GoError
  | [], sent => (sent, none)
  | path :: rest, sent =>
    match pathToDiff dir path with
    | none => ListDiff dir files shard rest sent
    | some diff =>
      if diff.shard = shard then
        match readDiff dir files diff with
        | Except.error e => (sent, some e)
        | Except.ok diffInfo => ListDiff dir files shard rest (sent ++ [diffInfo])
      else ListDiff dir files shard rest sent

/-! ## Commit waiters of the PFS API server

`src/server/pfs/server/internal_api_server.go`.  A channel is what was sent
on it and whether it is closed; the channels are numbered in the order of
their `make`.  The goroutine that `registerCommitWaiter` starts is run to its
end at once, as it runs when the caller of `ListCommit` receives from the
channel.  The commit type `COMMIT_TYPE_NONE` is `none`. -/

/-- A channel of `*CommitInfo`. -/
structure Chan where
  sent : List CommitInfo
  closed : Bool
deriving DecidableEq, Repr

/-- The type `commitWait`; `commitInfoChan` is the number of the channel. -/
structure commitWait where
  repos : List String
  commitType : Option CommitType
  commitInfoChan : Nat
deriving DecidableEq, Repr

/-- The channels made so far and the field `commitWaiters` of the server. -/
structure WaiterState where
  chans : List Chan
  commitWaiters : List commitWait
deriving DecidableEq, Repr

/-- The fields of `ListCommitRequest` that the waiters read. -/
structure ListCommitRequest where
  repo : List String
  fromCommit : List Commit
  commitType : Option CommitType

/-- The statement `make(chan *pfsserver.CommitInfo)`: the channels after it
and the number of the new one. -/
def makeChan (chans : List Chan) : List Chan × Nat := (chans ++ [⟨[], false⟩], chans.length)

/-- A send on a channel; `none` is the run-time panic of a send on a closed
channel. -/
def chanSend (chans : List Chan) (c : Nat) (commitInfo : CommitInfo) : Option (List Chan) :=
  match chans.get? c with
  | none => none
  | some ch =>
    if ch.closed then none else some (chans.set c { ch with sent := ch.sent ++ [commitInfo] })

/-- The function `close` on a channel; `none` is the run-time panic of the
close of a closed channel. -/
def chanClose (chans : List Chan) (c : Nat) : Option (List Chan) :=
  match chans.get? c with
  | none => none
  | some ch => if ch.closed then none else some (chans.set c { ch with closed := true })

/-- The method `internalAPIServer.filteredListCommits`. -/
def filteredListCommits (reduce : List CommitInfo → List CommitInfo) (leaves : DAG → List String)
    (d : Driver) (repos : List String) (fromCommit : List Commit) (commitType : Option CommitType)
    (shards : List Nat) (fuel : Nat) : Res (List CommitInfo) :=
  match ListCommit reduce leaves d repos fromCommit shards fuel with
  | Res.ok commitInfos =>
    Res.ok (commitInfos.filter
      (fun commitInfo => !(decide (commitType ≠ none ∧ some commitInfo.commitType ≠ commitType))))
  | r => r

/-- The goroutine of `registerCommitWaiter`: the commit infos are sent on the
channel, which is then closed. -/
def answerWaiter (chans : List Chan) (outChan : Nat) : List CommitInfo → Option (List Chan)
  | [] => chanClose chans outChan
  | commitInfo :: rest =>
    match chanSend chans outChan commitInfo with
    | none => none
    | some chans1 => answerWaiter chans1 outChan rest

/-- The method `internalAPIServer.registerCommitWaiter`. -/
def registerCommitWaiter (reduce : List CommitInfo → List CommitInfo) (leaves : DAG → List String)
    (d : Driver) (st : WaiterState) (request : ListCommitRequest) (shards : List Nat)
    (outChan : Nat) (fuel : Nat) : WaiterState × Status :=
  match filteredListCommits reduce leaves d request.repo request.fromCommit request.commitType
      shards fuel with
  | Res.ok commitInfos =>
    let answered :=
      if commitInfos.length ≠ 0 then answerWaiter st.chans outChan commitInfos else some st.chans
    match answered with
    | none => (st, Status.panic)
    | some chans =>
      (⟨chans, st.commitWaiters ++ [⟨request.repo, request.commitType, outChan⟩]⟩, Status.ok)
  | Res.error e => (st, Status.error e)
  | Res.panic => (st, Status.panic)
  | Res.timeout => (st, Status.timeout)

/-- The loop of `pulseCommitWaiters` over the waiters: the channels and the
waiters not pulsed; `none` is a run-time panic. -/
def pulseLoop (commit : Commit) (commitType : Option CommitType) (commitInfo : CommitInfo) :
    List commitWait → List Chan → List commitWait → Option (List Chan × List commitWait)
  | [], chans, unpulsedWaiters => some (chans, unpulsedWaiters)
  | commitWaiter :: rest, chans, unpulsedWaiters =>
    if (commitWaiter.commitType = none ∨ commitType = commitWaiter.commitType) ∧
        commit.repo ∈ commitWaiter.repos then
      match chanSend chans commitWaiter.commitInfoChan commitInfo with
      | none => none
      | some chans1 =>
        match chanClose chans1 commitWaiter.commitInfoChan with
        | none => none
        | some chans2 => pulseLoop commit commitType commitInfo rest chans2 unpulsedWaiters
    else pulseLoop commit commitType commitInfo rest chans (unpulsedWaiters ++ [commitWaiter])

/-- The method `internalAPIServer.pulseCommitWaiters`. -/
def pulseCommitWaiters (reduce : List CommitInfo → List CommitInfo) (d : Driver)
    (st : WaiterState) (commit : Commit) (commitType : Option CommitType) (shards : List Nat) :
    WaiterState × Status :=
  match inspectCommit reduce d commit shards with
  | Res.ok commitInfo =>
    match pulseLoop commit commitType commitInfo st.commitWaiters st.chans [] with
    | none => (st, Status.panic)
    | some (chans, unpulsedWaiters) => (⟨chans, unpulsedWaiters⟩, Status.ok)
  | Res.error e => (st, Status.error e)
  | Res.panic => (st, Status.panic)
  | Res.timeout => (st, Status.timeout)

/-! ## `ListFile`, and states that differ in open diffs only -/

/-- The loop of `driver.ListFile` over the children of a directory: a child
that is not found is left out. -/
def listFileChildren (flt : ShardFilter) (d : Driver) (shard : Nat) (frm : Option Commit)
    (fuel : Nat) : List File → List FileInfo → Res (List FileInfo)
  | [], result => Res.ok result
  | child :: rest, result =>
    match inspectFile flt d child shard frm fuel with
    | Res.ok (fileInfo, _) => listFileChildren flt d shard frm fuel rest (result ++ [fileInfo])
    | Res.error e =>
      if e = DriverError.fileNotFound then listFileChildren flt d shard frm fuel rest result
      else Res.error e
    | Res.panic => Res.panic
    | Res.timeout => Res.timeout

/-- The method `driver.ListFile`. -/
def ListFile (flt : ShardFilter) (d : Driver) (file : File) (frm : Option Commit) (shard : Nat)
    (fuel : Nat) : Res (List FileInfo) :=
  match inspectFile flt d file shard frm fuel with
  | Res.ok (fileInfo, _) =>
    if fileInfo.fileType = FileType.regular then Res.ok [fileInfo]
    else listFileChildren flt d shard frm fuel fileInfo.children []
  | Res.error e => Res.error e
  | Res.panic => Res.panic
  | Res.timeout => Res.timeout

/-- Two diffs that are equal, or are both open and differ in `Appends` and
`SizeBytes` only. -/
def SameButOpen (a b : DiffInfo) : Prop :=
  a.diff = b.diff ∧ a.parentCommit = b.parentCommit ∧ a.started = b.started ∧
    a.finished = b.finished ∧ a.branch = b.branch ∧ (a.finished ≠ none → a = b)

/-- Two driver states that differ only in the `Appends` and `SizeBytes` of
diffs whose `Finished` is nil. -/
def OpenEquiv (d1 d2 : Driver) : Prop :=
  d1.branches = d2.branches ∧ d1.dags = d2.dags ∧
    ∀ diff : Diff,
      match d1.diffs.get diff, d2.diffs.get diff with
      | some a, some b => SameButOpen a b
      | none, none => True
      | _, _ => False

/-- A path of open diffs on a shard: from `start` through the commits `cs`,
each with an open diff whose parent is the next one, to `ancestor`, the
parent of the last. -/
def openPath (d : Driver) (shard : Nat) : Option Commit → List Commit → Option Commit → Prop
  | start, [], ancestor => start = ancestor
  | start, c :: rest, ancestor =>
    start = some c ∧ ∃ diffInfo, d.diffs.get ⟨c, shard⟩ = some diffInfo ∧
      diffInfo.finished = none ∧ openPath d shard diffInfo.parentCommit rest ancestor

/-! ## Clean relative paths and the links of `addDirs` -/

/-- The stacks that `path.Clean` builds for a relative path, the last element
first: no element is empty, `.` or holds a slash, and below a `..` there are
only `..`. -/
def GoodStack : List (List Char) → Prop
  | [] => True
  | top :: rest =>
    top ≠ [] ∧ top ≠ ['.'] ∧ '/' ∉ top ∧ (top = ['.', '.'] → ∀ c ∈ rest, c = ['.', '.']) ∧
      GoodStack rest

/-- A file set layer in which every call succeeds and no directory holds a
file; a path is a directory when it ends in a slash. -/
def plainFileset : Fileset :=
  ⟨"default", fun p => decide (p.data.getLast? = some '/'), fun p _ => p, fun _ => none,
    fun _ => Except.ok "id", fun _ => none, fun _ _ => Except.ok []⟩

/-- An API server that reaches no URL and whose `copyFile` succeeds. -/
def plainServer : APIServer :=
  ⟨fun _ => Fetched.failed (GoError.msg "no network"), fun uw _ => (uw, Ret.nil)⟩

/-- A validator that rejects the path `bad`. -/
def rejectBad (p : String) : Option GoError :=
  if p = "bad" then some (GoError.msg "invalid path") else none

/-- A fresh writer with eight bytes of memory and the validator `rejectBad`. -/
def strictWriter : UnorderedWriter :=
  ⟨8, 8, [], 0, 0, false, [], none, some rejectBad, 2147483647⟩

/-- A `delete_file` request for the path `bad`. -/
def deleteBad : ModifyFileRequest := ModifyFileRequest.deleteFile ⟨"bad", ""⟩

/-- An `add_file` request for the path `bad`, with one byte. -/
def addBad : ModifyFileRequest := ModifyFileRequest.addFile ⟨"bad", "", AddFileSource.raw [1]⟩

/-- The commit `c1` of the repo `repo`. -/
def commitOne : Commit := ⟨"repo", "c1"⟩

/-- A `resolveCommit` that knows the commit `c1` of the repo `repo` under the
name `master`, and no other. -/
def resolveMaster (c : Commit) : Except GoError CommitInfo :=
  if c = ⟨"repo", "master"⟩ then
    Except.ok ⟨commitOne, CommitType.read, "master", none, some 1, some 2, 0⟩
  else Except.error (GoError.msg "commit not found")

/-- An attempt in which every call outside the package succeeds. -/
def okAttempt : Attempt := ⟨none, none, none, none, none, none, none, none, none⟩

/-- A datum with one input of one byte. -/
def metaOne : Meta :=
  ⟨[⟨"in", { file := ⟨⟨"r", "c"⟩, "p"⟩, sizeBytes := 1 }⟩], State.PROCESSED, ""⟩

/-- A fresh datum set with both output clients. -/
def setZero : Set := ⟨true, true, ⟨0, 0, 0, ""⟩⟩

/-- A stand-in for `common.DatumID`: the names of the inputs. -/
def inputNames (inputs : List Input) : String := String.join (inputs.map (fun i => i.name))

/-- A datum callback that fails in every attempt and leaves the meta alone. -/
def failingCallback (_ : Nat) (d : Datum) : Meta × Option GoError :=
  (d.meta, some (GoError.msg "exit status 1"))

/-- A datum callback that succeeds in every attempt and leaves the meta
alone. -/
def passingCallback (_ : Nat) (d : Datum) : Meta × Option GoError := (d.meta, none)

/-- Attempts of which the first cannot remove its directory. -/
def cleanupFails (i : Nat) : Attempt :=
  if i = 0 then { okAttempt with removeAll := some (GoError.msg "remove failed") } else okAttempt

/-- Attempts of which the first cannot download its data. -/
def downloadFails (i : Nat) : Attempt :=
  if i = 0 then { okAttempt with download := some (GoError.msg "download failed") } else okAttempt

/-- Attempts of which the first cannot upload its output. -/
def outputFails (i : Nat) : Attempt :=
  if i = 0 then { okAttempt with output := some (GoError.msg "upload failed") } else okAttempt

/-- The option that sets a recovery callback and one retry. -/
def withRecovery (d : Datum) : Datum := { d with recoveryCallback := true, numRetries := 1 }

/-- A transform that fails in the first attempt only. -/
def failsOnce (i : Nat) : Option GoError :=
  if i = 0 then some (GoError.msg "exit status 1") else none

/-- A transform that fails in every attempt. -/
def failsAlways (_ : Nat) : Option GoError := some (GoError.msg "exit status 1")

/-- A recovery callback that succeeds whenever it is called. -/
def recovers (_ : Nat) : Option GoError := none

/-- A datum that a recovery callback has marked. -/
def recoveredDatum : Datum :=
  ⟨setZero, "in", ⟨[], State.RECOVERED, ""⟩, 0, true, 0⟩

/-- A datum with one input of `n` bytes. -/
def metaSized (n : Nat) : Meta :=
  ⟨[⟨"in", { file := ⟨⟨"r", "c"⟩, "p"⟩, sizeBytes := n }⟩], State.PROCESSED, ""⟩

/-- Five datums, of one to five bytes. -/
def fiveMetas : List Meta := [metaSized 1, metaSized 2, metaSized 3, metaSized 4, metaSized 5]

/-- An `upload` that never fails. -/
def uploadOk (_ : Nat) (_ : List Meta) : Option GoError := none

/-- The writer that `newUnorderedWriter` returns for a threshold of 16 bytes
and no option. -/
def freshWriter : UnorderedWriter := ⟨8, 8, [], 0, 0, false, [], none, none, 2147483647⟩

/-- The writer that `newUnorderedWriter` returns for a threshold of one byte
and no option. -/
def tinyWriter : UnorderedWriter := ⟨0, 0, [], 0, 0, false, [], none, none, 2147483647⟩

/-- The option that sets the validator `rejectBad`. -/
def withValidator (uw : UnorderedWriter) : UnorderedWriter :=
  { uw with validator := some rejectBad }

/-- A reader of three bytes. -/
def threeBytes : Reader := ⟨[1, 2, 3], none⟩

/-- A file set whose files are all copied without error. -/
def copyOk (_ : String) (_ : Bool) : Option GoError := none

/-- A `storage.Compact` that succeeds with the id `merged`. -/
def compactOk (_ : List ID) : Except GoError ID := Except.ok "merged"

/-- A file set layer like `plainFileset` whose renewer fails. -/
def renewFails : Fileset := { plainFileset with renew := fun _ => some (GoError.msg "renew failed") }

/-- A writer with the ids `a` and `b` and a fan-in of one. -/
def fanInOne : UnorderedWriter := { freshWriter with ids := ["a", "b"], maxFanIn := 1 }

/-- A writer with three ids, a fan-in of two and a renewer. -/
def renewedWriter : UnorderedWriter :=
  { freshWriter with ids := ["a", "b", "c"], maxFanIn := 2, renewer := true }

/-- Repo `r` on the shards 0 and 1, with the finished commit `p` on no
branch. -/
def twoShardState : Driver :=
  (FinishCommit storeOk
    (StartCommit (CreateRepo none none newDriver "r" (some 1) [0, 1]).1 "r" "p" "" "" (some 2)
      [0, 1]).1 ⟨"r", "p"⟩ (some 3) [0, 1]).1

/-- A blocking `ListCommit` request for the commits of repo `r`, of any type. -/
def listAll : ListCommitRequest := ⟨["r"], [], none⟩

/-- The server with one channel, just made, and no waiter. -/
def oneChan : WaiterState := ⟨(makeChan []).1, []⟩

/-- The state `finishedOnce` after commit `c2` is started with the parent
`c1`. -/
def startedTwice : Driver := (StartCommit finishedOnce "r" "c2" "c1" "" (some 4) [0]).1

/-- The diff of commit `c1` of repo `r` on shard 0, as `StartCommit` makes it. -/
def diffOne : DiffInfo := startedDiff "r" "c1" "" (some 2) 0

/-- The paths that `filepath.Walk` visits below `/pfs/diff` when the only
file is the diff of commit `c1` of repo `r` on shard 0. -/
def walkOne : List String := ["/pfs/diff", "/pfs/diff/r", "/pfs/diff/r/c1", "/pfs/diff/r/c1/0"]

/-- The bytes of a string of ASCII characters. -/
def bytesOf (s : String) : List Nat := s.data.map Char.toNat

/-- Two commits of repo `data`, with ids of twelve bytes. -/
def commitB : PfsCommit := ⟨"data", bytesOf "bbbbbbbbbb01"⟩

def commitA : PfsCommit := ⟨"data", bytesOf "aaaaaaaaaa02"⟩

/-- A request to create a job of the pipeline `foo` on the two commits. -/
def jobRequest : JobInfo := ⟨"", "foo", [commitB, commitA], none, []⟩

/-- Repo `r` with the finished commit `c1`, which holds the file `foo`, and
the open commit `c2` on top of it. -/
def openOnFoo : Driver :=
  let d1 := (StartCommit repoState "r" "c1" "" "" (some 2) [0]).1
  let d2 := (PutFile d1 ⟨⟨"r", "c1"⟩, "foo"⟩ 0 (Except.ok [blockA]) 8).1
  let d3 := (FinishCommit storeOk d2 ⟨"r", "c1"⟩ (some 3) [0]).1
  (StartCommit d3 "r" "c2" "c1" "" (some 4) [0]).1

/-! # Theorems -/

/-! ## Maps -/

theorem mget_mset {K V : Type} [DecidableEq K] (m : List (K × V)) (k k' : K) (v : V) :
    mget (mset m k' v) k = if k' = k then some v else mget m k := by
  induction m with
  | nil => simp [mset, mget]
  | cons kv rest ih =>
    obtain ⟨k0, v0⟩ := kv
    by_cases h0 : k0 = k'
    · subst h0
      by_cases h1 : k0 = k <;> simp [mset, mget, h1]
    · by_cases h1 : k0 = k
      · subst h1
        have : ¬ k' = k0 := fun h => h0 h.symm
        simp [mset, mget, h0, this]
      · simp [mset, mget, h0, h1, ih]

theorem mget_mset_self {K V : Type} [DecidableEq K] (m : List (K × V)) (k : K) (v : V) :
    mget (mset m k v) k = some v := by
  simp [mget_mset]

theorem mget_mset_ne {K V : Type} [DecidableEq K] (m : List (K × V)) (k k' : K) (v : V)
    (h : k' ≠ k) : mget (mset m k' v) k = mget m k := by
  simp [mget_mset, h]

theorem mem_of_mget {K V : Type} [DecidableEq K] (m : List (K × V)) (k : K) (v : V)
    (h : mget m k = some v) : (k, v) ∈ m := by
  induction m with
  | nil => simp [mget] at h
  | cons kv rest ih =>
    obtain ⟨k0, v0⟩ := kv
    by_cases h0 : k0 = k
    · subst h0
      simp [mget] at h
      subst h
      simp
    · simp [mget, h0] at h
      exact List.mem_cons_of_mem _ (ih h)

theorem mem_mset {K V : Type} [DecidableEq K] (m : List (K × V)) (k : K) (v : V) (x : K × V)
    (h : x ∈ mset m k v) : x ∈ m ∨ x = (k, v) := by
  induction m with
  | nil =>
    simp [mset] at h
    exact Or.inr h
  | cons kv rest ih =>
    obtain ⟨k0, v0⟩ := kv
    by_cases h0 : k0 = k
    · simp [mset, h0] at h
      rcases h with h | h
      · exact Or.inr h
      · exact Or.inl (List.mem_cons_of_mem _ h)
    · simp [mset, h0] at h
      rcases h with h | h
      · exact Or.inl (by rw [h]; exact List.mem_cons_self _ _)
      · rcases ih h with h' | h'
        · exact Or.inl (List.mem_cons_of_mem _ h')
        · exact Or.inr h'

/-- Reading `k'` from a three-level map in which the entry of `k` was set. -/
theorem get_mset3 (d : DiffMap) (k k' : Diff) (v : DiffInfo)
    (shardMap : List (Nat × List (String × DiffInfo))) (commitMap : List (String × DiffInfo))
    (hr : mget d k.commit.repo = some shardMap)
    (hs : k' ≠ k → k'.commit.repo = k.commit.repo → k'.shard = k.shard →
      mget commitMap k'.commit.id = d.get k') :
    DiffMap.get (mset d k.commit.repo (mset shardMap k.shard (mset commitMap k.commit.id v))) k'
      = if k' = k then some v else d.get k' := by
  by_cases hk : k' = k
  · subst hk
    simp [DiffMap.get, mget_mset]
  · rw [if_neg hk]
    by_cases h1 : k.commit.repo = k'.commit.repo
    · by_cases h2 : k.shard = k'.shard
      · by_cases h3 : k.commit.id = k'.commit.id
        · exfalso
          apply hk
          obtain ⟨⟨r, i⟩, s⟩ := k
          obtain ⟨⟨r', i'⟩, s'⟩ := k'
          simp only at h1 h2 h3
          subst h1 h2 h3
          rfl
        · have := hs hk h1.symm h2.symm
          rw [← this]
          simp [DiffMap.get, mget_mset, h1, h2, h3]
      · simp only [DiffMap.get, mget_mset, h1, h2, if_true, if_false]
        rw [← h1, hr]
    · simp only [DiffMap.get, mget_mset, h1, if_false]

/-- After a successful `insert` the new diff is found under its own key and
every other key is as before. -/
theorem DiffMap.get_insert (d d' : DiffMap) (x : DiffInfo) (h : d.insert x = (d', none))
    (k : Diff) : d'.get k = if k = x.diff then some x else d.get k := by
  unfold DiffMap.insert at h
  simp only at h
  cases hr : mget d x.diff.commit.repo with
  | none => simp [hr] at h
  | some shardMap =>
    simp only [hr] at h
    cases hc : mget ((mget shardMap x.diff.shard).getD []) x.diff.commit.id with
    | some y => simp [hc] at h
    | none =>
      simp only [hc, Prod.mk.injEq, and_true] at h
      subst h
      apply get_mset3 d x.diff k x shardMap _ hr
      intro _ h1 h2
      simp only [DiffMap.get, h1, hr, h2]
      cases hs : mget shardMap x.diff.shard with
      | none => simp [mget]
      | some cm => simp

/-- A successful `insert` found no diff under the key of the new one. -/
theorem DiffMap.insert_fresh (d d' : DiffMap) (x : DiffInfo) (h : d.insert x = (d', none)) :
    d.get x.diff = none := by
  unfold DiffMap.insert at h
  simp only at h
  cases hr : mget d x.diff.commit.repo with
  | none => simp [hr] at h
  | some shardMap =>
    simp only [hr] at h
    cases hc : mget ((mget shardMap x.diff.shard).getD []) x.diff.commit.id with
    | some y => simp [hc] at h
    | none =>
      simp only [DiffMap.get, hr]
      cases hs : mget shardMap x.diff.shard with
      | none => rfl
      | some cm =>
        simp only [hs, Option.getD_some] at hc
        exact hc

/-- A failed `insert` leaves the map as it was. -/
theorem DiffMap.insert_error (d d' : DiffMap) (x : DiffInfo) (e : DriverError)
    (h : d.insert x = (d', some e)) : d' = d := by
  unfold DiffMap.insert at h
  simp only at h
  cases hr : mget d x.diff.commit.repo with
  | none =>
    simp only [hr, Prod.mk.injEq] at h
    exact h.1.symm
  | some shardMap =>
    simp only [hr] at h
    cases hc : mget ((mget shardMap x.diff.shard).getD []) x.diff.commit.id with
    | some y =>
      simp only [hc, Prod.mk.injEq] at h
      exact h.1.symm
    | none => simp [hc] at h

/-- What a successful `insert` does to the map. -/
theorem DiffMap.insert_ok (d d' : DiffMap) (x : DiffInfo) (h : d.insert x = (d', none)) :
    ∃ shardMap, mget d x.diff.commit.repo = some shardMap ∧
      d' = mset d x.diff.commit.repo (mset shardMap x.diff.shard
        (mset ((mget shardMap x.diff.shard).getD []) x.diff.commit.id x)) := by
  unfold DiffMap.insert at h
  simp only at h
  cases hr : mget d x.diff.commit.repo with
  | none => simp [hr] at h
  | some shardMap =>
    simp only [hr] at h
    cases hc : mget ((mget shardMap x.diff.shard).getD []) x.diff.commit.id with
    | some y => simp [hc] at h
    | none =>
      simp only [hc, Prod.mk.injEq, and_true] at h
      exact ⟨shardMap, rfl, h.symm⟩

/-- A write through a pointer obtained from `get`. -/
theorem DiffMap.get_store (d : DiffMap) (k k' : Diff) (v old : DiffInfo) (h : d.get k = some old) :
    (d.store k v).get k' = if k' = k then some v else d.get k' := by
  unfold DiffMap.get at h
  unfold DiffMap.store
  cases hr : mget d k.commit.repo with
  | none => simp [hr] at h
  | some shardMap =>
    simp only [hr] at h
    cases hs : mget shardMap k.shard with
    | none => simp [hs] at h
    | some commitMap =>
      simp only [hs]
      apply get_mset3 d k k' v shardMap commitMap hr
      intro _ h1 h2
      simp only [DiffMap.get, h1, hr, h2, hs]

/-! ## `StartCommit` and `FinishCommit` -/

/-- The diffs after `insertDiffInfo` are those after `diffMap.insert`. -/
theorem insertDiffInfo_diffs (d : Driver) (x : DiffInfo) :
    (insertDiffInfo d x).1.diffs = (d.diffs.insert x).1 := by
  unfold insertDiffInfo
  rcases hi : d.diffs.insert x with ⟨diffs, _ | e⟩
  · simp only
    split
    · split
      · rename_i hidx
        split at hidx
        · split at hidx
          · simp at hidx
          · split at hidx
            · simp at hidx
            · simp only [Prod.mk.injEq] at hidx
              obtain ⟨rfl, -⟩ := hidx
              split <;> rfl
        · simp only [Prod.mk.injEq] at hidx
          obtain ⟨rfl, -⟩ := hidx
          split <;> rfl
      · rename_i r hne
        split
        · split
          · rfl
          · split <;> rfl
        · rfl
    · rfl
  · rfl

/-- An `insertDiffInfo` that returns no error has inserted the diff. -/
theorem insertDiffInfo_ok (d d' : Driver) (x : DiffInfo) (h : insertDiffInfo d x = (d', Status.ok)) :
    d.diffs.insert x = (d'.diffs, none) := by
  have hd := insertDiffInfo_diffs d x
  rw [h] at hd
  simp only at hd
  rcases hi : d.diffs.insert x with ⟨diffs, _ | e⟩
  · rw [hi] at hd
    simp only at hd
    rw [hd]
  · unfold insertDiffInfo at h
    simp [hi] at h

/-- No diff is removed or replaced by `insertDiffInfo`. -/
theorem insertDiffInfo_preserves (d : Driver) (x : DiffInfo) (k : Diff) (v : DiffInfo)
    (hk : d.diffs.get k = some v) : (insertDiffInfo d x).1.diffs.get k = some v := by
  rw [insertDiffInfo_diffs]
  rcases hi : d.diffs.insert x with ⟨diffs, _ | e⟩
  · have hf := DiffMap.insert_fresh d.diffs diffs x hi
    rw [DiffMap.get_insert d.diffs diffs x hi k]
    have : k ≠ x.diff := by
      intro e
      rw [e, hf] at hk
      cases hk
    simp [this, hk]
  · rw [DiffMap.insert_error d.diffs diffs x e hi]
    exact hk

/-- `insertDiffInfo` of a diff on no branch leaves the branch heads alone. -/
theorem insertDiffInfo_branches (d : Driver) (x : DiffInfo) (hb : x.branch = "") :
    (insertDiffInfo d x).1.branches = d.branches := by
  unfold insertDiffInfo
  rcases hi : d.diffs.insert x with ⟨diffs, _ | e⟩
  · simp only [hb, ne_eq, not_true_eq_false, if_false]
    split
    · split <;> rfl
    · rfl
  · rfl

/-- The `DiffInfo` that `StartCommit` builds for a shard: its fields, and its
parent in the three cases of an explicit parent, of no branch and of a branch. -/
theorem startCommitDiff_ok (d : Driver) (repo id parentID branch : String)
    (started : Option Nat) (shard : Nat) (x : DiffInfo)
    (h : startCommitDiff d repo id parentID branch started shard = Res.ok x) :
    x = { diff := ⟨⟨repo, id⟩, shard⟩, parentCommit := x.parentCommit, started := started,
          appends := some [], branch := branch } ∧
    (parentID ≠ "" → x.parentCommit = some ⟨repo, parentID⟩) ∧
    (parentID = "" → branch = "" → x.parentCommit = none) ∧
    (parentID = "" → branch ≠ "" → branchParent d ⟨repo, id⟩ branch = Res.ok x.parentCommit) := by
  unfold startCommitDiff at h
  by_cases hb : branch = ""
  · by_cases hp : parentID = ""
    · simp [hb, hp] at h
      subst h
      simp [hb, hp]
    · simp [hb, hp] at h
      subst h
      simp [hb, hp]
  · cases hbp : branchParent d ⟨repo, id⟩ branch with
    | ok p =>
      cases p with
      | none =>
        by_cases hp : parentID = ""
        · simp [hb, hp, hbp] at h
          subst h
          simp [hb, hp]
        · simp [hb, hp, hbp] at h
          subst h
          simp [hb, hp]
      | some head =>
        by_cases hp : parentID = ""
        · simp [hb, hp, hbp] at h
          subst h
          simp [hb, hp]
        · simp [hb, hp, hbp] at h
    | error e => simp [hb, hbp] at h
    | panic => simp [hb, hbp] at h
    | timeout => simp [hb, hbp] at h

/-- `StartCommit` is rejected when a parent is given for a branch that has a head. -/
theorem startCommitDiff_branchExists (d : Driver) (repo id parentID branch : String)
    (started : Option Nat) (shard : Nat) (head : Commit) (hp : parentID ≠ "") (hb : branch ≠ "")
    (hbp : branchParent d ⟨repo, id⟩ branch = Res.ok (some head)) :
    startCommitDiff d repo id parentID branch started shard =
      Res.error (DriverError.branchExists branch head.id parentID) := by
  unfold startCommitDiff
  simp [hb, hp, hbp]

/-- The head of a branch, as `branchParent` finds it for a commit other than
the head. -/
theorem branchParent_head (d : Driver) (commit : Commit) (branch : String) (head : Commit)
    (hc : canonicalCommit d ⟨commit.repo, branch⟩ = Res.ok head) (h1 : head.id ≠ branch)
    (h2 : head.id ≠ commit.id) : branchParent d commit branch = Res.ok (some head) := by
  unfold branchParent
  simp [hc, h1, h2]

/-- A branch without a head has no parent to offer. -/
theorem branchParent_none (d : Driver) (commit : Commit) (branch : String)
    (hc : canonicalCommit d ⟨commit.repo, branch⟩ = Res.ok ⟨commit.repo, branch⟩) :
    branchParent d commit branch = Res.ok none := by
  unfold branchParent
  simp [hc]

/-- No diff is removed or replaced by `StartCommit`. -/
theorem StartCommit_preserves (repo id parentID branch : String) (started : Option Nat)
    (shards : List Nat) (d : Driver) (k : Diff) (v : DiffInfo) (hk : d.diffs.get k = some v) :
    (StartCommit d repo id parentID branch started shards).1.diffs.get k = some v := by
  induction shards generalizing d with
  | nil => simpa [StartCommit] using hk
  | cons shard rest ih =>
    unfold StartCommit
    have hstep : (startCommitShard d repo id parentID branch started shard).1.diffs.get k
        = some v := by
      unfold startCommitShard
      split
      · exact insertDiffInfo_preserves d _ k v hk
      · exact hk
      · exact hk
      · exact hk
    rcases hs : startCommitShard d repo id parentID branch started shard with ⟨d1, st⟩
    rw [hs] at hstep
    cases st with
    | ok => exact ih d1 hstep
    | error e => exact hstep
    | panic => exact hstep
    | timeout => exact hstep

/-- A commit with a diff on some shard has been seen. -/
theorem commitSeen_of_get (d : Driver) (commit : Commit) (shard : Nat) (v : DiffInfo)
    (h : d.diffs.get ⟨commit, shard⟩ = some v) : commitSeen d commit = true := by
  unfold DiffMap.get at h
  simp only at h
  cases hr : mget d.diffs commit.repo with
  | none => simp [hr] at h
  | some shardMap =>
    simp only [hr] at h
    cases hs : mget shardMap shard with
    | none => simp [hs] at h
    | some cm =>
      simp only [hs] at h
      unfold commitSeen
      simp only [hr, Option.getD_some, List.any_eq_true]
      exact ⟨(shard, cm), mem_of_mget _ _ _ hs, by simp [h]⟩

/-- The loop of `branchParent` over the shards finds a diff of a commit that
has been seen. -/
theorem findSome_of_any (l : List (Nat × List (String × DiffInfo))) (id : String)
    (h : l.any (fun sc => (mget sc.2 id).isSome) = true) :
    ∃ v, l.findSome? (fun sc => mget sc.2 id) = some v ∧ ∃ sc ∈ l, mget sc.2 id = some v := by
  induction l with
  | nil => simp at h
  | cons a rest ih =>
    cases ha : mget a.2 id with
    | some v =>
      exact ⟨v, by simp [List.findSome?, ha], a, List.mem_cons_self _ _, ha⟩
    | none =>
      simp only [List.any_cons, ha, Option.isSome_none, Bool.false_or] at h
      obtain ⟨v, hv, sc, hsc, hm⟩ := ih h
      exact ⟨v, by simp [List.findSome?, ha, hv], sc, List.mem_cons_of_mem _ hsc, hm⟩

theorem findSome_none_of_not_any (l : List (Nat × List (String × DiffInfo))) (id : String)
    (h : l.any (fun sc => (mget sc.2 id).isSome) = false) :
    l.findSome? (fun sc => mget sc.2 id) = none := by
  induction l with
  | nil => rfl
  | cons a rest ih =>
    simp only [List.any_cons, Bool.or_eq_false_iff] at h
    cases ha : mget a.2 id with
    | some v => simp [ha] at h
    | none => simp [List.findSome?, ha, ih h.2]

/-- `insertDiffInfo` of a commit already seen only inserts the diff. -/
theorem insertDiffInfo_seen (d d' : Driver) (x : DiffInfo) (hs : commitSeen d x.diff.commit = true)
    (h : insertDiffInfo d x = (d', Status.ok)) : d' = { d with diffs := d'.diffs } := by
  have hins := insertDiffInfo_ok d d' x h
  unfold insertDiffInfo at h
  simp only [hins, hs, Bool.not_true] at h
  simp at h
  rw [← h]

/-- `insertDiffInfo` of a commit not seen before, on a branch: the head of the
branch becomes the commit, whose ID differs from the name of the branch. -/
theorem insertDiffInfo_new (d d' : Driver) (x : DiffInfo) (hs : commitSeen d x.diff.commit = false)
    (hb : x.branch ≠ "") (h : insertDiffInfo d x = (d', Status.ok)) :
    canonicalCommit d' ⟨x.diff.commit.repo, x.branch⟩ = Res.ok x.diff.commit ∧
      x.diff.commit.id ≠ x.branch := by
  have hins := insertDiffInfo_ok d d' x h
  have hget := DiffMap.get_insert d.diffs d'.diffs x hins
  generalize d'.diffs = diffs1 at hins hget
  unfold insertDiffInfo at h
  simp only [hins, hs, Bool.not_false, if_true, hb, ne_eq, not_false_eq_true] at h
  by_cases hconf : (diffs1.get ⟨⟨x.diff.commit.repo, x.branch⟩, x.diff.shard⟩).isSome = true
  · simp [DiffMap.get] at hconf
    simp [DiffMap.get, hconf] at h
  · cases hbr : mget d.branches x.diff.commit.repo with
    | none => simp [hconf, hbr] at h
    | some heads =>
      cases hdag : mget d.dags x.diff.commit.repo with
      | none => simp [hconf, hbr, hdag] at h
      | some g =>
        simp [hconf, hbr, hdag] at h
        subst h
        constructor
        · simp [canonicalCommit, mget_mset]
        · intro e
          apply hconf
          rw [hget]
          have : (⟨⟨x.diff.commit.repo, x.branch⟩, x.diff.shard⟩ : Diff) = x.diff := by
            rw [← e]
          simp [this]

/-- The first shard of a successful `StartCommit` holds the diff built for it. -/
theorem StartCommit_first_shard (d d' : Driver) (repo id parentID branch : String)
    (started : Option Nat) (shard : Nat) (rest : List Nat)
    (h : StartCommit d repo id parentID branch started (shard :: rest) = (d', Status.ok)) :
    ∃ x d1, startCommitDiff d repo id parentID branch started shard = Res.ok x ∧
      insertDiffInfo d x = (d1, Status.ok) ∧
      StartCommit d1 repo id parentID branch started rest = (d', Status.ok) ∧
      d'.diffs.get ⟨⟨repo, id⟩, shard⟩ = some x := by
  unfold StartCommit at h
  rcases hs : startCommitShard d repo id parentID branch started shard with ⟨d1, st⟩
  rw [hs] at h
  cases st with
  | ok =>
    simp only at h
    unfold startCommitShard at hs
    cases hx : startCommitDiff d repo id parentID branch started shard with
    | ok x =>
      rw [hx] at hs
      simp only at hs
      refine ⟨x, d1, rfl, hs, h, ?_⟩
      have hins := insertDiffInfo_ok d d1 x hs
      have hget : d1.diffs.get x.diff = some x := by
        rw [DiffMap.get_insert d.diffs d1.diffs x hins]
        simp
      have hd := (startCommitDiff_ok d repo id parentID branch started shard x hx).1
      have hdiff : x.diff = ⟨⟨repo, id⟩, shard⟩ := by
        rw [hd]
      rw [hdiff] at hget
      have := StartCommit_preserves repo id parentID branch started rest d1 _ x hget
      rw [h] at this
      exact this
    | error e => rw [hx] at hs; cases hs
    | panic => rw [hx] at hs; cases hs
    | timeout => rw [hx] at hs; cases hs
  | error e => cases h
  | panic => cases h
  | timeout => cases h

/-- `canonicalCommit` only looks at the branch heads. -/
theorem canonicalCommit_congr (d d1 : Driver) (c : Commit) (h : d1.branches = d.branches) :
    canonicalCommit d1 c = canonicalCommit d c := by
  simp [canonicalCommit, h]

/-- `StartCommit` on one shard and no branch: the diff stored, and what else
changes. -/
theorem StartCommit_one_shard (d d1 : Driver) (repo id parentID : String) (started : Option Nat)
    (shard : Nat) (h : StartCommit d repo id parentID "" started [shard] = (d1, Status.ok)) :
    d1.branches = d.branches ∧ d.diffs.get ⟨⟨repo, id⟩, shard⟩ = none ∧
      (∀ k, d1.diffs.get k =
        if k = ⟨⟨repo, id⟩, shard⟩ then some (startedDiff repo id parentID started shard)
        else d.diffs.get k) := by
  obtain ⟨x, d2, hx, hins, hrest, -⟩ :=
    StartCommit_first_shard d d1 repo id parentID "" started shard [] h
  simp only [StartCommit, Prod.mk.injEq, and_true] at hrest
  subst hrest
  obtain ⟨hshape, hp1, hp2, -⟩ := startCommitDiff_ok d repo id parentID "" started shard x hx
  have hxeq : x = startedDiff repo id parentID started shard := by
    rw [hshape]
    unfold startedDiff
    by_cases hp : parentID = ""
    · simp [hp, hp2 hp rfl]
    · simp [hp, hp1 hp]
  have hio := insertDiffInfo_ok d d2 x hins
  have hb := insertDiffInfo_branches d x (by rw [hshape])
  rw [hins] at hb
  refine ⟨hb, ?_, ?_⟩
  · have := DiffMap.insert_fresh d.diffs d2.diffs x hio
    rw [hshape] at this
    exact this
  · intro k
    rw [DiffMap.get_insert d.diffs d2.diffs x hio k]
    have hdiff : x.diff = ⟨⟨repo, id⟩, shard⟩ := by rw [hshape]
    rw [hdiff]
    by_cases hk : k = ⟨⟨repo, id⟩, shard⟩
    · simp only [hk, if_true]
      rw [← hxeq]
    · simp only [hk, if_false]

/-- `FinishCommit` of a canonical commit on one shard sets `Finished` of its
diff and changes nothing else. -/
theorem FinishCommit_one_shard (store : List DiffInfo → Option DriverError) (d d1 : Driver)
    (c : Commit) (finished : Option Nat) (shard : Nat)
    (hc : canonicalCommit d c = Res.ok c)
    (h : FinishCommit store d c finished [shard] = (d1, Status.ok)) :
    ∃ di, d.diffs.get ⟨c, shard⟩ = some di ∧ d1.branches = d.branches ∧
      ∀ k, d1.diffs.get k =
        if k = ⟨c, shard⟩ then some { di with finished := finished } else d.diffs.get k := by
  unfold FinishCommit at h
  simp only [hc, finishShards] at h
  cases hg : d.diffs.get ⟨c, shard⟩ with
  | none => simp [hg] at h
  | some di =>
    simp only [hg] at h
    refine ⟨di, rfl, ?_, ?_⟩
    · split at h <;> simp only [Prod.mk.injEq] at h
      · rw [← h.1]
      · exact absurd h.2 (by simp)
    · intro k
      have hd : d1.diffs = d.diffs.store ⟨c, shard⟩ { di with finished := finished } := by
        split at h <;> simp only [Prod.mk.injEq] at h
        · rw [← h.1]
        · exact absurd h.2 (by simp)
      rw [hd]
      exact DiffMap.get_store d.diffs _ k _ di hg

/-! ## `PutFile` -/

/-- Outside the directories of the path `addDirs` changes nothing. -/
theorem addDirs_other (fuel : Nat) (appends appends1 : List (String × Append))
    (childPath dirPath k : String) (h : addDirs appends fuel childPath dirPath = some appends1)
    (hk : k ∉ dirChain fuel dirPath) : mget appends1 k = mget appends k := by
  induction fuel generalizing appends childPath dirPath with
  | zero => simp [addDirs] at h
  | succ n ih =>
    unfold addDirs at h
    simp only at h
    unfold dirChain at hk
    simp only [List.mem_cons, not_or] at hk
    have hne : dirPath ≠ k := fun e => hk.1 e.symm
    split at h
    · simp only [Option.some.injEq] at h
      rw [← h, mget_mset_ne _ _ _ _ hne]
    · rename_i hdot
      rw [if_neg hdot] at hk
      rw [ih _ _ _ h hk.2, mget_mset_ne _ _ _ _ hne]

/-- The loop of `lastRef` returns a commit or nil, never an error. -/
theorem lastRef_ne_error (d : Driver) (path : String) (shard : Nat) (fuel : Nat)
    (commit : Option Commit) (e : DriverError) : lastRef d path shard fuel commit ≠ Res.error e := by
  induction fuel generalizing commit with
  | zero =>
    cases commit <;> simp [lastRef]
  | succ n ih =>
    cases commit with
    | none => simp [lastRef]
    | some c =>
      unfold lastRef
      split
      · simp
      · split
        · simp
        · exact ih _

theorem putFileAppend_ne_error (d1 : Driver) (di : DiffInfo) (appends1 : List (String × Append))
    (file : File) (shard fuel : Nat) (e : DriverError) :
    putFileAppend d1 di appends1 file shard fuel ≠ Res.error e := by
  unfold putFileAppend
  split
  · simp
  · split
    · simp
    · split
      · simp
      · rename_i e' he
        exact absurd he (lastRef_ne_error _ _ _ _ _ _)
      · simp
      · simp

/-- What a call of `PutFile` with uploaded blocks does to the state: nothing,
or `addDirs` only (when `lastRef` fails), or `addDirs` and the new blocks. -/
theorem PutFile_state (d : Driver) (file : File) (shard : Nat) (blockRefs : List BlockRef)
    (fuel : Nat) :
    ((PutFile d file shard (Except.ok blockRefs) fuel).1 = d ∧
        (PutFile d file shard (Except.ok blockRefs) fuel).2 ≠ Status.ok) ∨
      ∃ c di appends appends1,
        canonicalCommit d file.commit = Res.ok c ∧ d.diffs.get ⟨c, shard⟩ = some di ∧
        di.finished = none ∧ di.appends = some appends ∧
        addDirs appends fuel file.path (Dir file.path) = some appends1 ∧
        (((PutFile d file shard (Except.ok blockRefs) fuel).1
              = ⟨d.diffs.store ⟨c, shard⟩ { di with appends := some appends1 }, d.dags, d.branches⟩ ∧
            (PutFile d file shard (Except.ok blockRefs) fuel).2 = Status.panic) ∨
          ∃ a, putFileAppend
                ⟨d.diffs.store ⟨c, shard⟩ { di with appends := some appends1 }, d.dags, d.branches⟩
                di appends1 file shard fuel = Res.ok a ∧
            PutFile d file shard (Except.ok blockRefs) fuel =
              (⟨d.diffs.store ⟨c, shard⟩
                { di with
                  appends := some (mset appends1 (Clean file.path)
                    { a with blockRefs := a.blockRefs ++ blockRefs })
                  sizeBytes := addSizes di.sizeBytes blockRefs }, d.dags, d.branches⟩,
                Status.ok)) := by
  unfold PutFile
  simp only
  cases hc : canonicalCommit d file.commit with
  | error e => exact Or.inl ⟨rfl, by simp⟩
  | panic => exact Or.inl ⟨rfl, by simp⟩
  | timeout => exact Or.inl ⟨rfl, by simp⟩
  | ok c =>
    simp only
    cases hg : d.diffs.get ⟨c, shard⟩ with
    | none => exact Or.inl ⟨rfl, by simp⟩
    | some di =>
      simp only
      by_cases hf : di.finished = none
      · rw [if_neg (not_not.mpr hf)]
        cases ha : di.appends with
        | none => exact Or.inl ⟨rfl, by simp⟩
        | some appends =>
          simp only
          cases had : addDirs appends fuel file.path (Dir file.path) with
          | none => exact Or.inl ⟨rfl, by simp⟩
          | some appends1 =>
            simp only
            cases hp : putFileAppend
                ⟨d.diffs.store ⟨c, shard⟩ { di with appends := some appends1 }, d.dags, d.branches⟩
                di appends1 file shard fuel with
            | ok a =>
              exact Or.inr ⟨c, di, appends, appends1, rfl, hg, hf, ha, had, Or.inr ⟨a, hp, rfl⟩⟩
            | error e => exact absurd hp (putFileAppend_ne_error _ _ _ _ _ _ e)
            | panic =>
              exact Or.inr ⟨c, di, appends, appends1, rfl, hg, hf, ha, had, Or.inl ⟨rfl, rfl⟩⟩
            | timeout => exact Or.inl ⟨rfl, by simp⟩
      · rw [if_pos hf]
        exact Or.inl ⟨rfl, by simp⟩

theorem markModified_fileType (fi : FileInfo) (c : Commit) (t : Option Nat) :
    (markModified fi c t).fileType = fi.fileType := by
  unfold markModified
  split <;> rfl

theorem inspectFileLoop_none (flt : ShardFilter) (d : Driver) (file : File) (shard : Nat)
    (frm : Option Commit) (fuel : Nat) (fi : FileInfo) (brs : List BlockRef) (seen : List String) :
    inspectFileLoop flt d file shard frm fuel none fi brs seen = Res.ok (fi, brs) := by
  cases fuel <;> simp [inspectFileLoop]

/-- The loop of `inspectFile` without from-commit, started at the newest commit
of a chain or at the newest one with an `Append`, gathers what `chainRead` says. -/
theorem inspectFileLoop_chain (flt : ShardFilter) (d : Driver) (repo : String) (shard : Nat)
    (file : File) (l : List ChainCommit) (hok : ChainOK d repo (Clean file.path) shard l) :
    ∀ fuel fi brs seen, l.length ≤ fuel → fi.fileType ≠ FileType.dir →
      inspectFileLoop flt d file shard none fuel (headOf repo l) fi brs seen
          = chainRead flt repo file l fi brs ∧
        inspectFileLoop flt d file shard none fuel (lastRefOf repo l) fi brs seen
          = chainRead flt repo file l fi brs := by
  induction l with
  | nil =>
    intro fuel fi brs seen _ _
    simp [headOf, lastRefOf, inspectFileLoop_none, chainRead]
  | cons c older ih =>
    obtain ⟨⟨di, hg, hfin, hpar, happ⟩, hold⟩ := hok
    have IH := ih hold
    intro fuel fi brs seen hfuel hdir
    have hfirst : inspectFileLoop flt d file shard none fuel (some ⟨repo, c.id⟩) fi brs seen
        = chainRead flt repo file (c :: older) fi brs := by
      cases fuel with
      | zero => simp at hfuel
      | succ f =>
        have hf : older.length ≤ f := by
          simp only [List.length_cons] at hfuel
          omega
        have hfne : ¬ di.finished = none := by rw [hfin]; simp
        unfold inspectFileLoop
        simp only [atFrom, Bool.false_eq_true, if_false, hg, hfne]
        by_cases hp : c.puts = []
        · rw [if_pos hp] at happ
          simp only [happ, hpar]
          rw [(IH f fi brs seen hf hdir).1]
          simp [chainRead, hp]
        · rw [if_neg hp] at happ
          simp only [happ]
          by_cases hb : c.puts.flatten = []
          · simp only [hb, List.length_nil, Nat.lt_irrefl, if_false]
            rw [(IH f _ brs seen hf (by rw [markModified_fileType]; exact hdir)).2]
            simp [chainRead, hp, hb, hfin]
          · have hpos : 0 < c.puts.flatten.length := List.length_pos.mpr hb
            simp only [hpos, if_true, hdir, if_false]
            by_cases hshard : fi.fileType = FileType.none ∧ flt.fileInShard file = false
            · simp [chainRead, hp, hb, hshard]
            · rw [if_neg hshard]
              rw [(IH f _ _ seen hf (by rw [markModified_fileType]; simp)).2]
              simp [chainRead, hp, hb, hshard, hfin]
    constructor
    · exact hfirst
    · by_cases hp : c.puts = []
      · simp only [lastRefOf, hp, if_true]
        rw [(IH fuel fi brs seen (by simp only [List.length_cons] at hfuel; omega) hdir).2]
        simp [chainRead, hp]
      · simp only [lastRefOf, hp, if_false]
        exact hfirst

theorem chainBlocks_reverse_cons (c : ChainCommit) (older : List ChainCommit) :
    chainBlocks (c :: older).reverse = chainBlocks older.reverse ++ c.puts.flatten := by
  simp [chainBlocks]

theorem filterBlockRefs_append (flt : ShardFilter) (a b : List BlockRef) :
    filterBlockRefs flt (a ++ b) = filterBlockRefs flt a ++ filterBlockRefs flt b := by
  simp [filterBlockRefs]

/-- What `chainRead` returns: the blocks of the chain, oldest commit first, in
front of those gathered before; no file if the chain holds no block or the
file is not in the filter shard. -/
theorem chainRead_blocks (flt : ShardFilter) (repo : String) (file : File)
    (l : List ChainCommit) :
    ∀ fi brs, fi.fileType ≠ FileType.dir →
      (chainBlocks l.reverse = [] →
        ∃ fi1, chainRead flt repo file l fi brs = Res.ok (fi1, brs) ∧ fi1.fileType = fi.fileType) ∧
      (chainBlocks l.reverse ≠ [] →
        (fi.fileType = FileType.none ∧ flt.fileInShard file = false →
          chainRead flt repo file l fi brs = Res.error DriverError.fileNotFound) ∧
        (¬ (fi.fileType = FileType.none ∧ flt.fileInShard file = false) →
          ∃ fi1, chainRead flt repo file l fi brs
              = Res.ok (fi1, filterBlockRefs flt (chainBlocks l.reverse) ++ brs) ∧
            fi1.fileType = FileType.regular)) := by
  induction l with
  | nil =>
    intro fi brs _
    constructor
    · intro _
      exact ⟨fi, rfl, rfl⟩
    · intro h
      exact absurd rfl h
  | cons c older ih =>
    intro fi brs hdir
    rw [chainBlocks_reverse_cons]
    by_cases hp : c.puts = []
    · have hflat : c.puts.flatten = [] := by rw [hp]; rfl
      have hread : chainRead flt repo file (c :: older) fi brs
          = chainRead flt repo file older fi brs := by
        simp [chainRead, hp]
      rw [hflat, List.append_nil, hread]
      exact ih fi brs hdir
    · by_cases hb : c.puts.flatten = []
      · have hread : chainRead flt repo file (c :: older) fi brs
            = chainRead flt repo file older (markModified fi ⟨repo, c.id⟩ (some c.finished)) brs := by
          simp [chainRead, hp, hb]
        rw [hb, List.append_nil, hread]
        have := ih (markModified fi ⟨repo, c.id⟩ (some c.finished)) brs
          (by rw [markModified_fileType]; exact hdir)
        rw [markModified_fileType] at this
        exact this
      · constructor
        · intro hnil
          exact absurd (List.append_eq_nil.mp hnil).2 hb
        · intro _
          constructor
          · intro hshard
            simp [chainRead, hp, hb, hshard]
          · intro hshard
            have hread : chainRead flt repo file (c :: older) fi brs
                = chainRead flt repo file older
                    (markModified
                      { fi with
                        fileType := FileType.regular
                        sizeBytes := addSizes fi.sizeBytes (filterBlockRefs flt c.puts.flatten) }
                      ⟨repo, c.id⟩ (some c.finished))
                    (filterBlockRefs flt c.puts.flatten ++ brs) := by
              simp [chainRead, hp, hb, hshard]
            rw [hread]
            have hreg : (markModified
                { fi with
                  fileType := FileType.regular
                  sizeBytes := addSizes fi.sizeBytes (filterBlockRefs flt c.puts.flatten) }
                ⟨repo, c.id⟩ (some c.finished)).fileType = FileType.regular := by
              rw [markModified_fileType]
            obtain ⟨h1, h2⟩ := ih _ (filterBlockRefs flt c.puts.flatten ++ brs)
              (by rw [hreg]; simp)
            by_cases hold : chainBlocks older.reverse = []
            · obtain ⟨fi1, hr, ht⟩ := h1 hold
              refine ⟨fi1, ?_, by rw [ht, hreg]⟩
              rw [hr, hold]
              simp
            · obtain ⟨fi1, hr, ht⟩ := (h2 hold).2 (by rw [hreg]; simp)
              refine ⟨fi1, ?_, ht⟩
              rw [hr, filterBlockRefs_append, List.append_assoc]

/-- The chain property only looks at the diffs of the commits of the chain. -/
theorem ChainOK_congr (d d1 : Driver) (repo key : String) (shard : Nat) (l : List ChainCommit)
    (h : ∀ x ∈ l, d1.diffs.get ⟨⟨repo, x.id⟩, shard⟩ = d.diffs.get ⟨⟨repo, x.id⟩, shard⟩)
    (hok : ChainOK d repo key shard l) : ChainOK d1 repo key shard l := by
  induction l with
  | nil => trivial
  | cons c older ih =>
    obtain ⟨⟨di, hg, hrest⟩, hold⟩ := hok
    refine ⟨⟨di, ?_, hrest⟩, ih (fun x hx => h x (List.mem_cons_of_mem _ hx)) hold⟩
    rw [h c (List.mem_cons_self _ _)]
    exact hg

theorem ChainOK_get (d : Driver) (repo key : String) (shard : Nat) (l : List ChainCommit)
    (hok : ChainOK d repo key shard l) (x : ChainCommit) (hx : x ∈ l) :
    ∃ di, d.diffs.get ⟨⟨repo, x.id⟩, shard⟩ = some di := by
  induction l with
  | nil => simp at hx
  | cons c older ih =>
    obtain ⟨⟨di, hg, -⟩, hold⟩ := hok
    rcases List.mem_cons.mp hx with rfl | hmem
    · exact ⟨di, hg⟩
    · exact ih hold hmem

/-- On a chain `lastRef` finds the newest commit that received a `PutFile`. -/
theorem lastRef_chain (d : Driver) (repo path : String) (shard : Nat) (l : List ChainCommit)
    (hok : ChainOK d repo (Clean path) shard l) (fuel : Nat) (ref : Option Commit)
    (h : lastRef d path shard fuel (headOf repo l) = Res.ok ref) : ref = lastRefOf repo l := by
  induction l generalizing fuel with
  | nil =>
    cases fuel <;> simp [headOf, lastRef] at h <;> simp [lastRefOf, h]
  | cons c older ih =>
    obtain ⟨⟨di, hg, -, hpar, happ⟩, hold⟩ := hok
    cases fuel with
    | zero => simp [headOf, lastRef] at h
    | succ f =>
      simp only [headOf, lastRef, hg] at h
      by_cases hp : c.puts = []
      · rw [if_pos hp] at happ
        simp only [happ, Option.isSome_none, Bool.false_eq_true, if_false, hpar] at h
        simp only [lastRefOf, hp, if_true]
        exact ih hold f h
      · rw [if_neg hp] at happ
        simp only [happ, Option.isSome_some, if_true, Res.ok.injEq] at h
        simp [lastRefOf, hp, ← h]

theorem headOf_none (repo : String) (l : List ChainCommit) (h : headOf repo l = none) :
    lastRefOf repo l = none := by
  cases l with
  | nil => rfl
  | cons c older => simp [headOf] at h

/-- One `PutFile` into the open commit at the end of a chain. -/
theorem PutFile_open_step (d d1 : Driver) (repo path : String) (shard fuel : Nat) (id : String)
    (l : List ChainCommit) (ps : List (List BlockRef)) (brs : List BlockRef)
    (hcan : canonicalCommit d ⟨repo, id⟩ = Res.ok ⟨repo, id⟩)
    (hpath : Clean path ∉ dirChain fuel (Dir path))
    (hok : ChainOK d repo (Clean path) shard l) (hnew : ∀ x ∈ l, x.id ≠ id)
    (hopen : OpenOK d repo (Clean path) shard id (headOf repo l) (lastRefOf repo l) ps)
    (h : PutFile d ⟨⟨repo, id⟩, path⟩ shard (Except.ok brs) fuel = (d1, Status.ok)) :
    d1.branches = d.branches ∧ ChainOK d1 repo (Clean path) shard l ∧
      OpenOK d1 repo (Clean path) shard id (headOf repo l) (lastRefOf repo l) (ps ++ [brs]) := by
  obtain ⟨di, appends, hg, hfin, hpar, happ, hkey⟩ := hopen
  rcases PutFile_state d ⟨⟨repo, id⟩, path⟩ shard brs fuel with ⟨-, hne⟩ |
    ⟨c0, di0, appends0, appends1, hc0, hg0, -, ha0, had, hcase⟩
  · rw [h] at hne
    exact absurd rfl hne
  · simp only at hc0 hg0 had hcase
    rw [hcan] at hc0
    simp only [Res.ok.injEq] at hc0
    subst hc0
    rw [hg] at hg0
    simp only [Option.some.injEq] at hg0
    subst hg0
    rw [happ] at ha0
    simp only [Option.some.injEq] at ha0
    subst ha0
    rcases hcase with ⟨-, hpanic⟩ | ⟨a, hpa, hput⟩
    · rw [h] at hpanic
      cases hpanic
    · rw [h] at hput
      simp only [Prod.mk.injEq, and_true] at hput
      have hkey1 : mget appends1 (Clean path) = mget appends (Clean path) :=
        addDirs_other fuel appends appends1 _ _ _ had hpath
      -- the state after `addDirs`
      have hget1 : ∀ k, DiffMap.get
          (d.diffs.store ⟨⟨repo, id⟩, shard⟩ { di with appends := some appends1 }) k
          = if k = ⟨⟨repo, id⟩, shard⟩ then some { di with appends := some appends1 }
            else d.diffs.get k := fun k => DiffMap.get_store d.diffs _ k _ di hg
      have hother : ∀ x ∈ l, (⟨⟨repo, x.id⟩, shard⟩ : Diff) ≠ ⟨⟨repo, id⟩, shard⟩ := by
        intro x hx e
        simp only [Diff.mk.injEq, Commit.mk.injEq, true_and, and_true] at e
        exact hnew x hx e
      have hok1 : ChainOK
          ⟨d.diffs.store ⟨⟨repo, id⟩, shard⟩ { di with appends := some appends1 }, d.dags,
            d.branches⟩ repo (Clean path) shard l := by
        apply ChainOK_congr d _ repo (Clean path) shard l _ hok
        intro x hx
        simp only [hget1, hother x hx, if_false]
      -- the `Append` written to
      have ha : a.blockRefs = ps.flatten ∧ a.children = [] ∧ a.lastRef = lastRefOf repo l := by
        unfold putFileAppend at hpa
        simp only at hpa
        rw [hkey1, hkey] at hpa
        by_cases hps : ps = []
        · simp only [hps, if_true] at hpa
          rw [hps]
          split at hpa
          · rename_i hp
            simp only [Res.ok.injEq] at hpa
            rw [← hpa]
            rw [hp] at hpar
            exact ⟨rfl, rfl, (headOf_none repo l hpar.symm).symm⟩
          · rename_i parent hp
            rw [hp] at hpar
            have hparent : (some ⟨parent.repo, parent.id⟩ : Option Commit) = headOf repo l := by
              rw [← hpar]
            rw [hparent] at hpa
            split at hpa
            · rename_i ref hl
              simp only [Res.ok.injEq] at hpa
              rw [← hpa]
              exact ⟨rfl, rfl, lastRef_chain _ repo path shard l hok1 fuel ref hl⟩
            · cases hpa
            · cases hpa
            · cases hpa
        · simp only [hps, if_false, Res.ok.injEq] at hpa
          rw [← hpa]
          exact ⟨rfl, rfl, rfl⟩
      obtain ⟨ha1, ha2, ha3⟩ := ha
      have hget2 : ∀ k, d1.diffs.get k =
          if k = ⟨⟨repo, id⟩, shard⟩ then
            some { di with
              appends := some (mset appends1 (Clean path)
                { a with blockRefs := a.blockRefs ++ brs })
              sizeBytes := addSizes di.sizeBytes brs }
          else d.diffs.get k := by
        intro k
        rw [hput]
        exact DiffMap.get_store d.diffs _ k _ di hg
      refine ⟨by rw [hput], ?_, ?_⟩
      · apply ChainOK_congr d _ repo (Clean path) shard l _ hok
        intro x hx
        simp only [hget2, hother x hx, if_false]
      · refine ⟨{ di with
            appends := some (mset appends1 (Clean path)
              { a with blockRefs := a.blockRefs ++ brs })
            sizeBytes := addSizes di.sizeBytes brs },
          mset appends1 (Clean path) { a with blockRefs := a.blockRefs ++ brs },
          by rw [hget2]; simp only [if_true], hfin, hpar, rfl, ?_⟩
        rw [mget_mset_self]
        have hne : ps ++ [brs] ≠ [] := by simp
        rw [if_neg hne]
        simp [ha1, ha2, ha3]

/-- The `PutFile` calls into the open commit at the end of a chain. -/
theorem putAll_open (repo path : String) (shard fuel : Nat) (id : String) (l : List ChainCommit)
    (hpath : Clean path ∉ dirChain fuel (Dir path)) (hnew : ∀ x ∈ l, x.id ≠ id)
    (puts : List (List BlockRef)) :
    ∀ (d d2 : Driver) (ps : List (List BlockRef)),
      canonicalCommit d ⟨repo, id⟩ = Res.ok ⟨repo, id⟩ →
      ChainOK d repo (Clean path) shard l →
      OpenOK d repo (Clean path) shard id (headOf repo l) (lastRefOf repo l) ps →
      putAll ⟨⟨repo, id⟩, path⟩ shard fuel d puts = some d2 →
      d2.branches = d.branches ∧ ChainOK d2 repo (Clean path) shard l ∧
        OpenOK d2 repo (Clean path) shard id (headOf repo l) (lastRefOf repo l) (ps ++ puts) := by
  induction puts with
  | nil =>
    intro d d2 ps _ hok hopen h
    simp only [putAll, Option.some.injEq] at h
    subst h
    rw [List.append_nil]
    exact ⟨rfl, hok, hopen⟩
  | cons brs rest ih =>
    intro d d2 ps hbr hok hopen h
    unfold putAll at h
    rcases hput : PutFile d ⟨⟨repo, id⟩, path⟩ shard (Except.ok brs) fuel with ⟨d1, st⟩
    rw [hput] at h
    cases st with
    | ok =>
      simp only at h
      obtain ⟨hb1, hok1, hopen1⟩ :=
        PutFile_open_step d d1 repo path shard fuel id l ps brs hbr hpath hok hnew hopen hput
      obtain ⟨hb2, hok2, hopen2⟩ := ih d1 d2 (ps ++ [brs])
        (by rw [canonicalCommit_congr d d1 _ hb1]; exact hbr) hok1 hopen1 h
      refine ⟨by rw [hb2, hb1], hok2, ?_⟩
      rw [List.append_assoc] at hopen2
      exact hopen2
    | error e => simp at h
    | panic => simp at h
    | timeout => simp at h

/-- Building a chain commit by commit keeps the chain property. -/
theorem buildChain_ChainOK (store : List DiffInfo → Option DriverError) (repo path : String)
    (shard fuel : Nat)
    (hpath : Clean path ∉ dirChain fuel (Dir path)) (rest : List ChainCommit) :
    ∀ (d dn : Driver) (l : List ChainCommit),
      (∀ x ∈ rest, x.id ≠ "" ∧ canonicalCommit d ⟨repo, x.id⟩ = Res.ok ⟨repo, x.id⟩) →
      (∀ x ∈ l, x.id ≠ "") →
      ChainOK d repo (Clean path) shard l →
      buildChain store repo path shard fuel d (parentIDOf l) rest = some dn →
      ChainOK dn repo (Clean path) shard (rest.reverse ++ l) ∧ dn.branches = d.branches := by
  induction rest with
  | nil =>
    intro d dn l _ _ hok h
    simp only [buildChain, Option.some.injEq] at h
    subst h
    exact ⟨by simpa using hok, rfl⟩
  | cons c rest ih =>
    intro d dn l hnames hids hok h
    unfold buildChain at h
    rcases hs : StartCommit d repo c.id (parentIDOf l) "" c.started [shard] with ⟨d1, st⟩
    rw [hs] at h
    cases st with
    | ok =>
      simp only at h
      obtain ⟨hb1, hfresh, hget1⟩ := StartCommit_one_shard d d1 repo c.id _ c.started shard hs
      obtain ⟨hcid, hcan⟩ := hnames c (List.mem_cons_self _ _)
      have hnew : ∀ x ∈ l, x.id ≠ c.id := by
        intro x hx e
        obtain ⟨di, hdi⟩ := ChainOK_get d repo _ shard l hok x hx
        rw [e, hfresh] at hdi
        cases hdi
      have hother : ∀ x ∈ l, (⟨⟨repo, x.id⟩, shard⟩ : Diff) ≠ ⟨⟨repo, c.id⟩, shard⟩ := by
        intro x hx e
        simp only [Diff.mk.injEq, Commit.mk.injEq, true_and, and_true] at e
        exact hnew x hx e
      have hok1 : ChainOK d1 repo (Clean path) shard l := by
        apply ChainOK_congr d _ repo (Clean path) shard l _ hok
        intro x hx
        simp only [hget1, hother x hx, if_false]
      have hparent : (startedDiff repo c.id (parentIDOf l) c.started shard).parentCommit
          = headOf repo l := by
        cases l with
        | nil => simp [startedDiff, parentIDOf, headOf]
        | cons c1 older =>
          have := hids c1 (List.mem_cons_self _ _)
          simp [startedDiff, parentIDOf, headOf, this]
      have hopen1 : OpenOK d1 repo (Clean path) shard c.id (headOf repo l) (lastRefOf repo l) [] :=
        ⟨startedDiff repo c.id (parentIDOf l) c.started shard, [],
          by rw [hget1]; simp only [if_true], rfl, hparent, rfl, by simp [mget]⟩
      cases hp : putAll ⟨⟨repo, c.id⟩, path⟩ shard fuel d1 c.puts with
      | none => simp [hp] at h
      | some d2 =>
        rw [hp] at h
        simp only at h
        obtain ⟨hb2, hok2, di, appends, hg2, hfin2, hpar2, happ2, hkey2⟩ :=
          putAll_open repo path shard fuel c.id l hpath hnew c.puts d1 d2 []
            (by rw [canonicalCommit_congr d d1 _ hb1]; exact hcan) hok1 hopen1 hp
        rw [List.nil_append] at hkey2
        rcases hf : FinishCommit store d2 ⟨repo, c.id⟩ (some c.finished) [shard] with ⟨d3, st3⟩
        rw [hf] at h
        cases st3 with
        | ok =>
          simp only at h
          have hb21 : d2.branches = d.branches := by rw [hb2, hb1]
          have hcan2 : canonicalCommit d2 ⟨repo, c.id⟩ = Res.ok ⟨repo, c.id⟩ := by
            rw [canonicalCommit_congr d d2 _ hb21]
            exact hcan
          obtain ⟨di3, hg3, hb3, hget3⟩ :=
            FinishCommit_one_shard store d2 d3 ⟨repo, c.id⟩ (some c.finished) shard hcan2 hf
          rw [hg2] at hg3
          simp only [Option.some.injEq] at hg3
          subst hg3
          have hok3 : ChainOK d3 repo (Clean path) shard (c :: l) := by
            refine ⟨⟨{ di with finished := some c.finished }, ?_, rfl, hpar2, ?_⟩, ?_⟩
            · rw [hget3]
              simp only [if_true]
            · simp only [happ2, Option.getD_some]
              exact hkey2
            · apply ChainOK_congr d2 _ repo (Clean path) shard l _ hok2
              intro x hx
              simp only [hget3, hother x hx, if_false]
          have hids3 : ∀ x ∈ c :: l, x.id ≠ "" := by
            intro x hx
            rcases List.mem_cons.mp hx with rfl | hmem
            · exact hcid
            · exact hids x hmem
          have hb31 : d3.branches = d.branches := by rw [hb3, hb21]
          obtain ⟨hfinal, hbn⟩ := ih d3 dn (c :: l)
            (fun x hx => by
              rw [canonicalCommit_congr d d3 _ hb31]
              exact hnames x (List.mem_cons_of_mem _ hx)) hids3 hok3 h
          refine ⟨?_, by rw [hbn, hb31]⟩
          simpa using hfinal
        | error e => simp at h
        | panic => simp at h
        | timeout => simp at h
    | error e => simp at h
    | panic => simp at h
    | timeout => simp at h

/-- C1, amended: a chain `c1 <- ... <- cn` is built on one shard, each commit
started on no branch with the commit before it as parent, given its `PutFile`
calls for `path` and finished before the next one is started; the IDs are not
empty and are not branch names, and the cleaned path is not one of the
directories `addDirs` enters for the path. Then `inspectFile` at `cn` without
from-commit, with fuel above the number of older commits, returns exactly the
block refs `B1 ++ ... ++ Bn` (those of them in the filter shard), oldest commit
first, for a regular file, and `GetFile` hands these block refs to its reader;
when no block was appended, or the file is not in the filter shard, the
result is `ErrFileNotFound`. -/
theorem inspectFile_reads_chain (flt : ShardFilter) (store : List DiffInfo → Option DriverError)
    (d0 dn : Driver) (repo path : String) (shard fuelPut fuel : Nat) (cs : List ChainCommit)
    (c : ChainCommit)
    (hids : ∀ x ∈ cs ++ [c],
      x.id ≠ "" ∧ canonicalCommit d0 ⟨repo, x.id⟩ = Res.ok ⟨repo, x.id⟩)
    (hpath : Clean path ∉ dirChain fuelPut (Dir path))
    (hbuild : buildChain store repo path shard fuelPut d0 "" (cs ++ [c]) = some dn)
    (hfuel : cs.length < fuel) :
    (chainBlocks (cs ++ [c]) = [] ∨ flt.fileInShard ⟨⟨repo, c.id⟩, path⟩ = false →
      inspectFile flt dn ⟨⟨repo, c.id⟩, path⟩ shard none fuel
        = Res.error DriverError.fileNotFound) ∧
    (chainBlocks (cs ++ [c]) ≠ [] → flt.fileInShard ⟨⟨repo, c.id⟩, path⟩ = true →
      (∃ fileInfo, inspectFile flt dn ⟨⟨repo, c.id⟩, path⟩ shard none fuel
          = Res.ok (fileInfo, filterBlockRefs flt (chainBlocks (cs ++ [c]))) ∧
        fileInfo.fileType = FileType.regular) ∧
      ∀ offset size, GetFile none flt dn ⟨⟨repo, c.id⟩, path⟩ offset size none shard fuel
        = Res.ok (filterBlockRefs flt (chainBlocks (cs ++ [c])), offset, size)) := by
  obtain ⟨hok, hbn⟩ := buildChain_ChainOK store repo path shard fuelPut hpath (cs ++ [c]) d0 dn []
    hids (by simp) trivial hbuild
  rw [List.append_nil] at hok
  have hrev : (cs ++ [c]).reverse = c :: cs.reverse := by simp
  rw [hrev] at hok
  have hcan : canonicalCommit dn ⟨repo, c.id⟩ = Res.ok ⟨repo, c.id⟩ := by
    rw [canonicalCommit_congr d0 dn _ hbn]
    exact (hids c (by simp)).2
  have hloop := (inspectFileLoop_chain flt dn repo shard ⟨⟨repo, c.id⟩, path⟩ (c :: cs.reverse) hok
    fuel { file := ⟨⟨repo, c.id⟩, path⟩ } [] [] (by simp; omega) (by simp)).1
  simp only [headOf] at hloop
  have hread := chainRead_blocks flt repo ⟨⟨repo, c.id⟩, path⟩ (c :: cs.reverse)
    { file := ⟨⟨repo, c.id⟩, path⟩ } [] (by simp)
  rw [← hrev, List.reverse_reverse] at hread
  obtain ⟨hempty, hfull⟩ := hread
  have hloop1 : inspectFileLoop flt dn ⟨⟨repo, c.id⟩, path⟩ shard none fuel
      (some ⟨repo, c.id⟩) { file := ⟨⟨repo, c.id⟩, path⟩ } [] []
      = chainRead flt repo ⟨⟨repo, c.id⟩, path⟩ (cs ++ [c]).reverse
          { file := ⟨⟨repo, c.id⟩, path⟩ } [] := by
    rw [hloop, hrev]
  constructor
  · intro hcase
    by_cases hb : chainBlocks (cs ++ [c]) = []
    · obtain ⟨fi1, hr, ht⟩ := hempty hb
      unfold inspectFile
      simp only [hcan]
      rw [hloop1, hr]
      simp [ht]
    · rcases hcase with hb1 | hshard
      · exact absurd hb1 hb
      · have hr := (hfull hb).1 ⟨rfl, hshard⟩
        unfold inspectFile
        simp only [hcan]
        rw [hloop1, hr]
  · intro hb hshard
    obtain ⟨fi1, hr, ht⟩ := (hfull hb).2 (by simp [hshard])
    rw [List.append_nil] at hr
    have hi : inspectFile flt dn ⟨⟨repo, c.id⟩, path⟩ shard none fuel
        = Res.ok (fi1, filterBlockRefs flt (chainBlocks (cs ++ [c]))) := by
      unfold inspectFile
      simp only [hcan]
      rw [hloop1, hr]
      simp [ht]
    refine ⟨⟨fi1, hi, ht⟩, ?_⟩
    intro offset size
    unfold GetFile
    rw [hi]
    simp [ht]

/-- Witness for C1: `c1` appended block `A` to `foo`, `c2` appended block `B`;
`inspectFile` at `c2` returns `A, B`. -/
theorem inspectFile_reads_chain_witness :
    ∃ fileInfo, inspectFile noFilter (twoChain "foo") ⟨⟨"r", "c2"⟩, "foo"⟩ 0 none 8
        = Res.ok (fileInfo, [blockA, blockB]) ∧
      fileInfo.fileType = FileType.regular :=
  ((inspectFile_reads_chain noFilter storeOk repoState (twoChain "foo") "r" "foo" 0 8 8
      [{ id := "c1", started := some 2, puts := [[blockA]], finished := 3 }]
      { id := "c2", started := some 4, puts := [[blockB]], finished := 5 }
      (by decide) (by decide) (by decide) (by decide)).2 (by decide) (by decide)).1

/-- C1 as stated fails for a path that is its own directory: with the path
`a/`, commit `c1` appended block `A` and its child `c2` appended block `B`,
both are finished, and `inspectFile` at `c2` returns only `B`. In `PutFile`
the call of `addDirs` has created the `Append` of `a` (the directory of `a/`)
before the lookup of `path.Clean("a/") = a`, so no `LastRef` to `c1` is set. -/
theorem inspectFile_path_own_directory :
    buildChain storeOk "r" "a/" 0 8 repoState "" twoCommits = some (twoChain "a/") ∧
      chainBlocks twoCommits = [blockA, blockB] ∧
      inspectFile noFilter (twoChain "a/") ⟨⟨"r", "c2"⟩, "a/"⟩ 0 none 8 =
        Res.ok
          ({ file := ⟨⟨"r", "c2"⟩, "a/"⟩, fileType := FileType.regular, sizeBytes := 4,
             commitModified := some ⟨"r", "c2"⟩, modified := some 5 },
            [blockB]) ∧
      ((twoChain "a/").diffs.get ⟨⟨"r", "c2"⟩, 0⟩).map (fun di => (di.parentCommit, di.finished))
        = some (some ⟨"r", "c1"⟩, some 5) ∧
      ((twoChain "a/").diffs.get ⟨⟨"r", "c1"⟩, 0⟩).map
          (fun di => (di.finished, (mget (di.appends.getD []) "a").map (fun a => a.blockRefs)))
        = some (some 3, some [blockA]) := by
  decide

/-! ## C2: bytes written by `PutBlock` -/

/-- C2, the code at two failing inputs: for every hash function and every
block size above four bytes, `PutBlock` of the three bytes `foo` (no final
newline) stores one block with the four bytes `foo\n`, and `PutBlock` of the
five bytes `a\r\nb\n` stores one block with the four bytes `a\nb\n`; in both
cases the stored data differs from the input, while the range of the block ref
is `0` to the length of the stored data. -/
theorem PutBlock_rewrites_line_ends (hash : List Char → String) (blockSize : Nat) :
    PutBlock hash (blockSize + 5) ['f', 'o', 'o'] 2 =
        Res.ok [(⟨hash ['f', 'o', 'o', '\n'], ⟨0, 4⟩⟩, ['f', 'o', 'o', '\n'])] ∧
      blocksData [(⟨hash ['f', 'o', 'o', '\n'], ⟨0, 4⟩⟩, ['f', 'o', 'o', '\n'])]
        ≠ ['f', 'o', 'o'] ∧
      PutBlock hash (blockSize + 5) ['a', '\r', '\n', 'b', '\n'] 3 =
        Res.ok [(⟨hash ['a', '\n', 'b', '\n'], ⟨0, 4⟩⟩, ['a', '\n', 'b', '\n'])] ∧
      blocksData [(⟨hash ['a', '\n', 'b', '\n'], ⟨0, 4⟩⟩, ['a', '\n', 'b', '\n'])]
        ≠ ['a', '\r', '\n', 'b', '\n'] := by
  have scan1 : ({ rest := ['f', 'o', 'o'] } : Scanner).Scan
      = (some ['f', 'o', 'o'], { rest := [] }) := by
    decide
  have scan2 : ({ rest := [] } : Scanner).Scan = (none, { rest := [] }) := by
    decide
  have scan3 : ({ rest := ['a', '\r', '\n', 'b', '\n'] } : Scanner).Scan
      = (some ['a'], { rest := ['b', '\n'] }) := by
    decide
  have scan4 : ({ rest := ['b', '\n'] } : Scanner).Scan = (some ['b'], { rest := [] }) := by
    decide
  have h1 : ¬ (blockSize + 5 < 4) := by omega
  have h2 : ¬ (blockSize + 5 < 2) := by omega
  have h4 : subU64 4 0 = 4 := by decide
  have h5 : (4 : Nat) % uint64Size = 4 := by decide
  refine ⟨?_, by simp [blocksData], ?_, by simp [blocksData]⟩
  · simp only [PutBlock, putBlockLoop, scanBlock, scanBlockLoop, scan1, scan2]
    simp [h1, h4, h5]
  · simp only [PutBlock, putBlockLoop, scanBlock, scanBlockLoop, scan3, scan4, scan2]
    simp [h1, h2, h4, h5]

/-! ## C3: `FinishCommit` on a finished commit -/

/-- C3, the code at the failing input: commit `c1` of repo `r` is finished
with `Finished = 3`; a second `FinishCommit` with the timestamp `9` returns no
error and the stored `Finished` becomes `9`. -/
theorem FinishCommit_refinishes :
    (finishedOnce.diffs.get ⟨⟨"r", "c1"⟩, 0⟩).map (fun di => di.finished) = some (some 3) ∧
      (FinishCommit storeOk finishedOnce ⟨"r", "c1"⟩ (some 9) [0]).2 = Status.ok ∧
      ((FinishCommit storeOk finishedOnce ⟨"r", "c1"⟩ (some 9) [0]).1.diffs.get
          ⟨⟨"r", "c1"⟩, 0⟩).map (fun di => di.finished) = some (some 9) := by
  decide

/-! ## C4: `PutFile` into a finished or missing commit -/

/-- C4: when the commit of the file (an ID, or a branch name resolved by
`canonicalCommit`) resolves to `c`, then `PutFile` returns an error and the
driver state it leaves is the state it was given, diff for diff: the error
"commit has already been finished" when the diff of `c` on the shard has
`Finished` set, and "commit not found" when `c` has no diff on the shard
(the error of the block upload, when that failed first). -/
theorem PutFile_rejects_finished (d : Driver) (file : File) (shard : Nat)
    (blocks : Except DriverError (List BlockRef)) (fuel : Nat) (c : Commit)
    (hc : canonicalCommit d file.commit = Res.ok c) :
    (∀ di, d.diffs.get ⟨c, shard⟩ = some di → di.finished ≠ none →
      PutFile d file shard blocks fuel =
        (d, Status.error (match blocks with
          | Except.error e => e
          | Except.ok _ => DriverError.commitFinished c.repo c.id))) ∧
    (d.diffs.get ⟨c, shard⟩ = none →
      PutFile d file shard blocks fuel =
        (d, Status.error (match blocks with
          | Except.error e => e
          | Except.ok _ => DriverError.commitNotFound c.repo c.id))) := by
  constructor
  · intro di hg hf
    cases blocks with
    | error e => simp [PutFile]
    | ok brs => simp [PutFile, hc, hg, hf]
  · intro hg
    cases blocks with
    | error e => simp [PutFile]
    | ok brs => simp [PutFile, hc, hg]

/-- Witness for C4: a `PutFile` into the finished commit `c1`. -/
theorem PutFile_rejects_finished_witness :
    PutFile finishedOnce ⟨⟨"r", "c1"⟩, "foo"⟩ 0 (Except.ok [blockA]) 8 =
      (finishedOnce, Status.error (DriverError.commitFinished "r" "c1")) :=
  (PutFile_rejects_finished finishedOnce ⟨⟨"r", "c1"⟩, "foo"⟩ 0 (Except.ok [blockA]) 8 ⟨"r", "c1"⟩
    (by decide)).1
    { diff := ⟨⟨"r", "c1"⟩, 0⟩, started := some 2, finished := some 3, appends := some [] }
    (by decide) (by decide)

/-! ## C5: the parent of a new commit -/

/-- C5, amended: `StartCommit` with an explicit `parentID` for a branch that has
a head (other than the new commit) is rejected with "branch already exists" and
changes nothing. When the call returns no error, the diff stored for the first
shard visited has `ParentCommit` equal to `repo/parentID` if a `parentID` was
given; equal to the head of the branch if none was given and the branch has a
head; and nil if no `parentID` was given and no branch was named or the branch
has no head. -/
theorem StartCommit_parent_resolution (d : Driver) (repo id parentID branch : String)
    (started : Option Nat) (shard : Nat) (rest : List Nat) :
    (∀ head, parentID ≠ "" → branch ≠ "" → canonicalCommit d ⟨repo, branch⟩ = Res.ok head →
      head.id ≠ branch → head.id ≠ id →
      StartCommit d repo id parentID branch started (shard :: rest) =
        (d, Status.error (DriverError.branchExists branch head.id parentID))) ∧
    (∀ d', StartCommit d repo id parentID branch started (shard :: rest) = (d', Status.ok) →
      ∃ di, d'.diffs.get ⟨⟨repo, id⟩, shard⟩ = some di ∧
        (parentID ≠ "" → di.parentCommit = some ⟨repo, parentID⟩) ∧
        (parentID = "" → branch ≠ "" →
          ∀ head, canonicalCommit d ⟨repo, branch⟩ = Res.ok head → head.id ≠ branch →
            head.id ≠ id → di.parentCommit = some head) ∧
        (parentID = "" →
          branch = "" ∨ canonicalCommit d ⟨repo, branch⟩ = Res.ok ⟨repo, branch⟩ →
          di.parentCommit = none)) := by
  constructor
  · intro head hp hb hc h1 h2
    have hbp := branchParent_head d ⟨repo, id⟩ branch head hc h1 h2
    unfold StartCommit startCommitShard
    rw [startCommitDiff_branchExists d repo id parentID branch started shard head hp hb hbp]
  · intro d' h
    obtain ⟨x, d1, hx, -, -, hget⟩ :=
      StartCommit_first_shard d d' repo id parentID branch started shard rest h
    obtain ⟨-, hp1, hp2, hp3⟩ := startCommitDiff_ok d repo id parentID branch started shard x hx
    refine ⟨x, hget, hp1, ?_, ?_⟩
    · intro hp hb head hc h1 h2
      have hbp := branchParent_head d ⟨repo, id⟩ branch head hc h1 h2
      have := hp3 hp hb
      rw [hbp] at this
      simp only [Res.ok.injEq] at this
      exact this.symm
    · intro hp hor
      by_cases hb : branch = ""
      · exact hp2 hp hb
      · rcases hor with hb' | hc
        · exact absurd hb' hb
        · have hbp := branchParent_none d ⟨repo, id⟩ branch hc
          have := hp3 hp hb
          rw [hbp] at this
          simp only [Res.ok.injEq] at this
          exact this.symm

/-- Witness for C5: on branch `m` with head `c1`, a start with parent `c0` is
rejected and a start without parent gets the parent `c1`. -/
theorem StartCommit_parent_resolution_witness :
    StartCommit branchState "r" "c2" "c0" "m" (some 4) [0] =
        (branchState, Status.error (DriverError.branchExists "m" "c1" "c0")) ∧
      ∃ di, (StartCommit branchState "r" "c2" "" "m" (some 4) [0]).1.diffs.get ⟨⟨"r", "c2"⟩, 0⟩
            = some di ∧
        di.parentCommit = some ⟨"r", "c1"⟩ :=
  ⟨(StartCommit_parent_resolution branchState "r" "c2" "c0" "m" (some 4) 0 []).1 ⟨"r", "c1"⟩
      (by decide) (by decide) (by decide) (by decide) (by decide),
    let ⟨di, hg, _, h2, _⟩ :=
      (StartCommit_parent_resolution branchState "r" "c2" "" "m" (some 4) 0 []).2
        (StartCommit branchState "r" "c2" "" "m" (some 4) [0]).1 (by decide)
    ⟨di, hg, h2 rfl (by decide) ⟨"r", "c1"⟩ (by decide) (by decide) (by decide)⟩⟩

/-- C5 as stated fails: branch `m` of repo `r` has the head `c1` and `c0` is a
commit of `r`; `StartCommit` of `c2` on `m` with the explicit parent `c0`
returns the error "branch already exists" and records no diff for `c2`, so
the explicit parent does not win. -/
theorem StartCommit_parent_on_headed_branch :
    canonicalCommit branchState ⟨"r", "m"⟩ = Res.ok ⟨"r", "c1"⟩ ∧
      (branchState.diffs.get ⟨⟨"r", "c0"⟩, 0⟩).isSome = true ∧
      StartCommit branchState "r" "c2" "c0" "m" (some 4) [0] =
        (branchState, Status.error (DriverError.branchExists "m" "c1" "c0")) ∧
      branchState.diffs.get ⟨⟨"r", "c2"⟩, 0⟩ = none := by
  decide

/-! ## C6: the head of a branch -/

/-- The shards of a `StartCommit` on a branch after the first one: the commit
is the head of the branch already, and every new diff gets the parent of the
diffs that exist. -/
theorem StartCommit_later_shards (repo id b : String) (started : Option Nat) (P : Option Commit)
    (hb : b ≠ "") (hidb : id ≠ b) (rest : List Nat) (d d' : Driver)
    (hhead : canonicalCommit d ⟨repo, b⟩ = Res.ok ⟨repo, id⟩)
    (hseen : commitSeen d ⟨repo, id⟩ = true)
    (hall : ∀ sc ∈ (mget d.diffs repo).getD [], ∀ di, mget sc.2 id = some di →
      di.parentCommit = P)
    (h : StartCommit d repo id "" b started rest = (d', Status.ok)) :
    canonicalCommit d' ⟨repo, b⟩ = Res.ok ⟨repo, id⟩ ∧
      ∀ s ∈ rest, ∃ di, d'.diffs.get ⟨⟨repo, id⟩, s⟩ = some di ∧ di.branch = b ∧
        di.parentCommit = P := by
  induction rest generalizing d with
  | nil =>
    simp only [StartCommit, Prod.mk.injEq, and_true] at h
    subst h
    exact ⟨hhead, by simp⟩
  | cons s rest ih =>
    obtain ⟨x, d1, hx, hins, hrest, hget⟩ :=
      StartCommit_first_shard d d' repo id "" b started s rest h
    obtain ⟨hshape, -, -, hp3⟩ := startCommitDiff_ok d repo id "" b started s x hx
    have hdiff : x.diff = ⟨⟨repo, id⟩, s⟩ := by rw [hshape]
    have hbranch : x.branch = b := by rw [hshape]
    have hbp := hp3 rfl hb
    -- the parent found by `branchParent`
    have hpar : x.parentCommit = P := by
      unfold branchParent at hbp
      simp only [hhead, hidb, if_false, if_true] at hbp
      unfold commitSeen at hseen
      obtain ⟨v, hv, sc, hsc, hm⟩ := findSome_of_any _ id hseen
      simp only at hv
      rw [hv] at hbp
      simp only [Res.ok.injEq] at hbp
      rw [← hbp]
      exact hall sc hsc v hm
    have hseenx : commitSeen d x.diff.commit = true := by rw [hdiff]; exact hseen
    have hd1 := insertDiffInfo_seen d d1 x hseenx hins
    have hio := insertDiffInfo_ok d d1 x hins
    have hhead1 : canonicalCommit d1 ⟨repo, b⟩ = Res.ok ⟨repo, id⟩ := by
      rw [hd1]
      exact hhead
    have hget1 : d1.diffs.get ⟨⟨repo, id⟩, s⟩ = some x := by
      rw [DiffMap.get_insert d.diffs d1.diffs x hio, hdiff]
      simp
    have hseen1 : commitSeen d1 ⟨repo, id⟩ = true := commitSeen_of_get d1 _ s x hget1
    have hall1 : ∀ sc ∈ (mget d1.diffs repo).getD [], ∀ di, mget sc.2 id = some di →
        di.parentCommit = P := by
      obtain ⟨shardMap, hsm, hd1'⟩ := DiffMap.insert_ok d.diffs d1.diffs x hio
      rw [hdiff] at hsm hd1'
      simp only at hsm hd1'
      intro sc hsc di hdi
      rw [hd1', mget_mset_self] at hsc
      simp only [Option.getD_some] at hsc
      rcases mem_mset _ _ _ _ hsc with hold | hnew
      · apply hall sc _ di hdi
        rw [hsm]
        exact hold
      · rw [hnew] at hdi
        simp only [mget_mset_self, Option.some.injEq] at hdi
        rw [← hdi]
        exact hpar
    obtain ⟨hfin, hothers⟩ := ih d1 hhead1 hseen1 hall1 hrest
    refine ⟨hfin, ?_⟩
    intro s' hs'
    rcases List.mem_cons.mp hs' with rfl | hmem
    · exact ⟨x, hget, hbranch, hpar⟩
    · exact hothers s' hmem

/-- C6, amended: after a `StartCommit` without `parentID` on a branch `b`, for
a non-empty shard set and a commit ID that no shard of the repo has seen, that
returns no error, `canonicalCommit` resolves `b` to the new commit, and on
every shard of the call the new diff has `Branch = b` and `ParentCommit` equal
to the head `b` had before the call (nil if it had none). The new ID differs
from `b`, so the next such call finds this commit as the head and takes it as
parent: successive calls form a chain. -/
theorem StartCommit_moves_branch_head (d d' : Driver) (repo id b : String)
    (started : Option Nat) (shard : Nat) (rest : List Nat) (hb : b ≠ "")
    (hnew : commitSeen d ⟨repo, id⟩ = false)
    (h : StartCommit d repo id "" b started (shard :: rest) = (d', Status.ok)) :
    canonicalCommit d' ⟨repo, b⟩ = Res.ok ⟨repo, id⟩ ∧ id ≠ b ∧
      ∃ head, canonicalCommit d ⟨repo, b⟩ = Res.ok head ∧
        ∀ s ∈ shard :: rest, ∃ di, d'.diffs.get ⟨⟨repo, id⟩, s⟩ = some di ∧ di.branch = b ∧
          di.parentCommit = if head.id = b then none else some head := by
  obtain ⟨x, d1, hx, hins, hrest, hget⟩ :=
    StartCommit_first_shard d d' repo id "" b started shard rest h
  obtain ⟨hshape, -, -, hp3⟩ := startCommitDiff_ok d repo id "" b started shard x hx
  have hdiff : x.diff = ⟨⟨repo, id⟩, shard⟩ := by rw [hshape]
  have hbranch : x.branch = b := by rw [hshape]
  have hbp := hp3 rfl hb
  have hnewx : commitSeen d x.diff.commit = false := by rw [hdiff]; exact hnew
  have hbx : x.branch ≠ "" := by rw [hbranch]; exact hb
  obtain ⟨hhead1, hidb⟩ := insertDiffInfo_new d d1 x hnewx hbx hins
  rw [hdiff, hbranch] at hhead1
  rw [hdiff, hbranch] at hidb
  simp only at hhead1 hidb
  -- the head of the branch before the call
  have hhead0 : ∃ head, canonicalCommit d ⟨repo, b⟩ = Res.ok head ∧
      x.parentCommit = if head.id = b then none else some head := by
    unfold branchParent at hbp
    cases hc : canonicalCommit d ⟨repo, b⟩ with
    | ok head =>
      refine ⟨head, rfl, ?_⟩
      simp only [hc] at hbp
      by_cases h1 : head.id = b
      · simp only [h1, if_true, Res.ok.injEq] at hbp
        simp [h1, ← hbp]
      · by_cases h2 : head.id = id
        · unfold commitSeen at hnew
          rw [h2] at hbp
          simp only [hidb, if_false, if_true, findSome_none_of_not_any _ id hnew] at hbp
          cases hbp
        · simp only [h1, h2, if_false, Res.ok.injEq] at hbp
          simp [h1, ← hbp]
    | error e => simp [hc] at hbp
    | panic => simp [hc] at hbp
    | timeout => simp [hc] at hbp
  obtain ⟨head, hc, hpar⟩ := hhead0
  have hio := insertDiffInfo_ok d d1 x hins
  have hget1 : d1.diffs.get ⟨⟨repo, id⟩, shard⟩ = some x := by
    rw [DiffMap.get_insert d.diffs d1.diffs x hio, hdiff]
    simp
  have hseen1 : commitSeen d1 ⟨repo, id⟩ = true := commitSeen_of_get d1 _ shard x hget1
  have hall1 : ∀ sc ∈ (mget d1.diffs repo).getD [], ∀ di, mget sc.2 id = some di →
      di.parentCommit = x.parentCommit := by
    obtain ⟨shardMap, hsm, hd1'⟩ := DiffMap.insert_ok d.diffs d1.diffs x hio
    rw [hdiff] at hsm hd1'
    simp only at hsm hd1'
    intro sc hsc di hdi
    rw [hd1', mget_mset_self] at hsc
    simp only [Option.getD_some] at hsc
    rcases mem_mset _ _ _ _ hsc with hold | hnew'
    · exfalso
      unfold commitSeen at hnew
      simp only [hsm, Option.getD_some] at hnew
      have := List.any_eq_false.mp hnew sc hold
      simp [hdi] at this
    · rw [hnew'] at hdi
      simp only [mget_mset_self, Option.some.injEq] at hdi
      rw [← hdi]
  obtain ⟨hfin, hothers⟩ :=
    StartCommit_later_shards repo id b started x.parentCommit hb hidb rest d1 d' hhead1 hseen1
      hall1 hrest
  refine ⟨hfin, hidb, head, hc, ?_⟩
  intro s hs
  rcases List.mem_cons.mp hs with rfl | hmem
  · exact ⟨x, hget, hbranch, hpar⟩
  · obtain ⟨di, h1, h2, h3⟩ := hothers s hmem
    exact ⟨di, h1, h2, by rw [h3, hpar]⟩

/-- Witness for C6: the first commit on branch `m`, on the shards 0 and 1. -/
theorem StartCommit_moves_branch_head_witness :
    canonicalCommit (StartCommit repoState "r" "c1" "" "m" (some 2) [0, 1]).1 ⟨"r", "m"⟩ =
      Res.ok ⟨"r", "c1"⟩ :=
  (StartCommit_moves_branch_head repoState (StartCommit repoState "r" "c1" "" "m" (some 2) [0, 1]).1
    "r" "c1" "m" (some 2) 0 [1] (by decide) (by decide) (by decide)).1

/-- C6 as stated fails in two cases. Commit `c` of repo `r` has a diff on shard
0 already: `StartCommit` of `c` on branch `b` for shard 1 returns no error, but
`insertDiffInfo` does not update the indexes and `b` does not resolve to `c`.
And a `StartCommit` for the empty shard set returns no error and does nothing. -/
theorem StartCommit_head_not_moved :
    (StartCommit oneShardState "r" "c" "" "b" (some 3) [1]).2 = Status.ok ∧
      canonicalCommit (StartCommit oneShardState "r" "c" "" "b" (some 3) [1]).1 ⟨"r", "b"⟩ =
        Res.ok ⟨"r", "b"⟩ ∧
      StartCommit repoState "r" "c" "" "b" (some 3) [] = (repoState, Status.ok) ∧
      canonicalCommit repoState ⟨"r", "b"⟩ = Res.ok ⟨"r", "b"⟩ := by
  decide

/-! ## C7: `StartCommit` with a parent that does not exist -/

/-- C7, the code at the failing input: repo `r` has no commit `nope`, yet
`StartCommit` of `c1` with `parentID = nope` returns no error and stores a diff
whose `ParentCommit` is `r/nope`; a `PutFile` into `c1` then reads a field of
the nil diff of `nope` in `lastRef`. -/
theorem StartCommit_unknown_parent :
    repoState.diffs.get ⟨⟨"r", "nope"⟩, 0⟩ = none ∧
      (StartCommit repoState "r" "c1" "nope" "" (some 2) [0]).2 = Status.ok ∧
      ((StartCommit repoState "r" "c1" "nope" "" (some 2) [0]).1.diffs.get ⟨⟨"r", "c1"⟩, 0⟩).map
          (fun di => di.parentCommit) = some (some ⟨"r", "nope"⟩) ∧
      (PutFile (StartCommit repoState "r" "c1" "nope" "" (some 2) [0]).1 ⟨⟨"r", "c1"⟩, "foo"⟩ 0
          (Except.ok [blockA]) 8).2 = Status.panic := by
  decide

/-! ## C8: `inspectFile` with a from-commit -/

/-- C8, the code at the failing input: in the chain `c1 <- c2 <- c3` of
finished commits, `c1` appended block `A` to `foo`, `c2` appended nothing and
`c3` appended block `B`. `inspectFile` at `c3` with `from = c2` returns the
blocks `A, B` and the size 8: the walk goes from `c3` to its `LastRef`, which
is `c1`, and never meets `c2`. -/
theorem inspectFile_from_skipped_commit :
    inspectFile noFilter (skipChain "foo") ⟨⟨"r", "c3"⟩, "foo"⟩ 0 (some ⟨"r", "c2"⟩) 8 =
        Res.ok
          ({ file := ⟨⟨"r", "c3"⟩, "foo"⟩, fileType := FileType.regular, sizeBytes := 8,
             commitModified := some ⟨"r", "c3"⟩, modified := some 7 },
            [blockA, blockB]) ∧
      ((skipChain "foo").diffs.get ⟨⟨"r", "c3"⟩, 0⟩).map (fun di => (di.parentCommit, di.finished))
        = some (some ⟨"r", "c2"⟩, some 7) ∧
      ((skipChain "foo").diffs.get ⟨⟨"r", "c2"⟩, 0⟩).map (fun di => (di.parentCommit, di.finished))
        = some (some ⟨"r", "c1"⟩, some 5) ∧
      ((skipChain "foo").diffs.get ⟨⟨"r", "c2"⟩, 0⟩).map (fun di => di.appends)
        = some (some []) := by
  decide

/-! ## C9: stored sizes -/

/-- C10, the code at the failing input: repo `r` has the commit `c1` at the
head of branch `master` and a commit whose ID is `master`; both are leaves.
`ListCommit` of `r` returns the commit `c1` twice, in whichever order the
leaves are visited, because `inspectCommit` resolves the ID `master` to the
head of the branch while `breakCommitIDs` records the unresolved ID; and with
`FromCommit = [c1]` it returns `c1`. -/
theorem ListCommit_lists_commit_twice :
    leavesOf ((mget aliasState.dags "r").getD {}) = ["c1", "master"] ∧
      ListCommit reduceOne leavesOf aliasState ["r"] [] [0] 8 =
        Res.ok
          [{ commit := ⟨"r", "c1"⟩, commitType := CommitType.write, branch := "master",
             parentCommit := none, started := some 2, finished := none, sizeBytes := 0 },
           { commit := ⟨"r", "c1"⟩, commitType := CommitType.write, branch := "master",
             parentCommit := none, started := some 2, finished := none, sizeBytes := 0 }] ∧
      ListCommit reduceOne (fun g => (leavesOf g).reverse) aliasState ["r"] [] [0] 8 =
        Res.ok
          [{ commit := ⟨"r", "c1"⟩, commitType := CommitType.write, branch := "master",
             parentCommit := none, started := some 2, finished := none, sizeBytes := 0 },
           { commit := ⟨"r", "c1"⟩, commitType := CommitType.write, branch := "master",
             parentCommit := none, started := some 2, finished := none, sizeBytes := 0 }] ∧
      ListCommit reduceOne leavesOf aliasState ["r"] [⟨"r", "c1"⟩] [0] 8 =
        Res.ok
          [{ commit := ⟨"r", "c1"⟩, commitType := CommitType.write, branch := "master",
             parentCommit := none, started := some 2, finished := none, sizeBytes := 0 }] := by
  decide

/-! ## `WithDatum` -/

theorem SameConfig.refl (d : Datum) : SameConfig d d := ⟨rfl, rfl, rfl, rfl, rfl, rfl⟩

theorem SameConfig.trans {d d1 d2 : Datum} (h1 : SameConfig d d1) (h2 : SameConfig d1 d2) :
    SameConfig d d2 := by
  unfold SameConfig at h1 h2 ⊢
  rw [h2.1, h2.2.1, h2.2.2.1, h2.2.2.2.1, h2.2.2.2.2.1, h2.2.2.2.2.2]
  exact h1

theorem handleFailed_config (d : Datum) (e : GoError) : SameConfig d (d.handleFailed e) := by
  unfold Datum.handleFailed
  split <;> exact ⟨rfl, rfl, rfl, rfl, rfl, rfl⟩

theorem finish_config (d : Datum) (a : Attempt) (err : Option GoError) :
    SameConfig d (d.finish a err).1 := by
  cases err with
  | none =>
    simp only [Datum.finish]
    split <;> exact ⟨rfl, rfl, rfl, rfl, rfl, rfl⟩
  | some e =>
    simp only [Datum.finish]
    split <;> exact handleFailed_config d e

theorem attemptCallback_config (a : Attempt) (cb : Nat → Datum → Meta × Option GoError) (i : Nat)
    (d : Datum) : SameConfig d (attemptCallback a cb i d).1 := by
  simp only [attemptCallback]
  split
  · exact SameConfig.trans ⟨rfl, rfl, rfl, rfl, rfl, rfl⟩ (finish_config _ a _)
  · exact ⟨rfl, rfl, rfl, rfl, rfl, rfl⟩

theorem withData_config (a : Attempt) (cb : Nat → Datum → Meta × Option GoError) (i : Nat)
    (d : Datum) : SameConfig d (d.withData a (attemptCallback a cb i)).datum := by
  simp only [Datum.withData]
  split
  · exact SameConfig.refl d
  · split
    · exact SameConfig.refl d
    · split <;> exact attemptCallback_config a cb i d

theorem datumAt_config (w : Nat → Attempt) (cb : Nat → Datum → Meta × Option GoError)
    (d : Datum) (i : Nat) : SameConfig d (datumAt w cb d i) := by
  induction i with
  | zero => exact SameConfig.refl d
  | succ i ih => exact SameConfig.trans ih (withData_config (w i) cb i _)

/-- The callback is called in an attempt exactly when the directory was made
and the data downloaded. -/
theorem withData_called (d : Datum) (a : Attempt) (cb : Datum → Datum × Option GoError) :
    (d.withData a cb).called = true ↔ a.mkdir = none ∧ a.download = none := by
  simp only [Datum.withData]
  cases a.mkdir with
  | some e => simp
  | none =>
    cases a.download with
    | some e => simp
    | none =>
      simp only [true_and]
      split <;> simp

/-- The calls of the callback that the loop of `WithDatum` adds are calls in
iterations of the loop, each iteration at most once and in order. -/
theorem withDatumLoop_calls (w : Nat → Attempt) (cb : Nat → Datum → Meta × Option GoError)
    (m : Nat) : ∀ (i : Nat) (d : Datum) (err : Option GoError) (calls : List Nat),
      ∃ more, (withDatumLoop w cb m i d err calls).calls = calls ++ more ∧
        more.Sublist (List.range' i m) ∧
        ∀ j ∈ more, (w j).mkdir = none ∧ (w j).download = none := by
  induction m with
  | zero => intro i d err calls; exact ⟨[], by simp [withDatumLoop], by simp, by simp⟩
  | succ m ih =>
    intro i d err calls
    simp only [withDatumLoop]
    by_cases hc : (d.withData (w i) (attemptCallback (w i) cb i)).called = true
    · have hset := (withData_called d (w i) (attemptCallback (w i) cb i)).mp hc
      simp only [hc, if_true]
      split
      · refine ⟨[i], rfl, ?_, ?_⟩
        · rw [List.range'_succ]
          exact List.Sublist.cons₂ i (List.nil_sublist _)
        · intro j hj
          rw [List.mem_singleton.mp hj]
          exact hset
      · rename_i e he
        obtain ⟨more, h1, h2, h3⟩ := ih (i + 1) (d.withData (w i) (attemptCallback (w i) cb i)).datum
          (some e) (calls ++ [i])
        refine ⟨i :: more, ?_, ?_, ?_⟩
        · rw [h1]; simp
        · rw [List.range'_succ]
          exact List.Sublist.cons₂ i h2
        · intro j hj
          rcases List.mem_cons.mp hj with rfl | hj
          · exact hset
          · exact h3 j hj
    · simp only [hc]
      split
      · exact ⟨[], by simp, List.nil_sublist _, by simp⟩
      · rename_i e he
        obtain ⟨more, h1, h2, h3⟩ := ih (i + 1) (d.withData (w i) (attemptCallback (w i) cb i)).datum
          (some e) calls
        refine ⟨more, by simpa using h1, ?_, h3⟩
        rw [List.range'_succ]
        exact List.Sublist.cons i h2

/-- The loop of `WithDatum` ends with the first attempt that returns `nil`:
it returns `nil`, leaves the datum as that attempt left it, and has called
the callback in no later iteration. -/
theorem withDatumLoop_first_nil (w : Nat → Attempt) (cb : Nat → Datum → Meta × Option GoError)
    (d : Datum) (m : Nat) : ∀ (i k : Nat) (err : Option GoError) (calls : List Nat),
      i ≤ k → k < i + m →
      (∀ j, i ≤ j → j < k → (attemptAt w cb d j).err ≠ none) →
      (attemptAt w cb d k).err = none →
      (withDatumLoop w cb m i (datumAt w cb d i) err calls).err = none ∧
      (withDatumLoop w cb m i (datumAt w cb d i) err calls).set = (attemptAt w cb d k).datum.set ∧
      (withDatumLoop w cb m i (datumAt w cb d i) err calls).meta =
        (attemptAt w cb d k).datum.meta ∧
      ∀ j ∈ (withDatumLoop w cb m i (datumAt w cb d i) err calls).calls, j ∈ calls ∨ j ≤ k := by
  induction m with
  | zero => intro i k err calls h1 h2; omega
  | succ m ih =>
    intro i k err calls hik hkm hfail hok
    simp only [withDatumLoop]
    rcases Nat.eq_or_lt_of_le hik with rfl | hlt
    · have hok2 : ((datumAt w cb d i).withData (w i) (attemptCallback (w i) cb i)).err = none := hok
      simp only [hok2]
      refine ⟨trivial, rfl, rfl, ?_⟩
      intro j hj
      by_cases hc : ((datumAt w cb d i).withData (w i) (attemptCallback (w i) cb i)).called = true
      · simp only [hc, if_true] at hj
        rcases List.mem_append.mp hj with hj | hj
        · exact Or.inl hj
        · exact Or.inr (le_of_eq (List.mem_singleton.mp hj))
      · simp only [hc] at hj
        exact Or.inl hj
    · have hne : ((datumAt w cb d i).withData (w i) (attemptCallback (w i) cb i)).err ≠ none :=
        hfail i (le_refl i) hlt
      cases he : ((datumAt w cb d i).withData (w i) (attemptCallback (w i) cb i)).err with
      | none => exact absurd he hne
      | some e =>
        simp only []
        have hd : ((datumAt w cb d i).withData (w i) (attemptCallback (w i) cb i)).datum =
            datumAt w cb d (i + 1) := rfl
        rw [hd]
        obtain ⟨h1, h2, h3, h4⟩ := ih (i + 1) k (some e)
          (if ((datumAt w cb d i).withData (w i) (attemptCallback (w i) cb i)).called = true
            then calls ++ [i] else calls)
          hlt (by omega) (fun j hj1 hj2 => hfail j (by omega) hj2) hok
        refine ⟨h1, h2, h3, ?_⟩
        intro j hj
        rcases h4 j hj with hj | hj
        · split at hj
          · rcases List.mem_append.mp hj with hj | hj
            · exact Or.inl hj
            · exact Or.inr (by rw [List.mem_singleton.mp hj]; omega)
          · exact Or.inl hj
        · exact Or.inr hj

/-- An attempt whose data is set up and whose callback fails before the final
iteration returns the error of the callback, and changes the meta only. -/
theorem withData_callback_fails (d : Datum) (a : Attempt)
    (cb : Nat → Datum → Meta × Option GoError) (i : Nat) (e : GoError)
    (hm : a.mkdir = none) (hd : a.download = none) (he : (cb i d).2 = some e)
    (hi : (i : Int) ≠ d.numRetries) :
    d.withData a (attemptCallback a cb i) = ⟨{ d with meta := (cb i d).1 }, some e, true⟩ := by
  simp [Datum.withData, attemptCallback, hm, hd, he, hi]

/-- When an attempt returns `nil`: its directory is made and removed, its
data downloaded and its statistics merged, and either the callback succeeds
and the output is uploaded, or the callback fails in the final iteration
and the meta output is uploaded. -/
theorem withData_nil_iff (d : Datum) (a : Attempt) (cb : Nat → Datum → Meta × Option GoError)
    (i : Nat) :
    (d.withData a (attemptCallback a cb i)).err = none ↔
      a.mkdir = none ∧ a.download = none ∧ a.merge = none ∧ a.removeAll = none ∧
      (((cb i d).2 = none ∧ d.uploadOutput a = none) ∨
        ((cb i d).2 ≠ none ∧ (i : Int) = d.numRetries ∧ d.uploadMetaOutput a = none)) := by
  have hup : ∀ d1 : Datum, d1.set.metaOutputClient = d.set.metaOutputClient →
      d1.uploadMetaOutput a = d.uploadMetaOutput a := by
    intro d1 h
    simp only [Datum.uploadMetaOutput, h]
  have hout : ∀ d1 : Datum, d1.set.metaOutputClient = d.set.metaOutputClient →
      d1.set.pfsOutputClient = d.set.pfsOutputClient → d1.uploadOutput a = d.uploadOutput a := by
    intro d1 h h2
    simp only [Datum.uploadOutput, hup d1 h, h2]
  cases hm : a.mkdir with
  | some e => simp [Datum.withData, hm]
  | none =>
    cases hd : a.download with
    | some e => simp [Datum.withData, hm, hd]
    | none =>
      cases hc : (cb i d).2 with
      | none =>
        simp only [Datum.withData, hm, hd, attemptCallback, hc, true_or, if_true, Datum.finish]
        rw [hout _ (by simp) (by simp)]
        cases d.uploadOutput a with
        | some e => simp
        | none =>
          cases a.merge with
          | some e => simp
          | none => cases a.removeAll <;> simp
      | some e =>
        by_cases hi : (i : Int) = d.numRetries
        · have h1 := hup (Datum.handleFailed { d with meta := (cb i d).1 } e)
            (handleFailed_config _ e).2.2.2.2.1
          simp only [Datum.withData, hm, hd, attemptCallback, hc, hi, or_true, if_true,
            Datum.finish, h1]
          cases d.uploadMetaOutput a with
          | some e => simp
          | none =>
            cases a.merge with
            | some e => simp
            | none => cases a.removeAll <;> simp
        · simp [Datum.withData, hm, hd, attemptCallback, hc, hi]

/-- When the data of every attempt is set up and the callback fails every
time, the callback is called in every iteration that the loop has left. -/
theorem withDatumLoop_all_fail (w : Nat → Attempt) (cb : Nat → Datum → Meta × Option GoError)
    (hw : ∀ i, (w i).mkdir = none ∧ (w i).download = none)
    (hcb : ∀ i d, (cb i d).2 ≠ none) (m : Nat) :
    ∀ (i : Nat) (d : Datum) (err : Option GoError) (calls : List Nat),
      ((i + m : Nat) : Int) = d.numRetries + 1 →
      (withDatumLoop w cb m i d err calls).calls = calls ++ List.range' i m := by
  induction m with
  | zero => intro i d err calls _; simp [withDatumLoop]
  | succ m ih =>
    intro i d err calls hn
    have hc : (d.withData (w i) (attemptCallback (w i) cb i)).called = true :=
      (withData_called d (w i) _).mpr (hw i)
    simp only [withDatumLoop, hc, if_true]
    cases he : (d.withData (w i) (attemptCallback (w i) cb i)).err with
    | none =>
      have h := (withData_nil_iff d (w i) cb i).mp he
      rcases h.2.2.2.2 with h | h
      · exact absurd h.1 (hcb i d)
      · have hm : m = 0 := by
          have := h.2.1
          omega
        subst hm
        simp [List.range'_succ]
    | some e =>
      simp only []
      rw [ih (i + 1) _ (some e) (calls ++ [i])
        (by rw [(withData_config (w i) cb i d).1]; rw [← hn]; push_cast; ring)]
      simp [List.range'_succ]

/-- An attempt whose callback fails before the final iteration leaves the
set of the datum as it is. -/
theorem withData_set_of_fail (d : Datum) (a : Attempt) (cb : Nat → Datum → Meta × Option GoError)
    (i : Nat) (hcb : (cb i d).2 ≠ none) (hi : (i : Int) ≠ d.numRetries) :
    (d.withData a (attemptCallback a cb i)).datum.set = d.set := by
  cases hm : a.mkdir with
  | some e => simp [Datum.withData, hm]
  | none =>
    cases hd : a.download with
    | some e => simp [Datum.withData, hm, hd]
    | none =>
      cases hc : (cb i d).2 with
      | none => exact absurd hc hcb
      | some e => rw [withData_callback_fails d a cb i e hm hd hc hi]

/-- While a callback that fails every time has not reached the final
iteration, the set of the datum is as it was. -/
theorem datumAt_set_of_fail (w : Nat → Attempt) (cb : Nat → Datum → Meta × Option GoError)
    (d : Datum) (hcb : ∀ i d, (cb i d).2 ≠ none) (j : Nat) (hj : (j : Int) ≤ d.numRetries) :
    (datumAt w cb d j).set = d.set := by
  induction j with
  | zero => rfl
  | succ j ih =>
    have hlt : (j : Int) < d.numRetries := by push_cast at hj; omega
    simp only [datumAt]
    rw [withData_set_of_fail _ (w j) cb j (hcb j _)
      (by rw [(datumAt_config w cb d j).1]; omega)]
    exact ih (by omega)

/-- An attempt whose callback fails before the final iteration does not
return `nil`. -/
theorem attemptAt_fails (w : Nat → Attempt) (cb : Nat → Datum → Meta × Option GoError)
    (d : Datum) (hcb : ∀ i d, (cb i d).2 ≠ none) (j : Nat) (hj : (j : Int) ≠ d.numRetries) :
    (attemptAt w cb d j).err ≠ none := by
  intro h
  have h2 := (withData_nil_iff (datumAt w cb d j) (w j) cb j).mp h
  rcases h2.2.2.2.2 with h3 | h3
  · exact hcb j _ h3.1
  · exact hj (by rw [← (datumAt_config w cb d j).1]; exact h3.2.1)

/-! ## `CreateSets` -/

theorem setSize_append (metas : List Meta) (meta : Meta) :
    setSize (metas ++ [meta]) = addInputSizes (setSize metas) meta.inputs := by
  simp [setSize, List.foldl_append]

theorem toInt64_of_range (n : Int) (h1 : -(2 ^ 63) ≤ n) (h2 : n < 2 ^ 63) : toInt64 n = n := by
  unfold toInt64
  norm_num at h1 h2 ⊢
  omega

theorem addInputSizes_of_range (inputs : List Input) :
    ∀ size : Int, 0 ≤ size →
      size + ((inputs.map (fun input => input.fileInfo.sizeBytes)).sum : Nat) < 2 ^ 63 →
      addInputSizes size inputs =
        size + ((inputs.map (fun input => input.fileInfo.sizeBytes)).sum : Nat) := by
  induction inputs with
  | nil => intro size _ _; simp [addInputSizes]
  | cons input inputs ih =>
    intro size h0 h
    simp only [List.map_cons, List.sum_cons, Nat.cast_add] at h ⊢
    have hs : (0 : Int) ≤ ((inputs.map (fun input => input.fileInfo.sizeBytes)).sum : Nat) :=
      Int.natCast_nonneg _
    have hb : (0 : Int) ≤ (input.fileInfo.sizeBytes : Nat) := Int.natCast_nonneg _
    have h1 : toInt64 (input.fileInfo.sizeBytes : Nat) = (input.fileInfo.sizeBytes : Nat) :=
      toInt64_of_range _ (by norm_num; omega) (by omega)
    have h2 : toInt64 (size + (input.fileInfo.sizeBytes : Nat)) =
        size + (input.fileInfo.sizeBytes : Nat) :=
      toInt64_of_range _ (by norm_num; omega) (by omega)
    have h3 := ih (size + (input.fileInfo.sizeBytes : Nat)) (by omega) (by omega)
    simp only [addInputSizes, List.foldl_cons] at h3 ⊢
    rw [h1, h2, h3]
    ring

/-- Below `2 ^ 63` the sum in `int64` is the sum. -/
theorem setSize_eq_totalSize (metas : List Meta) :
    totalSize metas < 2 ^ 63 → setSize metas = totalSize metas := by
  induction metas using List.reverseRecOn with
  | nil => intro _; simp [setSize, totalSize]
  | append_singleton metas meta ih =>
    intro h
    have ht : totalSize (metas ++ [meta]) =
        totalSize metas + (meta.inputs.map (fun input => input.fileInfo.sizeBytes)).sum := by
      simp [totalSize]
    rw [ht] at h
    rw [setSize_append, ih (by omega), ht]
    rw [addInputSizes_of_range meta.inputs _ (Int.natCast_nonneg _)
      (by exact_mod_cast h)]
    push_cast
    ring

/-- One call of `shouldCreateSet` on pending datums: it answers `true` when
the datums with the new one are a closed set, and otherwise they are
pending. -/
theorem shouldCreateSet_call (setSpec : SetSpec) (f : ShouldCreateSet) (metas : List Meta)
    (meta : Meta) (h : PendingSet setSpec f metas) :
    ((f.call setSpec meta).1 = true → ClosedSet setSpec (metas ++ [meta]) ∧
      PendingSet setSpec (f.call setSpec meta).2 []) ∧
    ((f.call setSpec meta).1 = false →
      PendingSet setSpec (f.call setSpec meta).2 (metas ++ [meta])) := by
  unfold PendingSet at h
  by_cases hn : setSpec.Number > 0
  · simp only [hn, if_true] at h
    obtain ⟨hf, hlt⟩ := h
    subst hf
    by_cases hge : (metas.length : Int) + 1 ≥ setSpec.Number
    · simp only [ShouldCreateSet.call, hge, if_true, ClosedSet, PendingSet, hn]
      simp only [List.length_append, List.length_singleton, List.length_nil, Nat.cast_add,
        Nat.cast_one, Nat.cast_zero]
      exact ⟨fun _ => ⟨by omega, by first | rfl | trivial, by omega⟩, fun h => by simp at h⟩
    · simp only [ShouldCreateSet.call, hge, if_false, ClosedSet, PendingSet, hn, if_true]
      simp only [List.length_append, List.length_singleton, Nat.cast_add, Nat.cast_one]
      exact ⟨fun h => by simp at h, fun _ => ⟨by first | rfl | trivial, by omega⟩⟩
  · by_cases hs : setSpec.SizeBytes > 0
    · simp only [hn, if_false, hs, if_true] at h
      obtain ⟨hf, hlt⟩ := h
      subst hf
      have htake : ∀ k, k ≤ metas.length → (metas ++ [meta]).take k = metas.take k := by
        intro k hk
        exact List.take_append_of_le_length hk
      by_cases hge : addInputSizes (setSize metas) meta.inputs ≥ setSpec.SizeBytes
      · simp only [ShouldCreateSet.call, hge, if_true, ClosedSet, PendingSet, hn, if_false, hs]
        refine ⟨fun _ => ⟨⟨by rw [setSize_append]; exact hge, ?_⟩, rfl, ?_⟩,
          fun h => by simp at h⟩
        · intro k hk
          simp only [List.length_append, List.length_singleton] at hk
          rw [htake k (by omega)]
          exact hlt k (by omega)
        · intro k hk
          simp only [List.length_nil, Nat.le_zero] at hk
          subst hk
          simpa [setSize] using hs
      · simp only [ShouldCreateSet.call, hge, if_false, ClosedSet, PendingSet, hn, hs, if_true]
        refine ⟨fun h => by simp at h, fun _ => ⟨by rw [setSize_append], ?_⟩⟩
        intro k hk
        simp only [List.length_append, List.length_singleton] at hk
        rcases Nat.eq_or_lt_of_le hk with rfl | hk2
        · rw [← List.length_singleton meta, ← List.length_append, List.take_length,
            setSize_append]
          omega
        · rw [htake k (by omega)]
          exact hlt k (by omega)
    · simp only [hn, if_false, hs] at h
      obtain ⟨hf, hm⟩ := h
      subst hf hm
      simp [ShouldCreateSet.call, ClosedSet, PendingSet, hn, hs]

/-- One call of the callback of `CreateSets`: the sets stay closed and not
empty, and when it returns `nil` the invariant holds with the new datum. -/
theorem createSetsCallback_inv (setSpec : SetSpec) (upload : Nat → List Meta → Option GoError)
    (s : CreateSetsState) (seen : List Meta) (meta : Meta) (h : CreateSetsInv setSpec s seen) :
    (∀ set ∈ (createSetsCallback setSpec upload s meta).1.sets,
      set ≠ [] ∧ ClosedSet setSpec set) ∧
    ((createSetsCallback setSpec upload s meta).2 = none →
      CreateSetsInv setSpec (createSetsCallback setSpec upload s meta).1 (seen ++ [meta])) ∧
    ((∀ k metas, upload k metas = none) → (createSetsCallback setSpec upload s meta).2 = none) := by
  obtain ⟨h1, h2, h3⟩ := h
  have hc := shouldCreateSet_call setSpec s.shouldCreateSet s.metas meta h3
  cases hb : (s.shouldCreateSet.call setSpec meta).1 with
  | false =>
    have hp := hc.2 hb
    simp only [createSetsCallback, hb]
    refine ⟨h2, fun _ => ⟨?_, h2, hp⟩, fun _ => rfl⟩
    simp only [Bool.false_eq_true, if_false]
    rw [← h1, List.append_assoc]
  | true =>
    obtain ⟨hcl, hp⟩ := hc.1 hb
    have hsets : ∀ set ∈ s.sets ++ [s.metas ++ [meta]], set ≠ [] ∧ ClosedSet setSpec set := by
      intro set hset
      rcases List.mem_append.mp hset with hset | hset
      · exact h2 set hset
      · rw [List.mem_singleton.mp hset]
        exact ⟨by simp, hcl⟩
    simp only [createSetsCallback, hb, if_true, createSet]
    cases hu : upload s.sets.length (s.metas ++ [meta]) with
    | some e =>
      simp only []
      exact ⟨hsets, fun h => by simp at h, fun hall => by rw [hall] at hu; simp at hu⟩
    | none =>
      simp only []
      refine ⟨hsets, fun _ => ⟨?_, hsets, hp⟩, fun _ => by first | rfl | trivial⟩
      simp only [List.flatten_append, List.flatten_cons, List.flatten_nil, List.append_nil]
      rw [← h1, List.append_assoc]

/-- The iteration of `CreateSets`: the sets stay closed and not empty, and
when it returns `nil` the invariant holds for all the datums. -/
theorem Iterate_createSets_inv (setSpec : SetSpec) (upload : Nat → List Meta → Option GoError)
    (dit : List Meta) : ∀ (s : CreateSetsState) (seen : List Meta),
      CreateSetsInv setSpec s seen →
      (∀ set ∈ (Iterate (createSetsCallback setSpec upload) dit s).1.sets,
        set ≠ [] ∧ ClosedSet setSpec set) ∧
      ((Iterate (createSetsCallback setSpec upload) dit s).2 = none →
        CreateSetsInv setSpec (Iterate (createSetsCallback setSpec upload) dit s).1
          (seen ++ dit)) ∧
      ((∀ k metas, upload k metas = none) →
        (Iterate (createSetsCallback setSpec upload) dit s).2 = none) := by
  induction dit with
  | nil =>
    intro s seen h
    simp only [Iterate, List.append_nil]
    exact ⟨h.2.1, fun _ => h, fun _ => by first | rfl | trivial⟩
  | cons meta dit ih =>
    intro s seen h
    obtain ⟨c1, c2, c3⟩ := createSetsCallback_inv setSpec upload s seen meta h
    simp only [Iterate]
    cases hcb : createSetsCallback setSpec upload s meta with
    | mk s1 err =>
      rw [hcb] at c1 c2 c3
      cases err with
      | some e =>
        simp only []
        exact ⟨c1, fun h => by simp at h, fun hall => by simpa using c3 hall⟩
      | none =>
        simp only []
        obtain ⟨i1, i2, i3⟩ := ih s1 (seen ++ [meta]) (c2 rfl)
        refine ⟨i1, fun hn => ?_, i3⟩
        have := i2 hn
        rwa [List.append_assoc, List.singleton_append] at this

theorem CreateSetsInv_start (setSpec : SetSpec) :
    CreateSetsInv setSpec ⟨[], shouldCreateSetFunc setSpec, []⟩ [] := by
  refine ⟨rfl, by simp, ?_⟩
  unfold PendingSet shouldCreateSetFunc
  by_cases hn : setSpec.Number > 0
  · simp [hn]
  · by_cases hs : setSpec.SizeBytes > 0
    · simp only [hn, if_false, hs, if_true]
      refine ⟨rfl, ?_⟩
      intro k hk
      simp only [List.length_nil, Nat.le_zero] at hk
      subst hk
      simpa [setSize] using hs
    · simp [hn, hs]

/-- The sets that `CreateSets` creates: all but the last are closed, the last
is closed or pending, none is empty, and when `CreateSets` returns `nil`
they are the datums of the iterator, in order. -/
theorem CreateSets_sets (dit : List Meta) (setSpec : SetSpec)
    (upload : Nat → List Meta → Option GoError) :
    (∀ set ∈ (CreateSets dit setSpec upload).1, set ≠ []) ∧
    (∀ set ∈ (CreateSets dit setSpec upload).1.dropLast, ClosedSet setSpec set) ∧
    (∀ set ∈ (CreateSets dit setSpec upload).1,
      ClosedSet setSpec set ∨ ∃ f, PendingSet setSpec f set) ∧
    ((CreateSets dit setSpec upload).2 = none → (CreateSets dit setSpec upload).1.flatten = dit) ∧
    ((∀ k metas, upload k metas = none) → (CreateSets dit setSpec upload).2 = none) := by
  obtain ⟨i1, i2, i3⟩ := Iterate_createSets_inv setSpec upload dit
    ⟨[], shouldCreateSetFunc setSpec, []⟩ [] (CreateSetsInv_start setSpec)
  simp only [CreateSets]
  cases hit : Iterate (createSetsCallback setSpec upload) dit
      ⟨[], shouldCreateSetFunc setSpec, []⟩ with
  | mk s err =>
    rw [hit] at i1 i2 i3
    cases err with
    | some e =>
      simp only []
      refine ⟨fun set h => (i1 set h).1, fun set h => (i1 set (List.mem_of_mem_dropLast h)).2,
        fun set h => Or.inl (i1 set h).2, fun h => by simp at h,
        fun hall => by simpa using i3 hall⟩
    | none =>
      obtain ⟨j1, j2, j3⟩ := i2 rfl
      simp only [List.nil_append] at j1
      by_cases hlen : s.metas.length > 0
      · simp only [hlen, if_true, createSet]
        have hne : s.metas ≠ [] := by
          intro h
          rw [h] at hlen
          simp at hlen
        refine ⟨?_, ?_, ?_, fun _ => ?_, fun hall => hall _ _⟩
        · intro set h
          rcases List.mem_append.mp h with h | h
          · exact (i1 set h).1
          · rw [List.mem_singleton.mp h]
            exact hne
        · intro set h
          rw [List.dropLast_concat] at h
          exact (i1 set h).2
        · intro set h
          rcases List.mem_append.mp h with h | h
          · exact Or.inl (i1 set h).2
          · rw [List.mem_singleton.mp h]
            exact Or.inr ⟨_, j3⟩
        · simpa using j1
      · simp only [hlen, if_false]
        have hnil : s.metas = [] := by
          cases hm : s.metas with
          | nil => rfl
          | cons x xs => rw [hm] at hlen; simp at hlen
        rw [hnil, List.append_nil] at j1
        exact ⟨fun set h => (i1 set h).1, fun set h => (i1 set (List.mem_of_mem_dropLast h)).2,
          fun set h => Or.inl (i1 set h).2, fun _ => j1, fun _ => by first | rfl | trivial⟩

/-! ## The `ModifyFile` stream -/

/-- C12, the code at the failing input: a `delete_file` request whose path
the validator of the writer rejects.  `UnorderedWriter.Delete` returns the
error of the validator and `modifyFile` returns `nil`, while it returns that
error for an `add_file` request with the same path.  `deleteFile` returns no
error at all, whatever the writer and the request. -/
theorem modifyFile_drops_delete_error :
    (strictWriter.Delete plainFileset 4 "bad" "").2 = Ret.err (GoError.msg "invalid path") ∧
    (modifyFile plainServer plainFileset 4 strictWriter 0 [Except.ok deleteBad]).ret = Ret.nil ∧
    (modifyFile plainServer plainFileset 4 strictWriter 0 [Except.ok addBad]).ret =
      Ret.err (GoError.msg "invalid path") ∧
    (∀ (fs : Fileset) (fuel : Nat) (uw : UnorderedWriter) (request : DeleteFile) (e : GoError),
      (deleteFile fs fuel uw request).2 ≠ Ret.err e) := by
  refine ⟨by decide, by decide, by decide, ?_⟩
  intro fs fuel uw request e
  simp only [deleteFile]
  cases UnorderedWriter.Delete fs fuel uw request.path request.datum with
  | mk uw1 ret => cases ret <;> simp

/-! ## C13: the commit set of `CreateBranch` -/

/-- C13. The commit set id that `CreateBranch` hands to its transaction: the
id of the commit that the head resolves to when the head is set and
`NewCommitSet` is false, the empty id when `NewCommitSet` is true or the
head is nil; and `CreateBranch` fails with the error of `resolveCommit`
when the head is set, `NewCommitSet` is false and the head does not
resolve. -/
theorem CreateBranch_commit_set_id (resolveCommit : Commit → Except GoError CommitInfo)
    (createBranch : String → CreateBranchRequest → Option GoError)
    (request : CreateBranchRequest) :
    (∀ head commitInfo, request.head = some head → request.newCommitSet = false →
      resolveCommit head = Except.ok commitInfo →
      createBranchCommitSetID resolveCommit request = Except.ok commitInfo.commit.id ∧
      CreateBranch resolveCommit createBranch request =
        createBranch commitInfo.commit.id request) ∧
    (request.newCommitSet = true ∨ request.head = none →
      createBranchCommitSetID resolveCommit request = Except.ok "" ∧
      CreateBranch resolveCommit createBranch request = createBranch "" request) ∧
    (∀ head err, request.head = some head → request.newCommitSet = false →
      resolveCommit head = Except.error err →
      createBranchCommitSetID resolveCommit request = Except.error err ∧
      CreateBranch resolveCommit createBranch request = some err) := by
  refine ⟨?_, ?_, ?_⟩
  · intro head commitInfo hh hn hr
    simp [CreateBranch, WithTransaction, createBranchCommitSetID, hh, hn, hr]
  · intro h
    rcases h with h | h
    · cases hh : request.head <;>
        simp [CreateBranch, WithTransaction, createBranchCommitSetID, hh, h]
    · simp [CreateBranch, WithTransaction, createBranchCommitSetID, h]
  · intro head err hh hn hr
    simp [CreateBranch, WithTransaction, createBranchCommitSetID, hh, hn, hr]

theorem CreateBranch_commit_set_id_witness :
    CreateBranch resolveMaster (fun id _ => if id = "c1" then none else some (GoError.msg id))
      ⟨some ⟨"repo", "master"⟩, false⟩ = none ∧
    CreateBranch resolveMaster (fun id _ => if id = "c1" then none else some (GoError.msg id))
      ⟨some ⟨"repo", "other"⟩, false⟩ = some (GoError.msg "commit not found") := by
  constructor
  · have h := ((CreateBranch_commit_set_id resolveMaster
      (fun id _ => if id = "c1" then none else some (GoError.msg id))
      ⟨some ⟨"repo", "master"⟩, false⟩).1 ⟨"repo", "master"⟩
      ⟨commitOne, CommitType.read, "master", none, some 1, some 2, 0⟩ rfl rfl rfl).2
    rw [h]
    decide
  · exact ((CreateBranch_commit_set_id resolveMaster
      (fun id _ => if id = "c1" then none else some (GoError.msg id))
      ⟨some ⟨"repo", "other"⟩, false⟩).2.2 ⟨"repo", "other"⟩ (GoError.msg "commit not found")
      rfl rfl rfl).2

/-! ## C14: the attempts of `WithDatum` -/

/-- C14, as stated, fails.  With the default of three retries: when the first
attempt runs the callback and uploads the output and only the removal of its
directory fails, the callback is run again in the second attempt; and when
the download of the first attempt fails and the callback fails in the three
others, the callback has run three times, not four. -/
theorem WithDatum_callback_count_differs :
    (newDatum inputNames setZero metaOne []).numRetries = 3 ∧
    (passingCallback 0 (newDatum inputNames setZero metaOne [])).2 = none ∧
    (newDatum inputNames setZero metaOne []).uploadOutput (cleanupFails 0) = none ∧
    (Set.WithDatum inputNames setZero metaOne cleanupFails passingCallback []).calls = [0, 1] ∧
    (attemptAt downloadFails failingCallback (newDatum inputNames setZero metaOne []) 0).err =
      some (GoError.msg "download failed") ∧
    (∀ i d, (failingCallback i d).2 ≠ none) ∧
    (Set.WithDatum inputNames setZero metaOne downloadFails failingCallback []).calls =
      [1, 2, 3] := by
  refine ⟨by decide, by decide, by decide, by decide, by decide, ?_, by decide⟩
  intro i d
  simp [failingCallback]

/-- C14, amended.  For a datum with `n` retries, `WithDatum` makes at most
`n + 1` attempts and calls the callback at most once in each, and only in an
attempt whose directory was made and whose data was downloaded.  An attempt
returns `nil` when, besides, its statistics are merged and its directory is
removed, and either the callback succeeds and the output is uploaded or the
callback fails in the final attempt and the meta output is uploaded.  The
loop stops after the first attempt that returns `nil` and returns `nil`.
When the data of every attempt is set up and the callback fails every time,
the callback is called exactly `n + 1` times. -/
theorem WithDatum_attempts (DatumID : List Input → String) (s : Set) (meta : Meta)
    (w : Nat → Attempt) (cb : Nat → Datum → Meta × Option GoError) (opts : List (Datum → Datum))
    (n : Nat) (hn : (newDatum DatumID s meta opts).numRetries = n) :
    ((Set.WithDatum DatumID s meta w cb opts).calls.Sublist (List.range (n + 1)) ∧
      (Set.WithDatum DatumID s meta w cb opts).calls.length ≤ n + 1 ∧
      ∀ j ∈ (Set.WithDatum DatumID s meta w cb opts).calls,
        (w j).mkdir = none ∧ (w j).download = none) ∧
    (∀ k, (attemptAt w cb (newDatum DatumID s meta opts) k).err = none ↔
      (w k).mkdir = none ∧ (w k).download = none ∧ (w k).merge = none ∧
      (w k).removeAll = none ∧
      (((cb k (datumAt w cb (newDatum DatumID s meta opts) k)).2 = none ∧
          (newDatum DatumID s meta opts).uploadOutput (w k) = none) ∨
        ((cb k (datumAt w cb (newDatum DatumID s meta opts) k)).2 ≠ none ∧ k = n ∧
          (newDatum DatumID s meta opts).uploadMetaOutput (w k) = none))) ∧
    (∀ k, k ≤ n →
      (∀ j, j < k → (attemptAt w cb (newDatum DatumID s meta opts) j).err ≠ none) →
      (attemptAt w cb (newDatum DatumID s meta opts) k).err = none →
      (Set.WithDatum DatumID s meta w cb opts).err = none ∧
      ∀ j ∈ (Set.WithDatum DatumID s meta w cb opts).calls, j ≤ k) ∧
    ((∀ i, (w i).mkdir = none ∧ (w i).download = none) → (∀ i d, (cb i d).2 ≠ none) →
      (Set.WithDatum DatumID s meta w cb opts).calls = List.range (n + 1) ∧
      (Set.WithDatum DatumID s meta w cb opts).calls.length = n + 1) := by
  have hm : ((newDatum DatumID s meta opts).numRetries + 1).toNat = n + 1 := by
    rw [hn]; omega
  refine ⟨?_, ?_, ?_, ?_⟩
  · obtain ⟨more, h1, h2, h3⟩ := withDatumLoop_calls w cb (n + 1) 0
      (newDatum DatumID s meta opts) none []
    simp only [Set.WithDatum, hm]
    rw [h1, List.nil_append]
    rw [← List.range_eq_range'] at h2
    exact ⟨h2, by simpa using h2.length_le, h3⟩
  · intro k
    have hcfg := datumAt_config w cb (newDatum DatumID s meta opts) k
    have hup : (datumAt w cb (newDatum DatumID s meta opts) k).uploadMetaOutput (w k) =
        (newDatum DatumID s meta opts).uploadMetaOutput (w k) := by
      simp only [Datum.uploadMetaOutput, hcfg.2.2.2.2.1]
    have hout : (datumAt w cb (newDatum DatumID s meta opts) k).uploadOutput (w k) =
        (newDatum DatumID s meta opts).uploadOutput (w k) := by
      simp only [Datum.uploadOutput, hup, hcfg.2.2.2.2.2]
    have h := withData_nil_iff (datumAt w cb (newDatum DatumID s meta opts) k) (w k) cb k
    rw [hup, hout, hcfg.1, hn] at h
    simp only [attemptAt]
    rw [h]
    simp only [Nat.cast_inj]
  · intro k hk hfail hok
    obtain ⟨h1, _, _, h4⟩ := withDatumLoop_first_nil w cb (newDatum DatumID s meta opts) (n + 1)
      0 k none [] (Nat.zero_le k) (by omega) (fun j _ hj => hfail j hj) hok
    simp only [Set.WithDatum, hm]
    refine ⟨h1, ?_⟩
    intro j hj
    rcases h4 j hj with h | h
    · simp at h
    · exact h
  · intro hw hcb
    have h := withDatumLoop_all_fail w cb hw hcb (n + 1) 0 (newDatum DatumID s meta opts) none []
      (by rw [hn]; push_cast; ring)
    simp only [Set.WithDatum, hm]
    rw [h, List.nil_append, ← List.range_eq_range']
    exact ⟨rfl, List.length_range (n + 1)⟩

theorem WithDatum_attempts_witness :
    (Set.WithDatum inputNames setZero metaOne (fun _ => okAttempt) failingCallback []).calls =
      List.range (3 + 1) :=
  ((WithDatum_attempts inputNames setZero metaOne (fun _ => okAttempt) failingCallback [] 3
    (by decide)).2.2.2 (fun _ => ⟨rfl, rfl⟩) (fun _ _ => by simp [failingCallback])).1

/-! ## C15: recovered datums -/

/-- C15. When `handleFailed` finds the state `RECOVERED`, it adds one to
`Recovered` and leaves the other counters, `FailedID` and the meta (state and
reason) as they are; so does `finish` with an error, and so does the
final attempt of `WithDatum` when the callback fails and leaves that state.
`Run` leaves a datum in the state `RECOVERED` only when it was in that state
before, or when the callback failed and the recovery callback was called and
returned `nil`. -/
theorem recovered_datum_counted :
    (∀ (d : Datum) (e : GoError), d.meta.state = State.RECOVERED →
      (d.handleFailed e).set.stats =
        { d.set.stats with recovered := d.set.stats.recovered + 1 } ∧
      (d.handleFailed e).meta = d.meta) ∧
    (∀ (d : Datum) (a : Attempt) (e : GoError), d.meta.state = State.RECOVERED →
      (d.finish a (some e)).1.set.stats =
        { d.set.stats with recovered := d.set.stats.recovered + 1 } ∧
      (d.finish a (some e)).1.meta = d.meta) ∧
    (∀ (a : Attempt) (cb : Nat → Datum → Meta × Option GoError) (i : Nat) (d : Datum),
      (i : Int) = d.numRetries → (cb i d).2 ≠ none → (cb i d).1.state = State.RECOVERED →
      (attemptCallback a cb i d).1.set.stats =
        { d.set.stats with recovered := d.set.stats.recovered + 1 } ∧
      (attemptCallback a cb i d).1.meta = (cb i d).1) ∧
    (∀ (d : Datum) (cb recovery : Option GoError),
      (d.Run cb recovery).meta.state = State.RECOVERED →
      d.meta.state = State.RECOVERED ∨
        (cb ≠ none ∧ (d.Run cb recovery).recovered = true ∧ recovery = none)) := by
  have h1 : ∀ (d : Datum) (e : GoError), d.meta.state = State.RECOVERED →
      (d.handleFailed e).set.stats =
        { d.set.stats with recovered := d.set.stats.recovered + 1 } ∧
      (d.handleFailed e).meta = d.meta := by
    intro d e h
    simp [Datum.handleFailed, h]
  have h2 : ∀ (d : Datum) (a : Attempt) (e : GoError), d.meta.state = State.RECOVERED →
      (d.finish a (some e)).1.set.stats =
        { d.set.stats with recovered := d.set.stats.recovered + 1 } ∧
      (d.finish a (some e)).1.meta = d.meta := by
    intro d a e h
    simp only [Datum.finish]
    split <;> exact h1 d e h
  refine ⟨h1, h2, ?_, ?_⟩
  · intro a cb i d hi hcb hs
    cases hc : (cb i d).2 with
    | none => exact absurd hc hcb
    | some e =>
      simp only [attemptCallback, hc, hi, or_true, if_true]
      exact h2 { d with meta := (cb i d).1 } a e hs
  · intro d cb recovery h
    cases cb with
    | none =>
      left
      simpa [Datum.Run, Datum.run] using h
    | some e =>
      by_cases hr : d.recoveryCallback = true
      · cases recovery with
        | none => right; simp [Datum.Run, Datum.run, hr]
        | some e2 =>
          left
          simpa [Datum.Run, Datum.run, hr] using h
      · left
        simpa [Datum.Run, Datum.run, hr] using h

theorem recovered_datum_counted_witness :
    (recoveredDatum.finish okAttempt (some (GoError.msg "exit status 1"))).1.set.stats =
      ⟨0, 0, 1, ""⟩ ∧
    (recoveredDatum.finish okAttempt (some (GoError.msg "exit status 1"))).1.meta =
      recoveredDatum.meta :=
  recovered_datum_counted.2.1 recoveredDatum okAttempt (GoError.msg "exit status 1") rfl

/-! ## C16: when the recovery callback runs -/

/-- C16, as stated, fails.  A datum with one retry and a recovery callback
that succeeds, whose transform fails in the first attempt and succeeds in
the second: the recovery callback is called in the first attempt, which is
not the final one, and not in the final one; `WithDatum` returns `nil` and
leaves the datum in the state `RECOVERED`. -/
theorem recovery_before_final_attempt :
    (newDatum inputNames setZero metaOne [withRecovery]).numRetries = 1 ∧
    ((datumAt (fun _ => okAttempt) (runCallback failsOnce recovers)
      (newDatum inputNames setZero metaOne [withRecovery]) 0).Run
        (failsOnce 0) (recovers 0)).recovered = true ∧
    ((datumAt (fun _ => okAttempt) (runCallback failsOnce recovers)
      (newDatum inputNames setZero metaOne [withRecovery]) 1).Run
        (failsOnce 1) (recovers 1)).recovered = false ∧
    (Set.WithDatum inputNames setZero metaOne (fun _ => okAttempt)
      (runCallback failsOnce recovers) [withRecovery]).calls = [0, 1] ∧
    (Set.WithDatum inputNames setZero metaOne (fun _ => okAttempt)
      (runCallback failsOnce recovers) [withRecovery]).err = none ∧
    (Set.WithDatum inputNames setZero metaOne (fun _ => okAttempt)
      (runCallback failsOnce recovers) [withRecovery]).meta.state = State.RECOVERED := by
  decide

/-- C16, amended.  For a callback that runs the transform through `Run`, in
every attempt of `WithDatum`: the recovery callback is called exactly when
the transform of that attempt fails and a recovery callback is set, whether
the attempt is the final one or not; the callback returns the error of the
transform; a call of the recovery callback that returns `nil` leaves the
datum in the state `RECOVERED`; and the callback leaves the datum in that
state only then, or when it was in it before. -/
theorem recovery_on_every_failure (w : Nat → Attempt) (transform recovery : Nat → Option GoError)
    (d : Datum) (i : Nat) :
    (((datumAt w (runCallback transform recovery) d i).Run (transform i)
        (recovery i)).recovered = true ↔
      transform i ≠ none ∧ d.recoveryCallback = true) ∧
    (runCallback transform recovery i (datumAt w (runCallback transform recovery) d i)).2 =
      transform i ∧
    (transform i ≠ none → d.recoveryCallback = true → recovery i = none →
      (runCallback transform recovery i
        (datumAt w (runCallback transform recovery) d i)).1.state = State.RECOVERED) ∧
    ((runCallback transform recovery i
        (datumAt w (runCallback transform recovery) d i)).1.state = State.RECOVERED →
      (datumAt w (runCallback transform recovery) d i).meta.state = State.RECOVERED ∨
        (transform i ≠ none ∧ d.recoveryCallback = true ∧ recovery i = none)) := by
  have hr := (datumAt_config w (runCallback transform recovery) d i).2.2.1
  generalize datumAt w (runCallback transform recovery) d i = di at hr
  cases ht : transform i with
  | none => simp [runCallback, Datum.Run, Datum.run, ht]
  | some e =>
    by_cases hc : d.recoveryCallback = true
    · cases hrec : recovery i with
      | none => simp [runCallback, Datum.Run, Datum.run, hr, hc, ht, hrec]
      | some e2 => simp [runCallback, Datum.Run, Datum.run, hr, hc, ht, hrec]
    · simp [runCallback, Datum.Run, Datum.run, hr, hc, ht]

theorem recovery_on_every_failure_witness :
    (runCallback failsOnce recovers 0 (datumAt (fun _ => okAttempt)
      (runCallback failsOnce recovers)
      (newDatum inputNames setZero metaOne [withRecovery]) 0)).1.state = State.RECOVERED :=
  (recovery_on_every_failure (fun _ => okAttempt) failsOnce recovers
    (newDatum inputNames setZero metaOne [withRecovery]) 0).2.2.1
    (by decide) (by decide) (by decide)

/-! ## C17: a datum counted twice -/

/-- C17, the code at the failing input: a datum whose callback succeeds in
every attempt and whose output cannot be uploaded in the first attempt.
`WithDatum` returns `nil` after the second attempt and has added two to
`Processed`. -/
theorem WithDatum_counts_twice :
    (Set.WithDatum inputNames setZero metaOne outputFails passingCallback []).err = none ∧
    (Set.WithDatum inputNames setZero metaOne outputFails passingCallback []).calls = [0, 1] ∧
    setZero.stats.processed = 0 ∧
    (Set.WithDatum inputNames setZero metaOne outputFails passingCallback []).set.stats =
      ⟨2, 0, 0, ""⟩ := by
  decide

/-! ## C18: a failed datum -/

/-- C18, as stated, fails.  A datum with a recovery callback that succeeds,
whose callback fails in every attempt while the meta output is uploaded:
`WithDatum` returns `nil`, the state of the datum is `RECOVERED` and not
`FAILED`, its reason is empty, and `Failed` and `FailedID` are as they
were. -/
theorem WithDatum_recovered_not_failed :
    (∀ i d, (runCallback failsAlways recovers i d).2 = some (GoError.msg "exit status 1")) ∧
    (newDatum inputNames setZero metaOne [withRecovery]).uploadMetaOutput okAttempt = none ∧
    (Set.WithDatum inputNames setZero metaOne (fun _ => okAttempt)
      (runCallback failsAlways recovers) [withRecovery]).err = none ∧
    (Set.WithDatum inputNames setZero metaOne (fun _ => okAttempt)
      (runCallback failsAlways recovers) [withRecovery]).meta =
      ⟨metaOne.inputs, State.RECOVERED, ""⟩ ∧
    (Set.WithDatum inputNames setZero metaOne (fun _ => okAttempt)
      (runCallback failsAlways recovers) [withRecovery]).set.stats = ⟨0, 0, 1, ""⟩ := by
  refine ⟨?_, by decide, by decide, by decide, by decide⟩
  intro i d
  simp only [runCallback, Datum.Run, Datum.run, failsAlways]
  split <;> split <;> try split
  all_goals rfl

/-- C18, amended.  When the callback fails on every attempt, leaves the
datum in a state other than `RECOVERED` in the final attempt, and the final
attempt sets up its data, uploads the meta output, merges the statistics and
removes its directory, `WithDatum` returns `nil`, the state of the datum is
`FAILED` and its reason the message of the last error, `Failed` has grown by
one, `FailedID` is the ID of the datum when it was empty and otherwise as it
was, and `Processed` and `Recovered` are as they were. -/
theorem WithDatum_records_failure (DatumID : List Input → String) (s : Set) (meta : Meta)
    (w : Nat → Attempt) (cb : Nat → Datum → Meta × Option GoError) (opts : List (Datum → Datum))
    (n : Nat) (e : GoError) (hn : (newDatum DatumID s meta opts).numRetries = n)
    (hcb : ∀ i d, (cb i d).2 ≠ none)
    (he : (cb n (datumAt w cb (newDatum DatumID s meta opts) n)).2 = some e)
    (hs : (cb n (datumAt w cb (newDatum DatumID s meta opts) n)).1.state ≠ State.RECOVERED)
    (hw : (w n).mkdir = none ∧ (w n).download = none)
    (hup : (newDatum DatumID s meta opts).uploadMetaOutput (w n) = none)
    (hmerge : (w n).merge = none) (hrm : (w n).removeAll = none) :
    (Set.WithDatum DatumID s meta w cb opts).err = none ∧
    (Set.WithDatum DatumID s meta w cb opts).meta.state = State.FAILED ∧
    (Set.WithDatum DatumID s meta w cb opts).meta.reason = e.Error ∧
    (Set.WithDatum DatumID s meta w cb opts).set.stats.failed =
      (newDatum DatumID s meta opts).set.stats.failed + 1 ∧
    (Set.WithDatum DatumID s meta w cb opts).set.stats.failedID =
      (if (newDatum DatumID s meta opts).set.stats.failedID = ""
        then (newDatum DatumID s meta opts).ID
        else (newDatum DatumID s meta opts).set.stats.failedID) ∧
    (Set.WithDatum DatumID s meta w cb opts).set.stats.processed =
      (newDatum DatumID s meta opts).set.stats.processed ∧
    (Set.WithDatum DatumID s meta w cb opts).set.stats.recovered =
      (newDatum DatumID s meta opts).set.stats.recovered := by
  have hm : ((newDatum DatumID s meta opts).numRetries + 1).toNat = n + 1 := by
    rw [hn]; omega
  have hcfg := datumAt_config w cb (newDatum DatumID s meta opts) n
  have hset := datumAt_set_of_fail w cb (newDatum DatumID s meta opts) hcb n (by rw [hn])
  have hfin : (n : Int) = (datumAt w cb (newDatum DatumID s meta opts) n).numRetries := by
    rw [hcfg.1, hn]
  have hup2 : ∀ d1 : Datum,
      d1.set.metaOutputClient = (newDatum DatumID s meta opts).set.metaOutputClient →
      d1.uploadMetaOutput (w n) = none := by
    intro d1 h
    rw [← hup]
    simp only [Datum.uploadMetaOutput, h]
  have hatt : attemptAt w cb (newDatum DatumID s meta opts) n =
      ⟨Datum.handleFailed { datumAt w cb (newDatum DatumID s meta opts) n with
        meta := (cb n (datumAt w cb (newDatum DatumID s meta opts) n)).1 } e, none, true⟩ := by
    simp only [attemptAt, Datum.withData, hw.1, hw.2, attemptCallback, he, hfin, or_true, if_true,
      Datum.finish]
    rw [hup2]
    · simp [hmerge, hrm]
    · exact ((handleFailed_config _ e).2.2.2.2.1).trans hcfg.2.2.2.2.1
  obtain ⟨h1, h2, h3, _⟩ := withDatumLoop_first_nil w cb (newDatum DatumID s meta opts) (n + 1)
    0 n none [] (Nat.zero_le n) (by omega)
    (fun j _ hj => attemptAt_fails w cb _ hcb j (by rw [hn]; omega))
    (by rw [hatt])
  simp only [Set.WithDatum, hm]
  have hd0 : datumAt w cb (newDatum DatumID s meta opts) 0 = newDatum DatumID s meta opts := rfl
  rw [hd0] at h1 h2 h3
  rw [h2, h3, hatt]
  refine ⟨h1, ?_⟩
  simp only [Datum.handleFailed, hs, if_false, hset, hcfg.2.1]
  by_cases hf : (newDatum DatumID s meta opts).set.stats.failedID = "" <;> simp [hf]

theorem WithDatum_records_failure_witness :
    (Set.WithDatum inputNames setZero metaOne (fun _ => okAttempt) failingCallback []).err =
      none ∧
    (Set.WithDatum inputNames setZero metaOne (fun _ => okAttempt)
      failingCallback []).meta.state = State.FAILED ∧
    (Set.WithDatum inputNames setZero metaOne (fun _ => okAttempt)
      failingCallback []).meta.reason = "exit status 1" ∧
    (Set.WithDatum inputNames setZero metaOne (fun _ => okAttempt)
      failingCallback []).set.stats.failed = 0 + 1 := by
  have h := WithDatum_records_failure inputNames setZero metaOne (fun _ => okAttempt)
    failingCallback [] 3 (GoError.msg "exit status 1") (by decide)
    (fun _ _ => by simp [failingCallback]) (by decide) (by decide) (by decide) (by decide)
    (by decide) (by decide)
  exact ⟨h.1, h.2.1, h.2.2.1, h.2.2.2.1⟩

/-! ## C19: the sets of `CreateSets` are the datums -/

/-- C19. When no upload fails, `CreateSets` returns `nil`; when it returns
`nil`, the lists passed to `createSet`, one after the other, are the datums
of the iterator in their order.  No list passed to `createSet` is empty, and
for an iterator without datums `createSet` is not called. -/
theorem CreateSets_partitions (dit : List Meta) (setSpec : SetSpec)
    (upload : Nat → List Meta → Option GoError) :
    ((∀ k metas, upload k metas = none) → (CreateSets dit setSpec upload).2 = none) ∧
    ((CreateSets dit setSpec upload).2 = none →
      (CreateSets dit setSpec upload).1.flatten = dit) ∧
    (∀ set ∈ (CreateSets dit setSpec upload).1, set ≠ []) ∧
    CreateSets [] setSpec upload = ([], none) := by
  obtain ⟨h1, _, _, h4, h5⟩ := CreateSets_sets dit setSpec upload
  exact ⟨h5, h4, h1, by simp [CreateSets, Iterate]⟩

theorem CreateSets_partitions_witness :
    (CreateSets fiveMetas ⟨2, 0⟩ uploadOk).2 = none ∧
    (CreateSets fiveMetas ⟨2, 0⟩ uploadOk).1.flatten = fiveMetas :=
  ⟨(CreateSets_partitions fiveMetas ⟨2, 0⟩ uploadOk).1 (fun _ _ => rfl),
    (CreateSets_partitions fiveMetas ⟨2, 0⟩ uploadOk).2.1
      ((CreateSets_partitions fiveMetas ⟨2, 0⟩ uploadOk).1 (fun _ _ => rfl))⟩

/-! ## C20: where `CreateSets` closes a set -/

theorem ClosedSet_open (setSpec : SetSpec) (set : List Meta) (h : ClosedSet setSpec set) :
    OpenSet setSpec set := by
  unfold ClosedSet at h
  unfold OpenSet
  by_cases hn : setSpec.Number > 0
  · simp only [hn, if_true] at h ⊢
    omega
  · by_cases hs : setSpec.SizeBytes > 0
    · simp only [hn, if_false, hs, if_true] at h ⊢
      exact h.2
    · simp only [hn, if_false, hs] at h ⊢
      omega

theorem PendingSet_open (setSpec : SetSpec) (f : ShouldCreateSet) (set : List Meta)
    (h : PendingSet setSpec f set) : OpenSet setSpec set := by
  unfold PendingSet at h
  unfold OpenSet
  by_cases hn : setSpec.Number > 0
  · simp only [hn, if_true] at h ⊢
    omega
  · by_cases hs : setSpec.SizeBytes > 0
    · simp only [hn, if_false, hs, if_true] at h ⊢
      exact fun k hk => h.2 k (by omega)
    · simp only [hn, if_false, hs] at h ⊢
      rw [h.2]
      simp

/-- A closed set is no shorter beginning of a set that is not closed before
its last datum. -/
theorem ClosedSet_not_shorter (setSpec : SetSpec) (a c : List Meta) (hc : c ≠ [])
    (ha : ClosedSet setSpec a) (hb : OpenSet setSpec (a ++ c)) : False := by
  have hlen : 0 < c.length := List.length_pos.mpr hc
  unfold ClosedSet at ha
  unfold OpenSet at hb
  by_cases hn : setSpec.Number > 0
  · simp only [hn, if_true, List.length_append, Nat.cast_add] at ha hb
    omega
  · by_cases hs : setSpec.SizeBytes > 0
    · simp only [hn, if_false, hs, if_true] at ha hb
      have := hb a.length (by simp only [List.length_append]; omega)
      rw [List.take_left] at this
      omega
    · simp only [hn, if_false, hs, List.length_append] at ha hb
      omega

/-- The datums of an iterator are split in one way only into sets that are
not empty, closed but for the last, and none closed before its last
datum. -/
theorem split_unique (setSpec : SetSpec) : ∀ (l1 l2 : List (List Meta)),
    l1.flatten = l2.flatten →
    (∀ set ∈ l1, set ≠ [] ∧ OpenSet setSpec set) → (∀ set ∈ l1.dropLast, ClosedSet setSpec set) →
    (∀ set ∈ l2, set ≠ [] ∧ OpenSet setSpec set) → (∀ set ∈ l2.dropLast, ClosedSet setSpec set) →
    l1 = l2 := by
  intro l1
  induction l1 with
  | nil =>
    intro l2 hf _ _ h2 _
    cases l2 with
    | nil => rfl
    | cons b r2 =>
      have hb := (h2 b (List.mem_cons_self _ _)).1
      simp only [List.flatten_nil, List.flatten_cons] at hf
      have := (List.append_eq_nil.mp hf.symm).1
      exact absurd this hb
  | cons a r1 ih =>
    intro l2 hf h1 c1 h2 c2
    cases l2 with
    | nil =>
      have ha := (h1 a (List.mem_cons_self _ _)).1
      simp only [List.flatten_nil, List.flatten_cons] at hf
      exact absurd (List.append_eq_nil.mp hf).1 ha
    | cons b r2 =>
      simp only [List.flatten_cons] at hf
      have hfirst : ∀ (a b : List Meta) (r1 r2 : List (List Meta)) (c : List Meta),
          b = a ++ c → r1.flatten = c ++ r2.flatten →
          (∀ set ∈ r1, set ≠ []) → (∀ set ∈ (a :: r1).dropLast, ClosedSet setSpec set) →
          OpenSet setSpec b → c = [] := by
        intro a b r1 r2 c hb hr hne hcl hop
        by_contra hc
        have hr1 : r1 ≠ [] := by
          intro h
          rw [h] at hr
          simp only [List.flatten_nil] at hr
          exact hc (List.append_eq_nil.mp hr.symm).1
        have hacl : ClosedSet setSpec a := by
          apply hcl
          rw [List.dropLast_cons_of_ne_nil hr1]
          exact List.mem_cons_self _ _
        rw [hb] at hop
        exact ClosedSet_not_shorter setSpec a c hc hacl hop
      have hab : a = b ∧ r1.flatten = r2.flatten := by
        rcases List.append_eq_append_iff.mp hf with ⟨c, hb, hr⟩ | ⟨c, ha, hr⟩
        · have hc := hfirst a b r1 r2 c hb hr
            (fun set h => (h1 set (List.mem_cons_of_mem _ h)).1) c1
            (h2 b (List.mem_cons_self _ _)).2
          subst hc
          simp only [List.append_nil, List.nil_append] at hb hr
          exact ⟨hb.symm, hr⟩
        · have hc := hfirst b a r2 r1 c ha hr
            (fun set h => (h2 set (List.mem_cons_of_mem _ h)).1) c2
            (h1 a (List.mem_cons_self _ _)).2
          subst hc
          simp only [List.append_nil, List.nil_append] at ha hr
          exact ⟨ha, hr.symm⟩
      obtain ⟨e1, e2⟩ := hab
      subst e1
      have hdrop : ∀ (a : List Meta) (r : List (List Meta)),
          (∀ set ∈ (a :: r).dropLast, ClosedSet setSpec set) →
          ∀ set ∈ r.dropLast, ClosedSet setSpec set := by
        intro a r h set hset
        apply h
        cases r with
        | nil => simp at hset
        | cons x xs =>
          rw [List.dropLast_cons_of_ne_nil (by simp)]
          exact List.mem_cons_of_mem _ hset
      rw [ih r2 e2 (fun set h => h1 set (List.mem_cons_of_mem _ h)) (hdrop a r1 c1)
        (fun set h => h2 set (List.mem_cons_of_mem _ h)) (hdrop a r2 c2)]

/-- When no upload fails, the sets that `CreateSets` creates are the one
split of the datums into sets that are closed but for the last. -/
theorem CreateSets_unique (dit : List Meta) (setSpec : SetSpec)
    (upload : Nat → List Meta → Option GoError) (hup : ∀ k metas, upload k metas = none)
    (sets : List (List Meta)) (hflat : sets.flatten = dit)
    (hopen : ∀ set ∈ sets, set ≠ [] ∧ OpenSet setSpec set)
    (hclosed : ∀ set ∈ sets.dropLast, ClosedSet setSpec set) :
    (CreateSets dit setSpec upload).1 = sets := by
  obtain ⟨h1, h2, h3, h4, h5⟩ := CreateSets_sets dit setSpec upload
  refine split_unique setSpec _ _ ((h4 (h5 hup)).trans hflat.symm) ?_ h2 hopen hclosed
  intro set hset
  refine ⟨h1 set hset, ?_⟩
  rcases h3 set hset with h | ⟨f, h⟩
  · exact ClosedSet_open setSpec set h
  · exact PendingSet_open setSpec f set h

theorem flatten_singletons (dit : List Meta) : (dit.map (fun meta => [meta])).flatten = dit := by
  induction dit with
  | nil => rfl
  | cons meta dit ih => simp [ih]

/-- C20. With `Number = n > 0`, every list passed to `createSet` but the
last has `n` datums, and the last has between 1 and `n`.  Otherwise, with
`SizeBytes = s > 0`, the sizes of the inputs being added up in `int64` as
`shouldCreateSetFunc` does: every list but the last has a sum of at least
`s`, and in every list each shorter beginning, the list without its last
datum among them, has a sum below `s`.  With neither positive every list
has one datum.  Below `2 ^ 63` the sum in `int64` is the sum of the sizes.
When no upload fails, `CreateSets` returns `nil` and the lists, one after the
other, are the datums of the iterator, so that every datum is in a set; and
the lists are then the only split of the datums of that kind: with
`Number = n > 0` the only one into lists of `n` datums and a last one of 1
to `n`, whatever `SizeBytes` is; otherwise with `SizeBytes = s > 0` the only
one into lists that are not empty and reach `s` with their last datum, the
last list perhaps not at all; and with neither positive the datums one by
one. -/
theorem CreateSets_closes_sets (dit : List Meta) (setSpec : SetSpec)
    (upload : Nat → List Meta → Option GoError) :
    (setSpec.Number > 0 →
      (∀ set ∈ (CreateSets dit setSpec upload).1.dropLast,
        (set.length : Int) = setSpec.Number) ∧
      (∀ set ∈ (CreateSets dit setSpec upload).1,
        1 ≤ set.length ∧ (set.length : Int) ≤ setSpec.Number)) ∧
    (setSpec.Number ≤ 0 → setSpec.SizeBytes > 0 →
      (∀ set ∈ (CreateSets dit setSpec upload).1.dropLast, setSpec.SizeBytes ≤ setSize set) ∧
      (∀ set ∈ (CreateSets dit setSpec upload).1, ∀ k, k < set.length →
        setSize (set.take k) < setSpec.SizeBytes)) ∧
    (setSpec.Number ≤ 0 → setSpec.SizeBytes ≤ 0 →
      ∀ set ∈ (CreateSets dit setSpec upload).1, set.length = 1) ∧
    (∀ metas, totalSize metas < 2 ^ 63 → setSize metas = totalSize metas) ∧
    ((∀ k metas, upload k metas = none) →
      (CreateSets dit setSpec upload).2 = none ∧
      (CreateSets dit setSpec upload).1.flatten = dit ∧
      ∀ set ∈ (CreateSets dit setSpec upload).1, set ≠ []) ∧
    (setSpec.Number > 0 → (∀ k metas, upload k metas = none) →
      ∀ sets : List (List Meta), sets.flatten = dit →
      (∀ set ∈ sets.dropLast, (set.length : Int) = setSpec.Number) →
      (∀ set ∈ sets, 1 ≤ set.length ∧ (set.length : Int) ≤ setSpec.Number) →
      (CreateSets dit setSpec upload).1 = sets) ∧
    (setSpec.Number ≤ 0 → setSpec.SizeBytes > 0 → (∀ k metas, upload k metas = none) →
      ∀ sets : List (List Meta), sets.flatten = dit →
      (∀ set ∈ sets.dropLast, setSpec.SizeBytes ≤ setSize set) →
      (∀ set ∈ sets, 1 ≤ set.length ∧
        ∀ k, k < set.length → setSize (set.take k) < setSpec.SizeBytes) →
      (CreateSets dit setSpec upload).1 = sets) ∧
    (setSpec.Number ≤ 0 → setSpec.SizeBytes ≤ 0 → (∀ k metas, upload k metas = none) →
      (CreateSets dit setSpec upload).1 = dit.map (fun meta => [meta])) ∧
    (setSpec.Number > 0 → (∀ k metas, upload k metas = none) →
      (CreateSets dit setSpec upload).1 = (CreateSets dit ⟨setSpec.Number, 0⟩ upload).1) := by
  obtain ⟨h1, h2, h3, h4, h5⟩ := CreateSets_sets dit setSpec upload
  have hpos : ∀ set ∈ (CreateSets dit setSpec upload).1, 1 ≤ set.length := by
    intro set hset
    have := h1 set hset
    cases set with
    | nil => exact absurd rfl this
    | cons x xs => simp
  have hne : ∀ set : List Meta, 1 ≤ set.length → set ≠ [] := by
    intro set h e
    rw [e] at h
    simp at h
  have hnum : setSpec.Number > 0 →
      (∀ set ∈ (CreateSets dit setSpec upload).1.dropLast,
        (set.length : Int) = setSpec.Number) ∧
      (∀ set ∈ (CreateSets dit setSpec upload).1,
        1 ≤ set.length ∧ (set.length : Int) ≤ setSpec.Number) := by
    intro hn
    refine ⟨?_, ?_⟩
    · intro set hset
      simpa [ClosedSet, hn] using h2 set hset
    · intro set hset
      refine ⟨hpos set hset, ?_⟩
      rcases h3 set hset with h | ⟨f, h⟩
      · simp only [ClosedSet, hn, if_true] at h
        omega
      · simp only [PendingSet, hn, if_true] at h
        omega
  refine ⟨hnum, ?_, ?_, setSize_eq_totalSize, ?_, ?_, ?_, ?_, ?_⟩
  · intro hn hs
    have hn2 : ¬ setSpec.Number > 0 := by omega
    refine ⟨?_, ?_⟩
    · intro set hset
      have := h2 set hset
      simp only [ClosedSet, hn2, if_false, hs, if_true] at this
      exact this.1
    · intro set hset k hk
      rcases h3 set hset with h | ⟨f, h⟩
      · simp only [ClosedSet, hn2, if_false, hs, if_true] at h
        exact h.2 k hk
      · simp only [PendingSet, hn2, if_false, hs, if_true] at h
        exact h.2 k (by omega)
  · intro hn hs set hset
    have hn2 : ¬ setSpec.Number > 0 := by omega
    have hs2 : ¬ setSpec.SizeBytes > 0 := by omega
    rcases h3 set hset with h | ⟨f, h⟩
    · simpa [ClosedSet, hn2, hs2] using h
    · simp only [PendingSet, hn2, if_false, hs2] at h
      exact absurd h.2 (h1 set hset)
  · intro hup
    exact ⟨h5 hup, h4 (h5 hup), h1⟩
  · intro hn hup sets hflat hclosed hopen
    refine CreateSets_unique dit setSpec upload hup sets hflat ?_ ?_
    · intro set hset
      refine ⟨hne set (hopen set hset).1, ?_⟩
      simp only [OpenSet, hn, if_true]
      exact (hopen set hset).2
    · intro set hset
      simp only [ClosedSet, hn, if_true]
      exact hclosed set hset
  · intro hn hs hup sets hflat hclosed hopen
    have hn2 : ¬ setSpec.Number > 0 := by omega
    refine CreateSets_unique dit setSpec upload hup sets hflat ?_ ?_
    · intro set hset
      refine ⟨hne set (hopen set hset).1, ?_⟩
      simp only [OpenSet, hn2, if_false, hs, if_true]
      exact (hopen set hset).2
    · intro set hset
      simp only [ClosedSet, hn2, if_false, hs, if_true]
      exact ⟨hclosed set hset, (hopen set (List.mem_of_mem_dropLast hset)).2⟩
  · intro hn hs hup
    have hn2 : ¬ setSpec.Number > 0 := by omega
    have hs2 : ¬ setSpec.SizeBytes > 0 := by omega
    have hmem : ∀ set ∈ dit.map (fun meta => [meta]), set.length = 1 := by
      intro set hset
      obtain ⟨meta, _, rfl⟩ := List.mem_map.mp hset
      rfl
    refine CreateSets_unique dit setSpec upload hup _ (flatten_singletons dit) ?_ ?_
    · intro set hset
      refine ⟨hne set (by rw [hmem set hset]), ?_⟩
      simp only [OpenSet, hn2, if_false, hs2]
      rw [hmem set hset]
    · intro set hset
      simp only [ClosedSet, hn2, if_false, hs2]
      exact hmem set (List.mem_of_mem_dropLast hset)
  · intro hn hup
    obtain ⟨g1, g2, g3, g4, g5⟩ := CreateSets_sets dit ⟨setSpec.Number, 0⟩ upload
    refine CreateSets_unique dit setSpec upload hup _ (g4 (g5 hup)) ?_ ?_
    · intro set hset
      refine ⟨g1 set hset, ?_⟩
      rcases g3 set hset with h | ⟨f, h⟩
      · simp only [ClosedSet, hn, if_true] at h
        simp only [OpenSet, hn, if_true]
        omega
      · simp only [PendingSet, hn, if_true] at h
        simp only [OpenSet, hn, if_true]
        omega
    · intro set hset
      have := g2 set hset
      simp only [ClosedSet, hn, if_true] at this
      simp only [ClosedSet, hn, if_true]
      exact this

theorem CreateSets_closes_sets_witness :
    ((∀ set ∈ (CreateSets fiveMetas ⟨0, 4⟩ uploadOk).1.dropLast, (4 : Int) ≤ setSize set) ∧
      (∀ set ∈ (CreateSets fiveMetas ⟨0, 4⟩ uploadOk).1, ∀ k, k < set.length →
        setSize (set.take k) < 4)) ∧
    (CreateSets fiveMetas ⟨2, 0⟩ uploadOk).1 =
      [[metaSized 1, metaSized 2], [metaSized 3, metaSized 4], [metaSized 5]] ∧
    (CreateSets fiveMetas ⟨0, 4⟩ uploadOk).1 =
      [[metaSized 1, metaSized 2, metaSized 3], [metaSized 4], [metaSized 5]] ∧
    (CreateSets fiveMetas ⟨0, 0⟩ uploadOk).1 =
      [[metaSized 1], [metaSized 2], [metaSized 3], [metaSized 4], [metaSized 5]] ∧
    ((∀ set ∈ (CreateSets fiveMetas ⟨2, 7⟩ uploadOk).1.dropLast, (set.length : Int) = 2) ∧
      (∀ set ∈ (CreateSets fiveMetas ⟨2, 7⟩ uploadOk).1,
        1 ≤ set.length ∧ (set.length : Int) ≤ 2)) ∧
    ((CreateSets fiveMetas ⟨2, 7⟩ uploadOk).2 = none ∧
      (CreateSets fiveMetas ⟨2, 7⟩ uploadOk).1.flatten = fiveMetas ∧
      ∀ set ∈ (CreateSets fiveMetas ⟨2, 7⟩ uploadOk).1, set ≠ []) ∧
    (CreateSets fiveMetas ⟨2, 7⟩ uploadOk).1 = (CreateSets fiveMetas ⟨2, 0⟩ uploadOk).1 :=
  ⟨(CreateSets_closes_sets fiveMetas ⟨0, 4⟩ uploadOk).2.1 (by decide) (by decide),
    (CreateSets_closes_sets fiveMetas ⟨2, 0⟩ uploadOk).2.2.2.2.2.1 (by decide) (fun _ _ => rfl)
      [[metaSized 1, metaSized 2], [metaSized 3, metaSized 4], [metaSized 5]] rfl
      (by decide) (by decide),
    (CreateSets_closes_sets fiveMetas ⟨0, 4⟩ uploadOk).2.2.2.2.2.2.1 (by decide) (by decide)
      (fun _ _ => rfl)
      [[metaSized 1, metaSized 2, metaSized 3], [metaSized 4], [metaSized 5]] rfl
      (by
        intro set hset
        simp only [List.dropLast, List.mem_cons, List.mem_singleton, List.not_mem_nil,
          or_false] at hset
        rcases hset with rfl | rfl <;> simp [setSize, addInputSizes, toInt64, metaSized])
      (by
        intro set hset
        simp only [List.mem_cons, List.mem_singleton, List.not_mem_nil, or_false] at hset
        rcases hset with rfl | rfl | rfl
        · refine ⟨by decide, ?_⟩
          intro k hk
          have : k = 0 ∨ k = 1 ∨ k = 2 := by simp at hk; omega
          rcases this with rfl | rfl | rfl <;> simp [setSize, addInputSizes, toInt64, metaSized]
        · refine ⟨by decide, ?_⟩
          intro k hk
          have : k = 0 := by simp at hk; omega
          subst this
          simp [setSize]
        · refine ⟨by decide, ?_⟩
          intro k hk
          have : k = 0 := by simp at hk; omega
          subst this
          simp [setSize]),
    (CreateSets_closes_sets fiveMetas ⟨0, 0⟩ uploadOk).2.2.2.2.2.2.2.1 (by decide) (by decide)
      (fun _ _ => rfl),
    (CreateSets_closes_sets fiveMetas ⟨2, 7⟩ uploadOk).1 (by decide),
    (CreateSets_closes_sets fiveMetas ⟨2, 7⟩ uploadOk).2.2.2.2.1 (fun _ _ => rfl),
    (CreateSets_closes_sets fiveMetas ⟨2, 7⟩ uploadOk).2.2.2.2.2.2.2.2 (by decide)
      (fun _ _ => rfl)⟩

/-! ## The memory account of the unordered writer -/

theorem bufferBytes_append (a b : List BufferCall) :
    bufferBytes (a ++ b) = bufferBytes a + bufferBytes b := by
  induction a with
  | nil => simp [bufferBytes]
  | cons c rest ih =>
    cases c <;> simp [bufferBytes, ih]
    omega

/-- A call of `withWriter` that returns `nil` has emptied the buffer, reset
the memory available to the threshold and added one id. -/
theorem withWriter_nil (fs : Fileset) (uw uw1 : UnorderedWriter) (cb : Option GoError)
    (h : uw.withWriter fs cb = (uw1, none)) :
    uw1.memAvailable = uw.memThreshold ∧ uw1.memThreshold = uw.memThreshold ∧ uw1.buffer = [] ∧
      uw1.ids.length = uw.ids.length + 1 ∧ uw1.renewer = uw.renewer ∧
      uw1.validator = uw.validator := by
  unfold UnorderedWriter.withWriter at h
  cases cb with
  | some e => simp at h
  | none =>
    cases hc : fs.close uw.ids with
    | error e => simp [hc] at h
    | ok id =>
      simp only [hc] at h
      split at h
      · simp at h
      · simp only [Prod.mk.injEq, and_true] at h
        subst h
        simp

/-- A call of `serialize` that returns `nil` has either found the buffer
empty and changed nothing, or written the buffer out through `withWriter`. -/
theorem serialize_nil (fs : Fileset) (uw uw1 : UnorderedWriter)
    (h : uw.serialize fs = (uw1, none)) :
    (uw.buffer = [] ∧ uw1 = uw) ∨
      (uw.buffer ≠ [] ∧ uw1.memAvailable = uw.memThreshold ∧
        uw1.memThreshold = uw.memThreshold ∧ uw1.buffer = [] ∧
        uw1.ids.length = uw.ids.length + 1 ∧ uw1.renewer = uw.renewer ∧
        uw1.validator = uw.validator) := by
  unfold UnorderedWriter.serialize at h
  by_cases hb : uw.buffer = []
  · left
    simp only [hb, List.isEmpty_nil, if_true, Prod.mk.injEq, and_true] at h
    exact ⟨hb, h.symm⟩
  · right
    have hne : uw.buffer.isEmpty = false := by
      cases hbuf : uw.buffer with
      | nil => exact absurd hbuf hb
      | cons c rest => rfl
    simp only [hne, Bool.false_eq_true, if_false] at h
    exact ⟨hb, withWriter_nil fs uw uw1 _ h⟩

/-- When `n` bytes are asked for, `0 <= n`, and the reader has them,
`io.CopyN` copies them and returns `nil`. -/
theorem CopyN_enough (r : Reader) (n : Int) (h0 : 0 ≤ n) (hn : n ≤ (r.data.length : Int)) :
    CopyN r n = (r.data.take n.toNat, { r with data := r.data.drop n.toNat }, none) := by
  unfold CopyN
  by_cases hz : n ≤ 0
  · have : n = 0 := le_antisymm hz h0
    subst this
    simp
  · simp [hz, hn]

/-- When more bytes are asked for than the reader has, `io.CopyN` copies what
there is and returns the error of the reader. -/
theorem CopyN_short (r : Reader) (n : Int) (hn : (r.data.length : Int) < n) :
    CopyN r n = (r.data, { r with data := [] }, some (r.err.getD GoError.EOF)) := by
  unfold CopyN
  have h1 : ¬ n ≤ 0 := by omega
  have h2 : ¬ n ≤ (r.data.length : Int) := by omega
  simp [h1, h2]

theorem ediv_step (x T : Int) (hT : 0 < T) (hx : 0 ≤ x) :
    x / T = if x < T then 0 else 1 + (x - T) / T := by
  split
  · exact Int.ediv_eq_zero_of_lt hx (by assumption)
  · have h : x = (x - T) + 1 * T := by ring
    conv_lhs => rw [h]
    rw [Int.add_mul_ediv_right _ _ (ne_of_gt hT)]
    ring

/-- A run of the loop of `Put` that returns `nil` keeps the memory account,
leaves memory available, and has written one file set each time the memory
available reached zero. -/
theorem putLoop_nil (fs : Fileset) (p datum : String) (T : Int) (hT : 0 ≤ T) :
    ∀ (fuel : Nat) (uw uw1 : UnorderedWriter) (r : Reader),
      MemInv T uw → putLoop fs p datum fuel uw r = (uw1, Ret.nil) →
      MemInv T uw1 ∧ 0 < T ∧ 0 < uw1.memAvailable ∧
      (uw1.ids.length : Int) = uw.ids.length +
        (if (r.data.length : Int) < uw.memAvailable then 0
          else 1 + ((r.data.length : Int) - uw.memAvailable) / T) ∧
      uw1.renewer = uw.renewer ∧ uw1.validator = uw.validator := by
  intro fuel
  induction fuel with
  | zero => intro uw uw1 r _ h; simp [putLoop] at h
  | succ fuel ih =>
    intro uw uw1 r hinv h
    obtain ⟨hthr, h0, hle, hacc⟩ := hinv
    rw [putLoop] at h
    by_cases hL : (r.data.length : Int) < uw.memAvailable
    · rw [CopyN_short r _ hL] at h
      simp only [] at h
      split at h
      · simp only [Prod.mk.injEq, and_true] at h
        subst h
        simp only [hL, if_true, add_zero, and_true, true_and]
        refine ⟨⟨hthr, by dsimp only; omega, by dsimp only; omega, ?_⟩, by omega, by omega⟩
        simp only [bufferBytes_append, bufferBytes]
        push_cast
        omega
      · simp at h
    · have hLe : uw.memAvailable ≤ (r.data.length : Int) := by omega
      rw [CopyN_enough r _ h0 hLe] at h
      have hlen : ((List.take uw.memAvailable.toNat r.data).length : Int) = uw.memAvailable := by
        rw [List.length_take]
        omega
      simp only [hlen, sub_self, if_true] at h
      split at h
      · simp at h
      · rename_i uw2 hser
        rcases serialize_nil fs _ uw2 hser with ⟨hb, _⟩ | ⟨_, h1, h2, h3, h4, h5, h6⟩
        · simp at hb
        · simp only [] at h1 h2 h3 h4 h5 h6
          have hinv3 : MemInv T { uw2 with buffer := uw2.buffer ++ [BufferCall.add p datum] } := by
            refine ⟨by simp [h2, hthr], by simp [h1, hthr, hT], by simp [h1, hthr], ?_⟩
            simp [h1, hthr, h3, bufferBytes]
          obtain ⟨g1, g2, g3, g4, g5, g6⟩ := ih _ uw1 _ hinv3 h
          refine ⟨g1, g2, g3, ?_, by simpa [h5] using g5, by simpa [h6] using g6⟩
          simp only [h1, hthr, h4, List.length_drop] at g4
          rw [g4]
          simp only [hL, if_false]
          have hx : (0 : Int) ≤ (r.data.length : Int) - uw.memAvailable := by omega
          rw [ediv_step _ T g2 hx]
          have hd : ((r.data.length - uw.memAvailable.toNat : Nat) : Int) =
              (r.data.length : Int) - uw.memAvailable := by omega
          rw [hd]
          push_cast
          split <;> ring

/-- What every call of the callback keeps, `forEach` keeps. -/
theorem forEach_keeps {α : Type} (R : UnorderedWriter → UnorderedWriter → Prop)
    (hrefl : ∀ uw, R uw uw) (htrans : ∀ a b c, R a b → R b c → R a c)
    (cb : UnorderedWriter → α → UnorderedWriter × Ret) (hcb : ∀ uw x, R uw (cb uw x).1) :
    ∀ (xs : List α) (uw : UnorderedWriter), R uw (forEach cb xs uw).1 := by
  intro xs
  induction xs with
  | nil => intro uw; exact hrefl uw
  | cons x xs ih =>
    intro uw
    simp only [forEach]
    have h1 := hcb uw x
    split
    · rename_i uw1 heq
      rw [heq] at h1
      exact htrans _ _ _ h1 (ih uw1)
    · rename_i uw1 ret _ heq
      rw [heq] at h1
      exact h1

/-- The method `Delete` changes neither the memory available, nor the
threshold, nor the ids, nor the bytes in the buffer. -/
theorem Delete_keeps (fs : Fileset) : ∀ (fuel : Nat) (uw : UnorderedWriter) (p datum : String),
    (UnorderedWriter.Delete fs fuel uw p datum).1.memAvailable = uw.memAvailable ∧
    (UnorderedWriter.Delete fs fuel uw p datum).1.memThreshold = uw.memThreshold ∧
    (UnorderedWriter.Delete fs fuel uw p datum).1.ids = uw.ids ∧
    bufferBytes (UnorderedWriter.Delete fs fuel uw p datum).1.buffer = bufferBytes uw.buffer := by
  intro fuel
  induction fuel with
  | zero => intro uw p datum; simp [UnorderedWriter.Delete]
  | succ fuel ih =>
    intro uw p datum
    simp only [UnorderedWriter.Delete]
    split
    · simp
    · split
      · split
        · simp [bufferBytes_append, bufferBytes]
        · split
          · simp [bufferBytes_append, bufferBytes]
          · rename_i files _
            have h := forEach_keeps
              (fun a b => b.memAvailable = a.memAvailable ∧ b.memThreshold = a.memThreshold ∧
                b.ids = a.ids ∧ bufferBytes b.buffer = bufferBytes a.buffer)
              (fun _ => ⟨rfl, rfl, rfl, rfl⟩)
              (fun a b c h1 h2 => ⟨h2.1.trans h1.1, h2.2.1.trans h1.2.1, h2.2.2.1.trans h1.2.2.1,
                h2.2.2.2.trans h1.2.2.2⟩)
              (fun uw2 path => UnorderedWriter.Delete fs fuel uw2 path
                (if datum = "" then fs.DefaultFileDatum else datum))
              (fun uw2 path => ih uw2 path _) files
              { uw with buffer := uw.buffer ++ [BufferCall.delete (fs.Clean p (fs.IsDir p))
                (if datum = "" then fs.DefaultFileDatum else datum)] }
            simp only [bufferBytes_append, bufferBytes, add_zero] at h
            exact h
      · simp [bufferBytes_append, bufferBytes]

/-- A call of `Put` that returns `nil` keeps the memory account, and has
written one file set each time the memory available reached zero. -/
theorem Put_nil (fs : Fileset) (T : Int) (hT : 0 ≤ T) (fuel : Nat) (uw uw1 : UnorderedWriter)
    (p datum : String) (appendFile : Bool) (r : Reader) (hinv : MemInv T uw)
    (h : uw.Put fs fuel p datum appendFile r = (uw1, Ret.nil)) :
    MemInv T uw1 ∧ 0 < T ∧ 0 < uw1.memAvailable ∧
      (uw1.ids.length : Int) = uw.ids.length +
        (if (r.data.length : Int) < uw.memAvailable then 0
          else 1 + ((r.data.length : Int) - uw.memAvailable) / T) := by
  unfold UnorderedWriter.Put at h
  split at h
  · simp at h
  · have hinv2 : MemInv T { uw with buffer := (if appendFile = true then uw.buffer
        else uw.buffer ++ [BufferCall.delete p (if datum = "" then fs.DefaultFileDatum
          else datum)]) ++ [BufferCall.add p (if datum = "" then fs.DefaultFileDatum
          else datum)] } := by
      obtain ⟨a, b, c, d⟩ := hinv
      refine ⟨a, b, c, ?_⟩
      cases appendFile <;> simp [bufferBytes_append, bufferBytes, d]
    obtain ⟨g1, g2, g3, g4, _, _⟩ := putLoop_nil fs p _ T hT fuel _ uw1 r hinv2 h
    exact ⟨g1, g2, g3, g4⟩

/-- A call of `Copy` that returns `nil` has written the buffer out, when it
was not empty, and one more file set, whatever the memory available was. -/
theorem Copy_nil (fs : Fileset) (uw uw1 : UnorderedWriter)
    (iterate : String → Bool → Option GoError) (datum : String) (appendFile : Bool)
    (h : uw.Copy fs iterate datum appendFile = (uw1, Ret.nil)) :
    uw1.memAvailable = uw.memThreshold ∧ uw1.memThreshold = uw.memThreshold ∧ uw1.buffer = [] ∧
      uw1.ids.length = uw.ids.length + (if uw.buffer = [] then 1 else 2) := by
  unfold UnorderedWriter.Copy at h
  split at h
  · simp at h
  · rename_i uw2 hser
    simp only [] at h
    split at h
    · simp at h
    · rename_i uw3 hw
      simp only [Prod.mk.injEq, and_true] at h
      subst h
      obtain ⟨w1, w2, w3, w4, _, _⟩ := withWriter_nil fs uw2 uw3 _ hw
      rcases serialize_nil fs uw uw2 hser with ⟨hb, he⟩ | ⟨hb, s1, s2, s3, s4, _, _⟩
      · subst he
        simp [w1, w2, w3, w4, hb]
      · simp [w1, w2, w3, w4, hb, s2, s4]

/-- The writer that `newUnorderedWriter` returns has half of the threshold
given available, and an empty buffer. -/
theorem newUnorderedWriter_inv (m : Int) (hm : 0 ≤ m) (opts : List (UnorderedWriter → UnorderedWriter))
    (hopts : ∀ opt ∈ opts, KeepsMemory opt) (uw : UnorderedWriter)
    (h : newUnorderedWriter none m opts = Except.ok uw) : MemInv (Int.tdiv m 2) uw := by
  have hfold : ∀ (l : List (UnorderedWriter → UnorderedWriter)) (u : UnorderedWriter),
      (∀ opt ∈ l, KeepsMemory opt) → MemInv (Int.tdiv m 2) u →
      MemInv (Int.tdiv m 2) (l.foldl (fun uw opt => opt uw) u) := by
    intro l
    induction l with
    | nil => intro u _ hu; exact hu
    | cons opt rest ih =>
      intro u hl hu
      refine ih (opt u) (fun o ho => hl o (List.mem_cons_of_mem _ ho)) ?_
      obtain ⟨k1, k2, k3⟩ := hl opt (List.mem_cons_self _ _) u
      unfold MemInv at hu ⊢
      rw [k1, k2, k3]
      exact hu
  simp only [newUnorderedWriter, Except.ok.injEq] at h
  rw [← h]
  refine hfold opts _ hopts ⟨rfl, ?_, le_refl _, by simp [bufferBytes]⟩
  exact Int.tdiv_nonneg hm (by norm_num)

/-- The memory account holds after every sequence of calls that return `nil`. -/
theorem runCalls_inv (fs : Fileset) (fuel : Nat) (T : Int) (hT : 0 ≤ T) :
    ∀ (calls : List WriterCall) (uw uw1 : UnorderedWriter), MemInv T uw →
      runCalls fs fuel calls uw = (uw1, Ret.nil) → MemInv T uw1 := by
  intro calls
  induction calls with
  | nil =>
    intro uw uw1 hinv h
    simp only [runCalls, Prod.mk.injEq, and_true] at h
    rw [← h]
    exact hinv
  | cons call rest ih =>
    intro uw uw1 hinv h
    simp only [runCalls] at h
    split at h
    · rename_i uw2 happ
      refine ih uw2 uw1 ?_ h
      cases call with
      | put p datum appendFile r => exact (Put_nil fs T hT fuel uw uw2 p datum appendFile r hinv happ).1
      | delete p datum =>
        obtain ⟨k1, k2, _, k4⟩ := Delete_keeps fs fuel uw p datum
        simp only [WriterCall.apply] at happ
        rw [happ] at k1 k2 k4
        unfold MemInv at hinv ⊢
        simp only [] at k1 k2 k4
        rw [k1, k2, k4]
        exact hinv
      | copy iterate datum appendFile =>
        obtain ⟨k1, k2, k3, _⟩ := Copy_nil fs uw uw2 iterate datum appendFile happ
        obtain ⟨a, _, _, _⟩ := hinv
        exact ⟨k2.trans a, by rw [k1, a]; exact hT, by rw [k1, a], by simp [k1, k3, a, bufferBytes]⟩
    · rename_i uw2 ret hne happ
      simp only [Prod.mk.injEq] at h
      exact absurd h.2 hne

/-- When the writer and the renewer succeed, `withWriter` returns `nil`. -/
theorem withWriter_succeeds (fs : Fileset) (uw : UnorderedWriter)
    (hc : ∀ ids, ∃ id, fs.close ids = Except.ok id) (hr : ∀ id, fs.renew id = none) :
    ∃ uw1, uw.withWriter fs none = (uw1, none) := by
  obtain ⟨id, hid⟩ := hc uw.ids
  simp [UnorderedWriter.withWriter, hid, hr]

/-- With a threshold above zero and memory available, the loop of `Put`
returns `nil` within as many steps as the reader has bytes, and one more. -/
theorem putLoop_returns (fs : Fileset) (p datum : String) (hw : ∀ b, fs.write b = none)
    (hc : ∀ ids, ∃ id, fs.close ids = Except.ok id) (hr : ∀ id, fs.renew id = none) :
    ∀ (fuel : Nat) (uw : UnorderedWriter) (r : Reader), 0 < uw.memThreshold →
      0 < uw.memAvailable → (r.err = none ∨ r.err = some GoError.EOF) → r.data.length < fuel →
      (putLoop fs p datum fuel uw r).2 = Ret.nil := by
  intro fuel
  induction fuel with
  | zero => intro uw r _ _ _ h; omega
  | succ fuel ih =>
    intro uw r hT ha herr hfuel
    rw [putLoop]
    by_cases hL : (r.data.length : Int) < uw.memAvailable
    · rw [CopyN_short r _ hL]
      rcases herr with h | h <;> simp [h]
    · have hLe : uw.memAvailable ≤ (r.data.length : Int) := by omega
      rw [CopyN_enough r _ (le_of_lt ha) hLe]
      have hlen : ((List.take uw.memAvailable.toNat r.data).length : Int) = uw.memAvailable := by
        rw [List.length_take]
        omega
      simp only [hlen, sub_self, if_true]
      obtain ⟨uw2, h2⟩ := withWriter_succeeds fs
        { uw with buffer := uw.buffer ++ [BufferCall.write p datum
            (List.take uw.memAvailable.toNat r.data)], memAvailable := 0 } hc hr
      have hser : UnorderedWriter.serialize fs
          { uw with buffer := uw.buffer ++ [BufferCall.write p datum
            (List.take uw.memAvailable.toNat r.data)], memAvailable := 0 } = (uw2, none) := by
        simp only [UnorderedWriter.serialize, hw]
        simpa using h2
      rw [hser]
      obtain ⟨w1, w2, _⟩ := withWriter_nil fs _ uw2 _ h2
      simp only [] at w1 w2
      apply ih
      · simpa [w2] using hT
      · simpa [w1] using hT
      · exact herr
      · simp only [List.length_drop]
        omega

/-- With a threshold of zero the loop of `Put` never returns: each step
copies nothing and writes one more file set. -/
theorem putLoop_zero_threshold (fs : Fileset) (p datum : String) (hw : ∀ b, fs.write b = none)
    (hc : ∀ ids, ∃ id, fs.close ids = Except.ok id) (hr : ∀ id, fs.renew id = none) :
    ∀ (fuel : Nat) (uw : UnorderedWriter) (r : Reader), uw.memThreshold = 0 →
      uw.memAvailable = 0 → (putLoop fs p datum fuel uw r).2 = Ret.running := by
  intro fuel
  induction fuel with
  | zero => intro uw r _ _; rfl
  | succ fuel ih =>
    intro uw r hT ha
    rw [putLoop]
    have hcopy : CopyN r uw.memAvailable = ([], r, none) := by simp [CopyN, ha]
    rw [hcopy]
    simp only [List.length_nil, Nat.cast_zero, sub_zero, ha, if_true]
    obtain ⟨uw2, h2⟩ := withWriter_succeeds fs
      { uw with buffer := uw.buffer ++ [BufferCall.write p datum []], memAvailable := 0 } hc hr
    have hser : UnorderedWriter.serialize fs
        { uw with buffer := uw.buffer ++ [BufferCall.write p datum []], memAvailable := 0 } =
        (uw2, none) := by
      simp only [UnorderedWriter.serialize, hw]
      simpa using h2
    rw [hser]
    obtain ⟨w1, w2, _⟩ := withWriter_nil fs _ uw2 _ h2
    simp only [] at w1 w2
    apply ih
    · simpa [w2] using hT
    · simpa [w1] using hT

/-- With a threshold above zero, the loop of `Put` returns `nil` within two
steps more than the reader has bytes. -/
theorem putLoop_returns_any (fs : Fileset) (p datum : String) (hw : ∀ b, fs.write b = none)
    (hc : ∀ ids, ∃ id, fs.close ids = Except.ok id) (hr : ∀ id, fs.renew id = none)
    (fuel : Nat) (uw : UnorderedWriter) (r : Reader) (hT : 0 < uw.memThreshold)
    (ha : 0 ≤ uw.memAvailable) (herr : r.err = none ∨ r.err = some GoError.EOF)
    (hfuel : r.data.length + 2 ≤ fuel) : (putLoop fs p datum fuel uw r).2 = Ret.nil := by
  by_cases hz : uw.memAvailable = 0
  · obtain ⟨f, rfl⟩ : ∃ f, fuel = f + 1 := ⟨fuel - 1, by omega⟩
    rw [putLoop]
    have hcopy : CopyN r uw.memAvailable = ([], r, none) := by simp [CopyN, hz]
    rw [hcopy]
    simp only [List.length_nil, Nat.cast_zero, sub_zero, hz, if_true]
    obtain ⟨uw2, h2⟩ := withWriter_succeeds fs
      { uw with buffer := uw.buffer ++ [BufferCall.write p datum []], memAvailable := 0 } hc hr
    have hser : UnorderedWriter.serialize fs
        { uw with buffer := uw.buffer ++ [BufferCall.write p datum []], memAvailable := 0 } =
        (uw2, none) := by
      simp only [UnorderedWriter.serialize, hw]
      simpa using h2
    rw [hser]
    obtain ⟨w1, w2, _⟩ := withWriter_nil fs _ uw2 _ h2
    simp only [] at w1 w2
    apply putLoop_returns fs p datum hw hc hr
    · simpa [w2] using hT
    · simpa [w1] using hT
    · exact herr
    · omega
  · exact putLoop_returns fs p datum hw hc hr fuel uw r hT (by omega) herr (by omega)

/-! ## C11: the `ModifyFile` stream -/

/-- With a fan-in of at least one, an inner loop of `compact` in which every
call succeeds ends, and the ids it adds number at most one for every
`maxFanIn` ids left, and one for the rest. -/
theorem compactChunks_nil (fs : Fileset) (compactIDs : List ID → Except GoError ID)
    (uw : UnorderedWriter) (hk : 1 ≤ uw.maxFanIn)
    (hc : ∀ ids, ∃ id, compactIDs ids = Except.ok id)
    (hr : uw.renewer = true → ∀ id, fs.renew id = none) :
    ∀ (n fuel : Nat) (start : Int) (acc : List ID), 0 ≤ start →
      (uw.ids.length : Int) - start ≤ n → n < fuel →
      ∃ more, compactChunks fs compactIDs uw fuel start acc = some (acc ++ more, Ret.nil) ∧
        (start < (uw.ids.length : Int) →
          ((more.length : Int) - 1) * uw.maxFanIn < (uw.ids.length : Int) - start) ∧
        ((uw.ids.length : Int) ≤ start → more = []) := by
  intro n
  induction n with
  | zero =>
    intro fuel start acc h0 hn hfuel
    obtain ⟨f, rfl⟩ : ∃ f, fuel = f + 1 := ⟨fuel - 1, by omega⟩
    have hlt : ¬ start < (uw.ids.length : Int) := by omega
    exact ⟨[], by simp [compactChunks, hlt], fun h => absurd h hlt, fun _ => rfl⟩
  | succ n ih =>
    intro fuel start acc h0 hn hfuel
    obtain ⟨f, rfl⟩ : ∃ f, fuel = f + 1 := ⟨fuel - 1, by omega⟩
    by_cases hlt : start < (uw.ids.length : Int)
    · simp only [compactChunks, hlt, if_true]
      have hslice : ∀ stop, start ≤ stop → stop ≤ (uw.ids.length : Int) →
          sliceIDs uw.ids start stop = some ((uw.ids.drop start.toNat).take (stop - start).toNat) := by
        intro stop h1 h2
        simp [sliceIDs, h0, h1, h2]
      have hstop : sliceIDs uw.ids start
          (if start + uw.maxFanIn > (uw.ids.length : Int) then (uw.ids.length : Int)
            else start + uw.maxFanIn) =
          some ((uw.ids.drop start.toNat).take
            ((if start + uw.maxFanIn > (uw.ids.length : Int) then (uw.ids.length : Int)
              else start + uw.maxFanIn) - start).toNat) := by
        apply hslice
        · split <;> omega
        · split <;> omega
      rw [hstop]
      obtain ⟨id, hid⟩ := hc ((uw.ids.drop start.toNat).take
        ((if start + uw.maxFanIn > (uw.ids.length : Int) then (uw.ids.length : Int)
          else start + uw.maxFanIn) - start).toNat)
      simp only [hid]
      have hren : (if uw.renewer = true then fs.renew id else none) = none := by
        by_cases hb : uw.renewer = true
        · simp [hb, hr hb id]
        · simp [hb]
      rw [hren]
      obtain ⟨more, h1, h2, h3⟩ := ih f (start + uw.maxFanIn) (acc ++ [id]) (by omega) (by omega)
        (by omega)
      refine ⟨id :: more, by simp [h1], ?_, fun h => absurd hlt (by omega)⟩
      intro _
      by_cases hnext : start + uw.maxFanIn < (uw.ids.length : Int)
      · have := h2 hnext
        simp only [List.length_cons]
        push_cast
        have e : ((more.length : Int) + 1 - 1) * uw.maxFanIn =
            ((more.length : Int) - 1) * uw.maxFanIn + uw.maxFanIn := by ring
        rw [e]
        omega
      · rw [h3 (by omega)]
        simp
        omega
    · exact ⟨[], by simp [compactChunks, hlt], fun h => absurd h hlt, fun _ => rfl⟩

/-- With a fan-in of at least two, `compact` returns `nil` when every call
succeeds, within one pass more than the writer has ids, and leaves at most
`maxFanIn` ids. -/
theorem compact_returns (fs : Fileset) (compactIDs : List ID → Except GoError ID)
    (hc : ∀ ids, ∃ id, compactIDs ids = Except.ok id) :
    ∀ (fuel : Nat) (uw : UnorderedWriter), 2 ≤ uw.maxFanIn →
      (uw.renewer = true → ∀ id, fs.renew id = none) → uw.ids.length < fuel →
      ∃ uw1, uw.compact fs compactIDs fuel = some (uw1, Ret.nil) ∧
        (uw1.ids.length : Int) ≤ uw.maxFanIn ∧ uw1.maxFanIn = uw.maxFanIn := by
  intro fuel
  induction fuel with
  | zero => intro uw _ _ h; omega
  | succ fuel ih =>
    intro uw hk hr hfuel
    by_cases hgt : (uw.ids.length : Int) > uw.maxFanIn
    · obtain ⟨more, h1, h2, _⟩ := compactChunks_nil fs compactIDs uw (by omega) hc hr
        uw.ids.length (fuel + 1) 0 [] (le_refl 0) (by omega) hfuel
      simp only [UnorderedWriter.compact, hgt, if_true, h1, List.nil_append]
      have hlen : more.length < uw.ids.length := by
        have h3 := h2 (by omega)
        by_cases hm : more.length ≤ 1
        · omega
        · have h4 : ((more.length : Int) - 1) * 2 ≤ ((more.length : Int) - 1) * uw.maxFanIn :=
            Int.mul_le_mul_of_nonneg_left hk (by omega)
          omega
      have hfuel2 : more.length < fuel := by omega
      obtain ⟨uw1, g1, g2, g3⟩ := ih { uw with ids := more } hk hr hfuel2
      exact ⟨uw1, g1, g2, g3⟩
    · exact ⟨uw, by simp [UnorderedWriter.compact, hgt], by omega, rfl⟩

/-- With a fan-in of one, an inner loop of `compact` in which every call
succeeds either runs out of fuel or replaces each id left by one id. -/
theorem compactChunks_fan_in_one (fs : Fileset) (compactIDs : List ID → Except GoError ID)
    (uw : UnorderedWriter) (hk : uw.maxFanIn = 1)
    (hc : ∀ ids, ∃ id, compactIDs ids = Except.ok id)
    (hr : uw.renewer = true → ∀ id, fs.renew id = none) :
    ∀ (fuel : Nat) (start : Nat) (acc : List ID), start ≤ uw.ids.length →
      (∃ ids, compactChunks fs compactIDs uw fuel start acc = some (ids, Ret.running)) ∨
      (∃ more, compactChunks fs compactIDs uw fuel start acc = some (acc ++ more, Ret.nil) ∧
        more.length = uw.ids.length - start) := by
  intro fuel
  induction fuel with
  | zero => intro start acc _; exact Or.inl ⟨acc, rfl⟩
  | succ fuel ih =>
    intro start acc hs
    by_cases hlt : start < uw.ids.length
    · have hlt2 : ((start : Nat) : Int) < (uw.ids.length : Int) := by omega
      simp only [compactChunks, hlt2, if_true, hk]
      have hstop : sliceIDs uw.ids (start : Int)
          (if (start : Int) + 1 > (uw.ids.length : Int) then (uw.ids.length : Int)
            else (start : Int) + 1) = some ((uw.ids.drop start).take 1) := by
        have h1 : ¬ (start : Int) + 1 > (uw.ids.length : Int) := by omega
        simp only [h1, if_false, sliceIDs]
        have h2 : (0 : Int) ≤ start ∧ (start : Int) ≤ start + 1 ∧
            (start : Int) + 1 ≤ (uw.ids.length : Int) := by omega
        simp [h2]
      rw [hstop]
      obtain ⟨id, hid⟩ := hc ((uw.ids.drop start).take 1)
      simp only [hid]
      have hren : (if uw.renewer = true then fs.renew id else none) = none := by
        by_cases hb : uw.renewer = true
        · simp [hb, hr hb id]
        · simp [hb]
      rw [hren]
      have hcast : ((start : Int) + 1) = ((start + 1 : Nat) : Int) := by push_cast; rfl
      rw [hcast]
      rcases ih (start + 1) (acc ++ [id]) (by omega) with ⟨ids, h⟩ | ⟨more, h1, h2⟩
      · exact Or.inl ⟨ids, h⟩
      · exact Or.inr ⟨id :: more, by rw [h1]; simp, by simp [h2]; omega⟩
    · have hlt2 : ¬ ((start : Nat) : Int) < (uw.ids.length : Int) := by omega
      exact Or.inr ⟨[], by simp [compactChunks, hlt2], by simp; omega⟩

/-- With a fan-in of one and two ids or more, `compact` never returns when
every call succeeds: each pass leaves as many ids as it found. -/
theorem compact_fan_in_one (fs : Fileset) (compactIDs : List ID → Except GoError ID)
    (hc : ∀ ids, ∃ id, compactIDs ids = Except.ok id) :
    ∀ (fuel : Nat) (uw : UnorderedWriter), uw.maxFanIn = 1 →
      (uw.renewer = true → ∀ id, fs.renew id = none) → 2 ≤ uw.ids.length →
      ∃ uw1, uw.compact fs compactIDs fuel = some (uw1, Ret.running) := by
  intro fuel
  induction fuel with
  | zero => intro uw _ _ _; exact ⟨uw, rfl⟩
  | succ fuel ih =>
    intro uw hk hr hlen
    have hgt : (uw.ids.length : Int) > uw.maxFanIn := by omega
    simp only [UnorderedWriter.compact, hgt, if_true]
    rcases compactChunks_fan_in_one fs compactIDs uw hk hc hr (fuel + 1) 0 [] (Nat.zero_le _) with
      ⟨ids, h⟩ | ⟨more, h1, h2⟩
    · have h' : compactChunks fs compactIDs uw (fuel + 1) 0 [] = some (ids, Ret.running) := by
        simpa using h
      rw [h']
      exact ⟨uw, rfl⟩
    · have h' : compactChunks fs compactIDs uw (fuel + 1) 0 [] = some (more, Ret.nil) := by
        simpa using h1
      rw [h']
      have hlen2 : 2 ≤ more.length := by omega
      exact ih { uw with ids := more } hk hr hlen2

/-! ## The commit index -/

/-- The first loop of `genCommitIndex` panics when an id has less than ten
bytes, and otherwise yields the first ten bytes of every id. -/
theorem commitIDs_eq (commits : List PfsCommit) :
    commitIDs commits =
      if ∀ c ∈ commits, 10 ≤ c.Id.length then some (commits.map (fun c : PfsCommit => c.Id.take 10))
      else none := by
  induction commits with
  | nil => simp [commitIDs]
  | cons c rest ih =>
    simp only [commitIDs, ih, List.mem_cons, forall_eq_or_imp, List.map_cons]
    by_cases h1 : c.Id.length < 10
    · have h2 : ¬ 10 ≤ c.Id.length := by omega
      simp [h1, h2]
    · have h2 : 10 ≤ c.Id.length := by omega
      simp only [h1, h2, if_false, true_and]
      by_cases h3 : ∀ c ∈ rest, 10 ≤ c.Id.length
      · rw [if_pos h3, if_pos h3]
      · rw [if_neg h3, if_neg h3]

/-- The function `sort.Strings` returns the same list for every order of the
strings given. -/
theorem sortStrings_perm {l1 l2 : List (List Nat)} (h : l1.Perm l2) :
    sortStrings l1 = sortStrings l2 := by
  unfold sortStrings
  exact List.eq_of_perm_of_sorted
    (((List.perm_insertionSort _ l1).trans h).trans (List.perm_insertionSort _ l2).symm)
    (List.sorted_insertionSort _ l1) (List.sorted_insertionSort _ l2)

/-- The commit index is the same for every order of the commits. -/
theorem genCommitIndex_perm {commits1 commits2 : List PfsCommit} (h : commits1.Perm commits2) :
    genCommitIndex commits1 = genCommitIndex commits2 := by
  simp only [genCommitIndex, commitIDs_eq]
  have hiff : (∀ c ∈ commits1, 10 ≤ c.Id.length) ↔ (∀ c ∈ commits2, 10 ≤ c.Id.length) :=
    ⟨fun h1 c hc => h1 c (h.mem_iff.mpr hc), fun h2 c hc => h2 c (h.mem_iff.mp hc)⟩
  by_cases h2 : ∀ c ∈ commits2, 10 ≤ c.Id.length
  · rw [if_pos (hiff.mpr h2), if_pos h2]
    simp only []
    rw [sortStrings_perm (h.map _)]
  · have h1 : ¬ ∀ c ∈ commits1, 10 ≤ c.Id.length := fun h1 => h2 (hiff.mp h1)
    rw [if_neg h1, if_neg h2]

/-- A message that `insertMessage` has inserted is in the table. -/
theorem insertMessage_mem (table table1 : List JobInfo) (message : JobInfo)
    (h : insertMessage table message = (table1, none)) : message ∈ table1 := by
  unfold insertMessage at h
  split at h
  · simp at h
  · simp only [Prod.mk.injEq, and_true] at h
    rw [← h]
    simp

/-! ## The pipeline chosen by the poller -/

/-- The loop that chooses a pipeline, entered with a name already chosen:
the result is that name or one of those visited, and no name among them is
smaller. -/
theorem choose_fold (visited : List String) : ∀ (acc : String), acc ≠ "" →
    (∀ p ∈ visited, p ≠ "") →
    (visited.foldl
        (fun pipeline p => if pipeline = "" ∨ p.data < pipeline.data then p else pipeline) acc = acc ∨
      visited.foldl
        (fun pipeline p => if pipeline = "" ∨ p.data < pipeline.data then p else pipeline) acc ∈
        visited) ∧
    (visited.foldl
      (fun pipeline p => if pipeline = "" ∨ p.data < pipeline.data then p else pipeline)
      acc).data ≤ acc.data ∧
    ∀ p ∈ visited, (visited.foldl
      (fun pipeline p => if pipeline = "" ∨ p.data < pipeline.data then p else pipeline)
      acc).data ≤ p.data := by
  induction visited with
  | nil => intro acc _ _; exact ⟨Or.inl rfl, le_refl _, fun p hp => absurd hp (List.not_mem_nil p)⟩
  | cons x xs ih =>
    intro acc hacc hne
    have hx : x ≠ "" := hne x (List.mem_cons_self _ _)
    have hxs : ∀ p ∈ xs, p ≠ "" := fun p hp => hne p (List.mem_cons_of_mem _ hp)
    simp only [List.foldl_cons, hacc, false_or]
    by_cases hlt : x.data < acc.data
    · simp only [hlt, if_true]
      obtain ⟨h1, h2, h3⟩ := ih x hx hxs
      refine ⟨Or.inr ?_, le_trans h2 (le_of_lt hlt), ?_⟩
      · rcases h1 with h | h
        · rw [h]; exact List.mem_cons_self _ _
        · exact List.mem_cons_of_mem _ h
      · intro p hp
        rcases List.mem_cons.mp hp with rfl | hp
        · exact h2
        · exact h3 p hp
    · simp only [hlt, if_false]
      obtain ⟨h1, h2, h3⟩ := ih acc hacc hxs
      refine ⟨?_, h2, ?_⟩
      · rcases h1 with h | h
        · exact Or.inl h
        · exact Or.inr (List.mem_cons_of_mem _ h)
      · intro p hp
        rcases List.mem_cons.mp hp with rfl | hp
        · exact le_trans h2 (not_lt.mp hlt)
        · exact h3 p hp

/-- Of names that are not empty, the loop chooses one that is visited and
that no name visited is smaller than. -/
theorem choosePipeline_min (visited : List String) (hne : visited ≠ [])
    (hnames : ∀ p ∈ visited, p ≠ "") :
    choosePipeline visited ∈ visited ∧
      ∀ p ∈ visited, (choosePipeline visited).data ≤ p.data := by
  cases visited with
  | nil => exact absurd rfl hne
  | cons x xs =>
    have hx : x ≠ "" := hnames x (List.mem_cons_self _ _)
    have hxs : ∀ p ∈ xs, p ≠ "" := fun p hp => hnames p (List.mem_cons_of_mem _ hp)
    obtain ⟨h1, h2, h3⟩ := choose_fold xs x hx hxs
    have hstart : choosePipeline (x :: xs) = xs.foldl
        (fun pipeline p => if pipeline = "" ∨ p.data < pipeline.data then p else pipeline) x := by
      simp [choosePipeline]
    rw [hstart]
    refine ⟨?_, ?_⟩
    · rcases h1 with h | h
      · rw [h]; exact List.mem_cons_self _ _
      · exact List.mem_cons_of_mem _ h
    · intro p hp
      rcases List.mem_cons.mp hp with rfl | hp
      · exact h2
      · exact h3 p hp

/-- The pipeline chosen does not depend on the order in which the names are
visited. -/
theorem choosePipeline_perm (l visited : List String) (hne : l ≠ [])
    (hnames : ∀ p ∈ l, p ≠ "") (hperm : visited.Perm l) :
    choosePipeline visited ∈ l ∧ ∀ p ∈ l, (choosePipeline visited).data ≤ p.data := by
  have hne2 : visited ≠ [] := fun h => hne (by rw [h] at hperm; exact hperm.symm.eq_nil)
  obtain ⟨h1, h2⟩ := choosePipeline_min visited hne2
    (fun p hp => hnames p (hperm.mem_iff.mp hp))
  exact ⟨hperm.mem_iff.mp h1, fun p hp => h2 p (hperm.mem_iff.mpr hp)⟩

/-- A polling cycle in which every event is sent empties `dbPipelines` and
sends one write event for each pipeline, in strictly ascending order. -/
theorem pollCycle_events (visit : Nat → List String → List String) (sendTaken : Nat → Bool)
    (hvisit : ∀ j l, (visit j l).Perm l) (hsend : ∀ j, sendTaken j = true) :
    ∀ (fuel i : Nat) (dbPipelines : List String), (∀ p ∈ dbPipelines, p ≠ "") →
      dbPipelines.Nodup → dbPipelines.length ≤ fuel →
      (pollCycle visit sendTaken fuel i dbPipelines).1 = [] ∧
      ((pollCycle visit sendTaken fuel i dbPipelines).2.map (fun ev => ev.pipeline)).Perm
        dbPipelines ∧
      ((pollCycle visit sendTaken fuel i dbPipelines).2.map (fun ev => ev.pipeline)).Sorted
        (fun a b => a.data < b.data) ∧
      ∀ ev ∈ (pollCycle visit sendTaken fuel i dbPipelines).2, ev.eventType = EventType.writeEv := by
  intro fuel
  induction fuel with
  | zero =>
    intro i db _ _ hlen
    have : db = [] := List.length_eq_zero.mp (by omega)
    subst this
    simp [pollCycle]
  | succ fuel ih =>
    intro i db hnames hnodup hlen
    by_cases hdb : db = []
    · subst hdb
      simp [pollCycle]
    · obtain ⟨hmem, hmin⟩ := choosePipeline_perm db (visit i db) hdb hnames (hvisit i db)
      have hfilter : db.filter (fun p => decide (p ≠ choosePipeline (visit i db))) =
          db.erase (choosePipeline (visit i db)) := by
        have hfun : (fun p => decide (p ≠ choosePipeline (visit i db))) =
            (fun p => p != choosePipeline (visit i db)) := by
          funext p
          by_cases h : p = choosePipeline (visit i db) <;> simp [h]
        rw [hfun, ← hnodup.erase_eq_filter]
      have hnames2 : ∀ p ∈ db.erase (choosePipeline (visit i db)), p ≠ "" :=
        fun p hp => hnames p (List.mem_of_mem_erase hp)
      have hlen2 : (db.erase (choosePipeline (visit i db))).length ≤ fuel := by
        rw [List.length_erase_of_mem hmem]
        omega
      obtain ⟨g1, g2, g3, g4⟩ := ih (i + 1) _ hnames2 (hnodup.erase _) hlen2
      simp only [pollCycle, hdb, if_false, pollOne, hsend, if_true, hfilter, List.singleton_append,
        List.map_cons]
      refine ⟨g1, ?_, ?_, ?_⟩
      · exact (List.Perm.cons _ g2).trans (List.perm_cons_erase hmem).symm
      · refine List.sorted_cons.mpr ⟨?_, g3⟩
        intro b hb
        have hb2 : b ∈ db.erase (choosePipeline (visit i db)) := g2.mem_iff.mp hb
        have hbne : b ≠ choosePipeline (visit i db) := fun h => by
          rw [h] at hb2
          exact (hnodup.not_mem_erase) hb2
        have hle := hmin b (List.mem_of_mem_erase hb2)
        rcases lt_or_eq_of_le hle with h | h
        · exact h
        · exact absurd (String.ext h).symm hbne
      · intro ev hev
        rcases List.mem_cons.mp hev with rfl | hev
        · rfl
        · exact g4 ev hev

/-! ## Lexical paths -/

/-- A string without a slash is one element. -/
theorem splitSlash_plain (a : List Char) (ha : '/' ∉ a) : splitSlash a = [a] := by
  induction a with
  | nil => rfl
  | cons c cs ih =>
    have hc : c ≠ '/' := fun h => ha (by rw [h]; exact List.mem_cons_self _ _)
    have hcs : '/' ∉ cs := fun h => ha (List.mem_cons_of_mem _ h)
    simp [splitSlash, hc, ih hcs]

/-- The elements of a string start with what stands before its first slash. -/
theorem splitSlash_append (a b : List Char) (ha : '/' ∉ a) :
    splitSlash (a ++ '/' :: b) = a :: splitSlash b := by
  induction a with
  | nil => simp [splitSlash]
  | cons c cs ih =>
    have hc : c ≠ '/' := fun h => ha (by rw [h]; exact List.mem_cons_self _ _)
    have hcs : '/' ∉ cs := fun h => ha (List.mem_cons_of_mem _ h)
    simp [splitSlash, hc, ih hcs]

/-- One step of `path.Clean` on a relative path keeps the stack a good one. -/
theorem GoodStack.step {stack : List (List Char)} (h : GoodStack stack) (comp : List Char)
    (hc : '/' ∉ comp) : GoodStack (cleanStep false stack comp) := by
  unfold cleanStep
  split
  · exact h
  · rename_i hne
    have h1 : comp ≠ [] := fun e => hne (Or.inl e)
    have h2 : comp ≠ ['.'] := fun e => hne (Or.inr e)
    split
    · rename_i hdd
      cases stack with
      | nil => exact ⟨h1, h2, hc, fun _ c hmem => absurd hmem (List.not_mem_nil c), trivial⟩
      | cons top rest =>
        simp only []
        split
        · rename_i htop
          refine ⟨h1, h2, hc, ?_, h⟩
          intro _ c hmem
          rcases List.mem_cons.mp hmem with e | hmem
          · rw [e]; exact htop
          · exact h.2.2.2.1 htop c hmem
        · exact h.2.2.2.2
    · rename_i hdd
      exact ⟨h1, h2, hc, fun e => absurd e hdd, h⟩

/-- For a path made of the diff directory and, after a slash each, a repo
name, a commit id and a shard, `pathToDiff` takes the commit id for the
shard, the repo name for the commit id and the empty string for the repo
name. -/
theorem pathToDiff_shifted (dir : String) (repo id shard : List Char) (hrepo : '/' ∉ repo)
    (hid : '/' ∉ id) (hshard : '/' ∉ shard) :
    pathToDiff dir ⟨(diffDir dir).data ++ ('/' :: (repo ++ ('/' :: (id ++ ('/' :: shard)))))⟩ =
      (ParseUint ⟨id⟩).map (fun n => ⟨⟨"", ⟨repo⟩⟩, n⟩) := by
  have htrim : TrimPrefix
      ⟨(diffDir dir).data ++ ('/' :: (repo ++ ('/' :: (id ++ ('/' :: shard)))))⟩ (diffDir dir) =
      ⟨'/' :: (repo ++ ('/' :: (id ++ ('/' :: shard))))⟩ := by
    unfold TrimPrefix
    have hpre : (diffDir dir).data.isPrefixOf
        ((diffDir dir).data ++ ('/' :: (repo ++ ('/' :: (id ++ ('/' :: shard)))))) = true :=
      List.isPrefixOf_iff_prefix.mpr (List.prefix_append _ _)
    simp only [hpre, if_true, List.drop_left]
  have hsplit : splitSlash ('/' :: (repo ++ ('/' :: (id ++ ('/' :: shard))))) =
      [[], repo, id, shard] := by
    have h0 := splitSlash_append [] (repo ++ ('/' :: (id ++ ('/' :: shard)))) (by simp)
    rw [List.nil_append] at h0
    rw [h0, splitSlash_append repo _ hrepo, splitSlash_append id _ hid,
      splitSlash_plain shard hshard]
  unfold pathToDiff
  rw [htrim]
  simp only [hsplit]
  have hlen : ¬ ([[], repo, id, shard] : List (List Char)).length < 3 := by simp
  rw [if_neg hlen]
  have h2 : ([[], repo, id, shard] : List (List Char)).getD 2 [] = id := rfl
  have h1 : ([[], repo, id, shard] : List (List Char)).getD 1 [] = repo := rfl
  have h0 : ([[], repo, id, shard] : List (List Char)).getD 0 [] = [] := rfl
  rw [h2, h1, h0]
  cases ParseUint ⟨id⟩ <;> rfl

/-! ## Reads in states that differ in open diffs only -/

theorem OpenEquiv_refl (d : Driver) : OpenEquiv d d := by
  refine ⟨rfl, rfl, ?_⟩
  intro diff
  cases d.diffs.get diff with
  | none => trivial
  | some a => exact ⟨rfl, rfl, rfl, rfl, rfl, fun _ => rfl⟩

/-- A state in which one open diff has other `Appends` and `SizeBytes`. -/
theorem OpenEquiv_store (d : Driver) (k : Diff) (old : DiffInfo)
    (appends : Option (List (String × Append))) (sizeBytes : Nat)
    (hget : d.diffs.get k = some old) (hopen : old.finished = none) :
    OpenEquiv d
      ⟨d.diffs.store k { old with appends := appends, sizeBytes := sizeBytes }, d.dags,
        d.branches⟩ := by
  refine ⟨rfl, rfl, ?_⟩
  intro diff
  simp only []
  rw [DiffMap.get_store d.diffs k diff _ old hget]
  by_cases hk : diff = k
  · rw [if_pos hk, hk, hget]
    exact ⟨rfl, rfl, rfl, rfl, rfl, fun h => absurd hopen h⟩
  · rw [if_neg hk]
    cases d.diffs.get diff with
    | none => trivial
    | some a => exact ⟨rfl, rfl, rfl, rfl, rfl, fun _ => rfl⟩

/-- The loop of `inspectFile` returns the same in two states that differ in
open diffs only. -/
theorem inspectFileLoop_open (flt : ShardFilter) (d1 d2 : Driver) (h : OpenEquiv d1 d2)
    (file : File) (shard : Nat) (frm : Option Commit) :
    ∀ (fuel : Nat) (commit : Option Commit) (fileInfo : FileInfo) (blockRefs : List BlockRef)
      (seen : List String),
      inspectFileLoop flt d1 file shard frm fuel commit fileInfo blockRefs seen =
        inspectFileLoop flt d2 file shard frm fuel commit fileInfo blockRefs seen := by
  intro fuel
  induction fuel with
  | zero =>
    intro commit fileInfo blockRefs seen
    cases commit <;> simp [inspectFileLoop]
  | succ fuel ih =>
    intro commit fileInfo blockRefs seen
    cases commit with
    | none => simp [inspectFileLoop]
    | some c =>
      simp only [inspectFileLoop]
      split
      · rfl
      · have hd := h.2.2 ⟨c, shard⟩
        cases h1 : d1.diffs.get ⟨c, shard⟩ with
        | none =>
          cases h2 : d2.diffs.get ⟨c, shard⟩ with
          | none => rfl
          | some b => simp [h1, h2] at hd
        | some a =>
          cases h2 : d2.diffs.get ⟨c, shard⟩ with
          | none => simp [h1, h2] at hd
          | some b =>
            simp only [h1, h2] at hd
            obtain ⟨_, hp, _, hf, _, hrest⟩ := hd
            simp only []
            by_cases hopen : a.finished = none
            · have hopen2 : b.finished = none := by rw [← hf]; exact hopen
              rw [if_pos hopen, if_pos hopen2, ← hp]
              exact ih _ _ _ _
            · have hab : a = b := hrest hopen
              subst hab
              simp only [hopen, if_false, ih]

/-- The method `inspectFile` returns the same in two states that differ in
open diffs only. -/
theorem inspectFile_open (flt : ShardFilter) (d1 d2 : Driver) (h : OpenEquiv d1 d2)
    (file : File) (shard : Nat) (frm : Option Commit) (fuel : Nat) :
    inspectFile flt d1 file shard frm fuel = inspectFile flt d2 file shard frm fuel := by
  simp only [inspectFile, canonicalCommit_congr d2 d1 file.commit h.1,
    inspectFileLoop_open flt d1 d2 h]

theorem listFileChildren_open (flt : ShardFilter) (d1 d2 : Driver) (h : OpenEquiv d1 d2)
    (shard : Nat) (frm : Option Commit) (fuel : Nat) :
    ∀ (children : List File) (result : List FileInfo),
      listFileChildren flt d1 shard frm fuel children result =
        listFileChildren flt d2 shard frm fuel children result := by
  intro children
  induction children with
  | nil => intro result; rfl
  | cons child rest ih =>
    intro result
    simp only [listFileChildren, inspectFile_open flt d1 d2 h, ih]

/-- What `PutFile` changes in the state is the `Appends` and the `SizeBytes`
of an open diff. -/
theorem PutFile_open (d : Driver) (file : File) (shard : Nat)
    (blocks : Except DriverError (List BlockRef)) (fuel : Nat) :
    OpenEquiv d (PutFile d file shard blocks fuel).1 := by
  cases blocks with
  | error e => exact OpenEquiv_refl d
  | ok blockRefs =>
    rcases PutFile_state d file shard blockRefs fuel with ⟨h, _⟩ |
      ⟨c, di, appends, appends1, _, hget, hopen, _, _, h⟩
    · rw [h]
      exact OpenEquiv_refl d
    · rcases h with ⟨h, _⟩ | ⟨a, _, h⟩
      · rw [h]
        exact OpenEquiv_store d ⟨c, shard⟩ di (some appends1) di.sizeBytes hget hopen
      · rw [h]
        exact OpenEquiv_store d ⟨c, shard⟩ di _ _ hget hopen

/-- The loop of `inspectFile` passes over a path of open diffs: entered at
its start it returns what it returns entered at its end, when the
from-commit is none of the commits passed over. -/
theorem inspectFileLoop_skips (flt : ShardFilter) (d : Driver) (file : File) (shard : Nat)
    (frm : Option Commit) (fileInfo : FileInfo) (blockRefs : List BlockRef) (seen : List String)
    (fuel : Nat) (ancestor : Option Commit) :
    ∀ (cs : List Commit) (start : Option Commit), openPath d shard start cs ancestor →
      (∀ c ∈ cs, atFrom frm c = false) →
      inspectFileLoop flt d file shard frm (fuel + cs.length) start fileInfo blockRefs seen =
        inspectFileLoop flt d file shard frm fuel ancestor fileInfo blockRefs seen := by
  intro cs
  induction cs with
  | nil =>
    intro start hpath _
    simp only [openPath] at hpath
    rw [hpath]
    rfl
  | cons c rest ih =>
    intro start hpath hfrom
    obtain ⟨hstart, di, hget, hopen, hrest⟩ := hpath
    rw [hstart]
    have hc : atFrom frm c = false := hfrom c (List.mem_cons_self _ _)
    have hlen : fuel + (c :: rest).length = (fuel + rest.length) + 1 := by
      simp only [List.length_cons]; omega
    rw [hlen]
    simp only [inspectFileLoop, hc, hget, hopen, if_true, Bool.false_eq_true, if_false]
    exact ih di.parentCommit hrest (fun x hx => hfrom x (List.mem_cons_of_mem _ hx))

/-! ## `StartCommit` with a parent, on several shards -/

/-- When `StartCommit` with a `parentID` on a branch returns no error for one
shard and a commit that no shard has seen, it returns the error that the
branch already exists for that shard followed by any other: for the second
shard the commit is the head of the branch, and `branchParent` returns the
parent stored for the first. -/
theorem StartCommit_parent_later_shard (d d1 : Driver) (repo id p b : String)
    (started : Option Nat) (s1 s2 : Nat) (rest : List Nat) (hp : p ≠ "") (hb : b ≠ "")
    (hnew : commitSeen d ⟨repo, id⟩ = false)
    (h1 : StartCommit d repo id p b started [s1] = (d1, Status.ok)) :
    StartCommit d repo id p b started (s1 :: s2 :: rest) =
      (d1, Status.error (DriverError.branchExists b p p)) := by
  obtain ⟨x, d1', hx, hins, hrest, _⟩ := StartCommit_first_shard d d1 repo id p b started s1 [] h1
  simp only [StartCommit, Prod.mk.injEq, and_true] at hrest
  subst hrest
  obtain ⟨hshape, hp1, -, -⟩ := startCommitDiff_ok d repo id p b started s1 x hx
  have hdiff : x.diff = ⟨⟨repo, id⟩, s1⟩ := by rw [hshape]
  have hbranch : x.branch = b := by rw [hshape]
  have hpar : x.parentCommit = some ⟨repo, p⟩ := hp1 hp
  have hnewx : commitSeen d x.diff.commit = false := by rw [hdiff]; exact hnew
  have hbx : x.branch ≠ "" := by rw [hbranch]; exact hb
  obtain ⟨hhead1, hidb⟩ := insertDiffInfo_new d d1' x hnewx hbx hins
  rw [hdiff, hbranch] at hhead1
  rw [hdiff, hbranch] at hidb
  simp only at hhead1 hidb
  have hio := insertDiffInfo_ok d d1' x hins
  have hget1 : d1'.diffs.get ⟨⟨repo, id⟩, s1⟩ = some x := by
    rw [DiffMap.get_insert d.diffs d1'.diffs x hio, hdiff]
    simp
  have hseen1 : commitSeen d1' ⟨repo, id⟩ = true := commitSeen_of_get d1' _ s1 x hget1
  have hall1 : ∀ sc ∈ (mget d1'.diffs repo).getD [], ∀ di, mget sc.2 id = some di →
      di.parentCommit = x.parentCommit := by
    obtain ⟨shardMap, hsm, hd1'⟩ := DiffMap.insert_ok d.diffs d1'.diffs x hio
    rw [hdiff] at hsm hd1'
    simp only at hsm hd1'
    intro sc hsc di hdi
    rw [hd1', mget_mset_self] at hsc
    simp only [Option.getD_some] at hsc
    rcases mem_mset _ _ _ _ hsc with hold | hnew'
    · exfalso
      unfold commitSeen at hnew
      simp only [hsm, Option.getD_some] at hnew
      have := List.any_eq_false.mp hnew sc hold
      simp [hdi] at this
    · rw [hnew'] at hdi
      simp only [mget_mset_self, Option.some.injEq] at hdi
      rw [← hdi]
  have hbp : branchParent d1' ⟨repo, id⟩ b = Res.ok (some ⟨repo, p⟩) := by
    unfold branchParent
    simp only [hhead1, hidb, if_false, if_true]
    unfold commitSeen at hseen1
    obtain ⟨v, hv, sc, hsc, hm⟩ := findSome_of_any _ id hseen1
    simp only at hv
    rw [hv]
    simp only [Res.ok.injEq]
    rw [hall1 sc hsc v hm, hpar]
  have h2 := startCommitDiff_branchExists d1' repo id p b started s2 ⟨repo, p⟩ hp hb hbp
  simp only [StartCommit, startCommitShard, hx, hins, h2]

/-! ## C21: the commit index of a job -/

/-- C21.  For commits whose ids have at least ten bytes, `genCommitIndex`
returns the first ten bytes of every id, concatenated in ascending order of
these strings, and it returns the same index for every order of the commits.
So a job that `CreateJobInfo` has stored is among the jobs that
`ListJobInfos` returns for a request that names the input commits of the job
in any order, with the pipeline of the job or without a pipeline. -/
theorem genCommitIndex_sorted (commits : List PfsCommit)
    (hlen : ∀ c ∈ commits, 10 ≤ c.Id.length) :
    (∃ ids : List (List Nat), ids.Perm (commits.map (fun c : PfsCommit => c.Id.take 10)) ∧
      ids.Sorted (fun a b => a ≤ b) ∧ genCommitIndex commits = some ids.flatten) ∧
    (∀ commits1 : List PfsCommit, commits1.Perm commits →
      genCommitIndex commits1 = genCommitIndex commits) ∧
    (∀ (uuid : String) (now : Nat) (table table1 : List JobInfo) (request job : JobInfo),
      request.InputCommit = commits →
      CreateJobInfo uuid now table request = some (table1, Except.ok job) →
      ∀ q : ListJobRequest, q.InputCommit.Perm commits →
        (q.Pipeline = none ∨ q.Pipeline = some request.PipelineName) →
        ∃ result, ListJobInfos table1 q = some result ∧ job ∈ result) := by
  have hidx : genCommitIndex commits =
      some (sortStrings (commits.map (fun c : PfsCommit => c.Id.take 10))).flatten := by
    simp only [genCommitIndex, commitIDs_eq]
    rw [if_pos hlen]
  refine ⟨⟨sortStrings (commits.map (fun c : PfsCommit => c.Id.take 10)),
    List.perm_insertionSort (fun a b => a ≤ b) (commits.map (fun c : PfsCommit => c.Id.take 10)),
    List.sorted_insertionSort (fun a b => a ≤ b) (commits.map (fun c : PfsCommit => c.Id.take 10)), hidx⟩, fun commits1 h => genCommitIndex_perm h, ?_⟩
  intro uuid now table table1 request job hreq hcreate q hq hpipe
  have hqidx : genCommitIndex q.InputCommit =
      some (sortStrings (commits.map (fun c : PfsCommit => c.Id.take 10))).flatten := by
    rw [genCommitIndex_perm hq, hidx]
  -- the job stored
  unfold CreateJobInfo at hcreate
  split at hcreate
  · simp at hcreate
  · split at hcreate
    · simp at hcreate
    · split at hcreate
      · simp at hcreate
      · rw [hreq, hidx] at hcreate
        simp only [] at hcreate
        split at hcreate
        · simp at hcreate
        · rename_i t hins
          simp only [Option.some.injEq, Prod.mk.injEq, Except.ok.injEq] at hcreate
          obtain ⟨ht, hj⟩ := hcreate
          have hmem : job ∈ table1 := by
            rw [← ht, ← hj]
            exact insertMessage_mem table t _ hins
          have hname : job.PipelineName = request.PipelineName := by rw [← hj]
          have hindex : job.CommitIndex =
              (sortStrings (commits.map (fun c : PfsCommit => c.Id.take 10))).flatten := by rw [← hj]
          unfold ListJobInfos
          rcases hpipe with hp | hp
          · rw [hp]
            simp only []
            split
            · rw [hqidx]
              exact ⟨_, rfl, by simp [List.mem_filter, hmem, hindex]⟩
            · exact ⟨_, rfl, hmem⟩
          · rw [hp]
            simp only []
            split
            · rw [hqidx]
              exact ⟨_, rfl, by simp [List.mem_filter, hmem, hindex, hname]⟩
            · exact ⟨_, rfl, by simp [List.mem_filter, hmem, hname]⟩

theorem genCommitIndex_sorted_witness :
    genCommitIndex [commitA, commitB] = genCommitIndex [commitB, commitA] ∧
    genCommitIndex [commitB, commitA] = some (bytesOf "aaaaaaaaaabbbbbbbbbb") :=
  ⟨(genCommitIndex_sorted [commitB, commitA] (by decide)).2.1 [commitA, commitB]
    (List.Perm.swap commitB commitA []), by decide⟩

/-! ## C22: the pipeline polled next -/

/-- C22.  For a set `dbPipelines` of pipeline names, none of them empty, in
whatever order a `range` loop visits it: the pipeline chosen in a call is a
name of the set that no name of the set is smaller than, and it is deleted
from the set.  So the calls of one polling cycle, as long as the event of
each is sent, send exactly one write event for every pipeline loaded, in
strictly ascending order of the names, and leave the set empty. -/
theorem pollPipelines_smallest_first (dbPipelines : List String) (hne : dbPipelines ≠ [])
    (hnames : ∀ p ∈ dbPipelines, p ≠ "") (hnodup : dbPipelines.Nodup) :
    (∀ (visit : List String → List String) (sendTaken : Bool), (visit dbPipelines).Perm dbPipelines →
      choosePipeline (visit dbPipelines) ∈ dbPipelines ∧
      (∀ p ∈ dbPipelines, (choosePipeline (visit dbPipelines)).data ≤ p.data) ∧
      choosePipeline (visit dbPipelines) ∉ (pollOne visit sendTaken dbPipelines).1 ∧
      ∀ p ∈ dbPipelines, p ≠ choosePipeline (visit dbPipelines) →
        p ∈ (pollOne visit sendTaken dbPipelines).1) ∧
    (∀ (visit : Nat → List String → List String) (sendTaken : Nat → Bool) (fuel i : Nat),
      (∀ j l, (visit j l).Perm l) → (∀ j, sendTaken j = true) → dbPipelines.length ≤ fuel →
      (pollCycle visit sendTaken fuel i dbPipelines).1 = [] ∧
      ((pollCycle visit sendTaken fuel i dbPipelines).2.map (fun ev => ev.pipeline)).Perm
        dbPipelines ∧
      ((pollCycle visit sendTaken fuel i dbPipelines).2.map (fun ev => ev.pipeline)).Sorted
        (fun a b => a.data < b.data) ∧
      ∀ ev ∈ (pollCycle visit sendTaken fuel i dbPipelines).2,
        ev.eventType = EventType.writeEv) := by
  refine ⟨?_, ?_⟩
  · intro visit sendTaken hperm
    obtain ⟨h1, h2⟩ := choosePipeline_perm dbPipelines (visit dbPipelines) hne hnames hperm
    refine ⟨h1, h2, ?_, ?_⟩
    · simp [pollOne]
    · intro p hp hpne
      simp [pollOne, hp, hpne]
  · intro visit sendTaken fuel i hvisit hsend hfuel
    exact pollCycle_events visit sendTaken hvisit hsend fuel i dbPipelines hnames hnodup hfuel

theorem pollPipelines_smallest_first_witness :
    ((pollCycle (fun _ l => l.reverse) (fun _ => true) 3 0 ["b", "a", "c"]).2.map
      (fun ev => ev.pipeline)).Sorted (fun a b => a.data < b.data) ∧
    (pollCycle (fun _ l => l.reverse) (fun _ => true) 3 0 ["b", "a", "c"]).2.map
      (fun ev => ev.pipeline) = ["a", "b", "c"] :=
  ⟨((pollPipelines_smallest_first ["b", "a", "c"] (by decide) (by decide) (by decide)).2
    (fun _ l => l.reverse) (fun _ => true) 3 0 (fun _ l => List.reverse_perm l) (fun _ => rfl)
    (by decide)).2.2.1, by decide⟩

/-! ## C23: the memory account of the unordered writer -/

/-- C23, as stated, fails.  A writer made with a threshold of 16 bytes has 8
bytes available; after a `Put` of three bytes it has 5 bytes available, a
buffer that is not empty and no file set.  A `Copy` then writes the buffer
out and one more file set, and resets the memory available to 8: the buffer
is serialized although the memory available did not reach zero.  And a
writer made with the threshold -4 has -2 bytes available. -/
theorem Copy_serializes_early :
    (newUnorderedWriter none 16 [] = Except.ok freshWriter ∧
      (freshWriter.Put plainFileset 4 "a" "" true threeBytes).2 = Ret.nil ∧
      (freshWriter.Put plainFileset 4 "a" "" true threeBytes).1.memAvailable = 5 ∧
      (freshWriter.Put plainFileset 4 "a" "" true threeBytes).1.ids = [] ∧
      (runCalls plainFileset 4 [WriterCall.put "a" "" true threeBytes,
        WriterCall.copy copyOk "" true] freshWriter).2 = Ret.nil ∧
      (runCalls plainFileset 4 [WriterCall.put "a" "" true threeBytes,
        WriterCall.copy copyOk "" true] freshWriter).1.ids = ["id", "id"] ∧
      (runCalls plainFileset 4 [WriterCall.put "a" "" true threeBytes,
        WriterCall.copy copyOk "" true] freshWriter).1.memAvailable = 8) ∧
    ((newUnorderedWriter none (-4) []).toOption.map (fun uw => uw.memAvailable) = some (-2)) := by
  refine ⟨⟨rfl, by decide, by decide, by decide, by decide, by decide, by decide⟩, by decide⟩

/-- C23, amended.  After `newUnorderedWriter` with a threshold `m >= 0` and
options that leave the memory account alone, and any sequence of `Put`,
`Delete` and `Copy` calls that return `nil`: `0 <= memAvailable <= m/2`, and
`memAvailable` is `m/2` less the content bytes in the buffer.  A further
`Put` of `L` bytes that returns `nil` writes the buffer out each time the
memory available reaches zero: no file set when `L` is less than the memory
available `a`, and `1 + (L - a) / (m/2)` file sets otherwise.  `Delete`
writes no file set.  A `Copy` that returns `nil` writes the buffer out when
it is not empty, whatever the memory available is, writes one more file set,
and leaves `m/2` bytes available. -/
theorem writer_memory_account (fs : Fileset) (m : Int) (hm : 0 ≤ m)
    (opts : List (UnorderedWriter → UnorderedWriter)) (hopts : ∀ opt ∈ opts, KeepsMemory opt)
    (uw0 : UnorderedWriter) (h0 : newUnorderedWriter none m opts = Except.ok uw0)
    (calls : List WriterCall) (fuel : Nat) (uw : UnorderedWriter)
    (hrun : runCalls fs fuel calls uw0 = (uw, Ret.nil)) :
    (0 ≤ uw.memAvailable ∧ uw.memAvailable ≤ Int.tdiv m 2 ∧
      uw.memAvailable = Int.tdiv m 2 - (bufferBytes uw.buffer : Int)) ∧
    (∀ (p datum : String) (appendFile : Bool) (r : Reader) (fuel1 : Nat) (uw1 : UnorderedWriter),
      uw.Put fs fuel1 p datum appendFile r = (uw1, Ret.nil) →
      (uw1.ids.length : Int) = uw.ids.length +
        (if (r.data.length : Int) < uw.memAvailable then 0
          else 1 + ((r.data.length : Int) - uw.memAvailable) / Int.tdiv m 2)) ∧
    (∀ (p datum : String) (fuel1 : Nat),
      (UnorderedWriter.Delete fs fuel1 uw p datum).1.ids = uw.ids) ∧
    (∀ (iterate : String → Bool → Option GoError) (datum : String) (appendFile : Bool)
        (uw1 : UnorderedWriter), uw.Copy fs iterate datum appendFile = (uw1, Ret.nil) →
      uw1.ids.length = uw.ids.length + (if uw.buffer = [] then 1 else 2) ∧
        uw1.memAvailable = Int.tdiv m 2) := by
  have hT : 0 ≤ Int.tdiv m 2 := Int.tdiv_nonneg hm (by norm_num)
  have hinv : MemInv (Int.tdiv m 2) uw :=
    runCalls_inv fs fuel _ hT calls uw0 uw (newUnorderedWriter_inv m hm opts hopts uw0 h0) hrun
  refine ⟨hinv.2, ?_, ?_, ?_⟩
  · intro p datum appendFile r fuel1 uw1 h
    exact (Put_nil fs _ hT fuel1 uw uw1 p datum appendFile r hinv h).2.2.2
  · intro p datum fuel1
    exact (Delete_keeps fs fuel1 uw p datum).2.2.1
  · intro iterate datum appendFile uw1 h
    obtain ⟨k1, _, _, k4⟩ := Copy_nil fs uw uw1 iterate datum appendFile h
    exact ⟨k4, k1.trans hinv.1⟩

theorem writer_memory_account_witness :
    0 ≤ (runCalls plainFileset 4 [WriterCall.put "a" "" true threeBytes] freshWriter).1.memAvailable ∧
    (runCalls plainFileset 4 [WriterCall.put "a" "" true threeBytes] freshWriter).1.memAvailable ≤
      Int.tdiv 16 2 ∧
    (runCalls plainFileset 4 [WriterCall.put "a" "" true threeBytes] freshWriter).1.memAvailable =
      Int.tdiv 16 2 - (bufferBytes
        (runCalls plainFileset 4 [WriterCall.put "a" "" true threeBytes] freshWriter).1.buffer : Int) :=
  (writer_memory_account plainFileset 16 (by decide) [] (by simp) freshWriter rfl
    [WriterCall.put "a" "" true threeBytes] 4 _ rfl).1

/-! ## C24: `StartCommit` with a parent on a new branch -/

/-- C24, on the code.  Whenever `StartCommit` with a parent and a branch
returns no error for one shard and a commit that no shard has seen, the same
call for that shard followed by others returns the error that the branch
already exists: the diff of the first shard makes the commit the head of
the branch, so that for the second shard `branchParent` returns the parent
of the diff just stored, and a parent found for the branch together with a
`parentID` is rejected.  So in repo `r` with the shards 0 and 1 and the
finished commit `p`, where branch `b` has no commit, `StartCommit` of `c1`
with the parent `p` on branch `b` for shard 0 alone stores a diff with the
parent `p` and the branch `b`, and for the shards 0 and 1, in either order,
it returns the error and leaves the second shard without a diff. -/
theorem StartCommit_second_shard_rejected :
    (∀ (d d1 : Driver) (repo id p b : String) (started : Option Nat) (s1 s2 : Nat)
        (rest : List Nat), p ≠ "" → b ≠ "" → commitSeen d ⟨repo, id⟩ = false →
      StartCommit d repo id p b started [s1] = (d1, Status.ok) →
      StartCommit d repo id p b started (s1 :: s2 :: rest) =
        (d1, Status.error (DriverError.branchExists b p p))) ∧
    canonicalCommit twoShardState ⟨"r", "b"⟩ = Res.ok ⟨"r", "b"⟩ ∧
    (StartCommit twoShardState "r" "c1" "p" "b" (some 4) [0]).2 = Status.ok ∧
    ((StartCommit twoShardState "r" "c1" "p" "b" (some 4) [0]).1.diffs.get ⟨⟨"r", "c1"⟩, 0⟩).map
      (fun diffInfo => (diffInfo.parentCommit, diffInfo.branch)) = some (some ⟨"r", "p"⟩, "b") ∧
    (StartCommit twoShardState "r" "c1" "p" "b" (some 4) [0, 1]).2 =
      Status.error (DriverError.branchExists "b" "p" "p") ∧
    (StartCommit twoShardState "r" "c1" "p" "b" (some 4) [1, 0]).2 =
      Status.error (DriverError.branchExists "b" "p" "p") ∧
    (StartCommit twoShardState "r" "c1" "p" "b" (some 4) [0, 1]).1.diffs.get ⟨⟨"r", "c1"⟩, 1⟩ =
      none :=
  ⟨fun d d1 repo id p b started s1 s2 rest hp hb hnew h1 =>
      StartCommit_parent_later_shard d d1 repo id p b started s1 s2 rest hp hb hnew h1,
    by decide⟩

/-! ## C25: the path of a diff -/

/-- C25, on the code.  A path made of the diff directory, a repo name, a commit
id and a shard, with a slash before each, loses the diff directory in
`pathToDiff` and is cut by `strings.Split` into the empty string, the repo
name, the commit id and the shard; `pathToDiff` then parses the commit id as
the shard, and returns `nil` unless the commit id is a number.  With the
directory `/pfs`, the diff of commit `c1` of repo `r` on shard 0 has the path
`/pfs/diff/r/c1/0`, for which `pathToDiff` returns `nil`, and `ListDiff` for
shard 0 sends nothing of what `CreateDiff` stored.  For the commit id `7`
the path gives a diff with an empty repo name, the commit id `r` and the
shard 7. -/
theorem pathToDiff_off_by_one :
    (∀ (dir : String) (repo id shard : List Char), '/' ∉ repo → '/' ∉ id → '/' ∉ shard →
      pathToDiff dir ⟨(diffDir dir).data ++ ('/' :: (repo ++ ('/' :: (id ++ ('/' :: shard)))))⟩ =
        (ParseUint ⟨id⟩).map (fun n => ⟨⟨"", ⟨repo⟩⟩, n⟩)) ∧
    diffPath "/pfs" ⟨⟨"r", "c1"⟩, 0⟩ = "/pfs/diff/r/c1/0" ∧
    splitSlash (TrimPrefix "/pfs/diff/r/c1/0" (diffDir "/pfs")).data =
      ["".data, "r".data, "c1".data, "0".data] ∧
    pathToDiff "/pfs" (diffPath "/pfs" ⟨⟨"r", "c1"⟩, 0⟩) = none ∧
    mget (CreateDiff "/pfs" [] diffOne) "/pfs/diff/r/c1/0" = some diffOne ∧
    ListDiff "/pfs" (CreateDiff "/pfs" [] diffOne) 0 walkOne [] = ([], none) ∧
    pathToDiff "/pfs" (diffPath "/pfs" ⟨⟨"r", "7"⟩, 0⟩) = some ⟨⟨"", "r"⟩, 7⟩ :=
  ⟨fun dir repo id shard hrepo hid hshard => pathToDiff_shifted dir repo id shard hrepo hid hshard,
    by decide⟩

/-! ## C26: writes of open commits and reads -/

/-- C26.  In two driver states that differ only in the `Appends` and the
`SizeBytes` of diffs whose `Finished` is nil, `inspectFile` returns the same
file info, the same block refs and the same error for every file, shard and
from-commit, and so do `GetFile`, `InspectFile` and `ListFile`.  And the
loop of `inspectFile` passes over open diffs: entered at an open commit, it
returns what it returns entered at the end of a path of open diffs, so at
the nearest ancestor whose diff is finished, for every from-commit that is
none of the open commits passed over. -/
theorem open_writes_invisible (d1 d2 : Driver) (h : OpenEquiv d1 d2) :
    (∀ (flt : ShardFilter) (file : File) (shard : Nat) (frm : Option Commit) (fuel : Nat),
      inspectFile flt d1 file shard frm fuel = inspectFile flt d2 file shard frm fuel ∧
      InspectFile flt d1 file frm shard fuel = InspectFile flt d2 file frm shard fuel ∧
      ListFile flt d1 file frm shard fuel = ListFile flt d2 file frm shard fuel ∧
      ∀ (client : Option DriverError) (offset size : Nat),
        GetFile client flt d1 file offset size frm shard fuel =
          GetFile client flt d2 file offset size frm shard fuel) ∧
    (∀ (flt : ShardFilter) (file : File) (shard : Nat) (frm : Option Commit)
        (fileInfo : FileInfo) (blockRefs : List BlockRef) (seen : List String) (fuel : Nat)
        (c : Commit) (cs : List Commit) (ancestor : Option Commit),
      openPath d1 shard (some c) cs ancestor → (∀ x ∈ cs, atFrom frm x = false) →
      inspectFileLoop flt d1 file shard frm (fuel + cs.length) (some c) fileInfo blockRefs seen =
        inspectFileLoop flt d1 file shard frm fuel ancestor fileInfo blockRefs seen) := by
  refine ⟨?_, ?_⟩
  · intro flt file shard frm fuel
    have hi := inspectFile_open flt d1 d2 h file shard frm fuel
    refine ⟨hi, ?_, ?_, ?_⟩
    · simp only [InspectFile, hi]
    · simp only [ListFile, hi, listFileChildren_open flt d1 d2 h]
    · intro client offset size
      simp only [GetFile, hi]
  · intro flt file shard frm fileInfo blockRefs seen fuel c cs ancestor hpath hfrom
    exact inspectFileLoop_skips flt d1 file shard frm fileInfo blockRefs seen fuel ancestor cs
      (some c) hpath hfrom

theorem open_writes_invisible_witness :
    inspectFile noFilter openOnFoo ⟨⟨"r", "c2"⟩, "foo"⟩ 0 none 8 =
      inspectFile noFilter (PutFile openOnFoo ⟨⟨"r", "c2"⟩, "foo"⟩ 0 (Except.ok [blockB]) 8).1
        ⟨⟨"r", "c2"⟩, "foo"⟩ 0 none 8 :=
  ((open_writes_invisible openOnFoo
    (PutFile openOnFoo ⟨⟨"r", "c2"⟩, "foo"⟩ 0 (Except.ok [blockB]) 8).1
    (PutFile_open openOnFoo ⟨⟨"r", "c2"⟩, "foo"⟩ 0 (Except.ok [blockB]) 8)).1
    noFilter ⟨⟨"r", "c2"⟩, "foo"⟩ 0 none 8).1

/-! ## C27: the directories of a file -/

/-- C28, on the code.  Repo `r` has the finished commit `c1`.
`registerCommitWaiter` for a request that lists the commits of `r` finds
`c1`, so the channel is answered: `c1` is sent on it and it is closed.  The
waiter with that channel is added to `commitWaiters` all the same, and the
`pulseCommitWaiters` of the next `StartCommit` in `r` sends on the closed
channel, which is a run-time panic.  When the repo has no commit, the
channel of the new waiter is open and empty, and the pulse sends the commit
on it, closes it and drops the waiter. -/
theorem registerCommitWaiter_keeps_answered :
    (registerCommitWaiter reduceOne leavesOf finishedOnce oneChan listAll [0] 0 4).2 = Status.ok ∧
    ((registerCommitWaiter reduceOne leavesOf finishedOnce oneChan listAll [0] 0 4).1.chans.map
      (fun ch => (ch.sent.map (fun commitInfo => commitInfo.commit), ch.closed))) =
      [([⟨"r", "c1"⟩], true)] ∧
    (registerCommitWaiter reduceOne leavesOf finishedOnce oneChan listAll [0] 0 4).1.commitWaiters =
      [⟨["r"], none, 0⟩] ∧
    (pulseCommitWaiters reduceOne startedTwice
      (registerCommitWaiter reduceOne leavesOf finishedOnce oneChan listAll [0] 0 4).1
      ⟨"r", "c2"⟩ (some CommitType.write) [0]).2 = Status.panic ∧
    (registerCommitWaiter reduceOne leavesOf repoState oneChan listAll [0] 0 4).1 =
      ⟨[⟨[], false⟩], [⟨["r"], none, 0⟩]⟩ ∧
    ((pulseCommitWaiters reduceOne (StartCommit repoState "r" "c2" "" "" (some 4) [0]).1
      (registerCommitWaiter reduceOne leavesOf repoState oneChan listAll [0] 0 4).1
      ⟨"r", "c2"⟩ (some CommitType.write) [0]).1.chans.map
      (fun ch => (ch.sent.map (fun commitInfo => commitInfo.commit), ch.closed))) =
      [([⟨"r", "c2"⟩], true)] ∧
    (pulseCommitWaiters reduceOne (StartCommit repoState "r" "c2" "" "" (some 4) [0]).1
      (registerCommitWaiter reduceOne leavesOf repoState oneChan listAll [0] 0 4).1
      ⟨"r", "c2"⟩ (some CommitType.write) [0]).1.commitWaiters = [] := by
  decide

/-! ## C29: `Put` returns -/

/-- C29, as stated, fails.  A writer made with a threshold of one byte has a
threshold of zero after the halving, and its `Put` never returns: whatever
the fuel, the loop is still running, although every read and every
serialization succeeds.  And a writer made with a validator returns the
error of the validator for a path that the validator rejects. -/
theorem Put_never_returns :
    (newUnorderedWriter none 1 [] = Except.ok tinyWriter ∧
      ∀ fuel, (tinyWriter.Put plainFileset fuel "a" "" true threeBytes).2 = Ret.running) ∧
    ((newUnorderedWriter none 16 [withValidator]).toOption.map
        (fun uw => (uw.Put plainFileset 4 "bad" "" true threeBytes).2) =
      some (Ret.err (GoError.msg "invalid path"))) := by
  refine ⟨⟨rfl, ?_⟩, by decide⟩
  intro fuel
  exact putLoop_zero_threshold plainFileset "a" _ (fun _ => rfl) (fun _ => ⟨"id", rfl⟩)
    (fun _ => rfl) fuel _ threeBytes rfl rfl

/-- C29, amended.  For a writer made by `newUnorderedWriter` with a threshold
of at least 2 and options that leave the memory account alone, after any
sequence of calls that returned `nil`: when the validator accepts the path,
the reader ends with `io.EOF`, and every write of a file set succeeds, `Put`
returns `nil`, within two steps more than the reader has bytes. -/
theorem Put_returns_nil (fs : Fileset) (m : Int) (hm : 2 ≤ m)
    (opts : List (UnorderedWriter → UnorderedWriter)) (hopts : ∀ opt ∈ opts, KeepsMemory opt)
    (uw0 : UnorderedWriter) (h0 : newUnorderedWriter none m opts = Except.ok uw0)
    (calls : List WriterCall) (fuel0 : Nat) (uw : UnorderedWriter)
    (hrun : runCalls fs fuel0 calls uw0 = (uw, Ret.nil))
    (p datum : String) (appendFile : Bool) (r : Reader) (hv : uw.validate p = none)
    (hread : r.err = none ∨ r.err = some GoError.EOF) (hw : ∀ b, fs.write b = none)
    (hc : ∀ ids, ∃ id, fs.close ids = Except.ok id) (hr : ∀ id, fs.renew id = none)
    (fuel : Nat) (hfuel : r.data.length + 2 ≤ fuel) :
    (uw.Put fs fuel p datum appendFile r).2 = Ret.nil := by
  have hT : 0 < Int.tdiv m 2 := by
    rw [Int.tdiv_eq_ediv (by omega) (by norm_num)]
    omega
  have hinv : MemInv (Int.tdiv m 2) uw :=
    runCalls_inv fs fuel0 _ (le_of_lt hT) calls uw0 uw
      (newUnorderedWriter_inv m (by omega) opts hopts uw0 h0) hrun
  simp only [UnorderedWriter.Put, hv]
  exact putLoop_returns_any fs p _ hw hc hr fuel _ r (by rw [hinv.1]; exact hT) hinv.2.1 hread
    hfuel

theorem Put_returns_nil_witness :
    (freshWriter.Put plainFileset 5 "a" "" true threeBytes).2 = Ret.nil :=
  Put_returns_nil plainFileset 16 (by decide) [] (by simp) freshWriter rfl [] 0 freshWriter rfl
    "a" "" true threeBytes rfl (Or.inl rfl) (fun _ => rfl) (fun _ => ⟨"id", rfl⟩) (fun _ => rfl)
    5 (by decide)

/-! ## C30: `compact` -/

/-- C30, as stated, fails.  With a fan-in of one and the two ids `a` and `b`,
every pass of `compact` replaces each id by one id, and `compact` never
returns: whatever the fuel, the loop is still running.  And with a fan-in of
two, three ids and a renewer that fails, `compact` returns the error of the
renewer and leaves the three ids, although every `storage.Compact`
succeeds. -/
theorem compact_never_returns :
    (fanInOne.maxFanIn = 1 ∧ fanInOne.ids = ["a", "b"] ∧
      ∀ fuel, ∃ uw1, fanInOne.compact plainFileset compactOk fuel = some (uw1, Ret.running)) ∧
    ((renewedWriter.compact renewFails compactOk 4).map (fun x => (x.1.ids, x.2)) =
      some (["a", "b", "c"], Ret.err (GoError.msg "renew failed"))) := by
  refine ⟨⟨rfl, rfl, ?_⟩, by decide⟩
  intro fuel
  exact compact_fan_in_one plainFileset compactOk (fun _ => ⟨"merged", rfl⟩) fuel fanInOne rfl
    (fun _ _ => rfl) (by decide)

/-- C30, amended.  For every `maxFanIn >= 2` and every list of file set ids,
when each `storage.Compact` call and each `renewer.Add` call succeeds,
`compact` returns `nil`, within one pass more than the writer has ids, and on
return `len(uw.ids) <= maxFanIn`. -/
theorem compact_terminates (fs : Fileset) (compactIDs : List ID → Except GoError ID)
    (uw : UnorderedWriter) (hk : 2 ≤ uw.maxFanIn)
    (hc : ∀ ids, ∃ id, compactIDs ids = Except.ok id)
    (hr : uw.renewer = true → ∀ id, fs.renew id = none) (fuel : Nat)
    (hfuel : uw.ids.length < fuel) :
    ∃ uw1, uw.compact fs compactIDs fuel = some (uw1, Ret.nil) ∧
      (uw1.ids.length : Int) ≤ uw.maxFanIn := by
  obtain ⟨uw1, h1, h2, _⟩ := compact_returns fs compactIDs hc fuel uw hk hr hfuel
  exact ⟨uw1, h1, h2⟩

theorem compact_terminates_witness :
    ∃ uw1, UnorderedWriter.compact plainFileset compactOk 4
        { freshWriter with ids := ["a", "b", "c"], maxFanIn := 2 } = some (uw1, Ret.nil) ∧
      (uw1.ids.length : Int) ≤ 2 :=
  compact_terminates plainFileset compactOk { freshWriter with ids := ["a", "b", "c"], maxFanIn := 2 }
    (by decide) (fun _ => ⟨"merged", rfl⟩) (fun _ _ => rfl) 4 (by decide)

end Pachyderm
